import Mathlib

/-!
# BoatManagement.c: a shallow embedding

The marina inventory program keeps its records in a global array `boats` of
`boatCount` pointers.  Here the array prefix `boats[0 .. boatCount-1]` is a
`List Boat`, so `boatCount` is the length of the list.

Conventions of the embedding.

* A `char` buffer is a `List Nat` of character codes.  The C string held by a
  buffer ends at the first code `0` or at the end of the list.
* `int` values are `Int`.  The conversions `%d` and `atoi` follow glibc on an
  LP64 machine: the digits are converted as a `long` (clamped) and the result
  is truncated to 32 bits.
* `double` values are IEEE 754 binary64 values (`Dbl`): a sign bit and the
  other 63 bits.  Arithmetic rounds to nearest, ties to even; infinities, NaN
  and the two zeros are represented.  A product and a sum are rounded one
  after the other (no fused multiply-add), and an invalid operation gives the
  default NaN of x86-64.  `%lf` and `%.2f` follow glibc.
* `malloc` and the stack give buffers with indeterminate contents.  Whatever
  `sscanf` does not assign keeps that content; it is an explicit argument
  (`u : Scanned`) of every function that scans a line.
* `strcpy` of more than 15 characters into `trailorTag[16]` writes past the
  member; the functions doing it return `none` on such input.
-/

namespace BoatManagement

/-! ## Constants -/

def MAX_BOATS : Nat := 120
def NAME_LENGTH : Nat := 128
def MAX_BOAT_LENGTH : Int := 100
def MAX_SLIP_NUM : Int := 85
def MIN_SLIP_NUM : Int := 1
def FIRST_BAY_LETTER : Nat := 65
def LAST_BAY_LETTER : Nat := 90
def MAX_SPACE_NUM : Int := 50
def MIN_SPACE_NUM : Int := 1

/-- Code of the comma, the field delimiter. -/
def COMMA : Nat := 44

/-! ## The type `double` -/

/-- An IEEE 754 binary64 value: the sign bit, and the other 63 bits (the
exponent field above the 52 fraction bits) read as one number. -/
structure Dbl where
  sign : Bool
  bits : Nat
deriving DecidableEq

/-- The 63 bits of an infinity: exponent field 2047, fraction 0.  Larger bits
are a NaN. -/
def INF_BITS : Nat := 2047 * 2 ^ 52

def Dbl.isNaN (d : Dbl) : Bool := decide (INF_BITS < d.bits)

def Dbl.isInf (d : Dbl) : Bool := decide (d.bits = INF_BITS)

def Dbl.isFinite (d : Dbl) : Bool := decide (d.bits < INF_BITS)

/-- The magnitude of a finite value in units of `2^-1074`. -/
def Dbl.units (d : Dbl) : Nat :=
  if d.bits < 2 ^ 52 then d.bits
  else (2 ^ 52 + d.bits % 2 ^ 52) * 2 ^ (d.bits / 2 ^ 52 - 1)

/-- The number a finite value stands for, in units of `2^-1074`. -/
def Dbl.scaled (d : Dbl) : Int := if d.sign then -(d.units : Int) else (d.units : Int)

/-- The number a finite value stands for. -/
def Dbl.toRat (d : Dbl) : ℚ := (d.scaled : ℚ) / ((2 ^ 1074 : Nat) : ℚ)

def bitLengthAux : Nat → Nat → Nat
  | 0, _ => 0
  | fuel + 1, n => if n = 0 then 0 else bitLengthAux fuel (n / 2) + 1

/-- The number of binary digits of `n`. -/
def bitLength (n : Nat) : Nat := bitLengthAux n n

/-- The integer `e` with `2^e ≤ n / d < 2^(e+1)`, for `n > 0` and `d > 0`. -/
def floorLog2 (n d : Nat) : Int :=
  let e0 : Int := (bitLength n : Int) - (bitLength d : Int)
  if n * 2 ^ (-e0).toNat < d * 2 ^ e0.toNat then e0 - 1 else e0

/-- The integer nearest to `n / d`, ties to even. -/
def roundDiv (n d : Nat) : Nat :=
  if 2 * (n % d) < d then n / d
  else if d < 2 * (n % d) then n / d + 1
  else if n / d % 2 = 0 then n / d else n / d + 1

/-- Rounding to nearest, ties to even: the `double` with sign `neg` whose
magnitude is nearest to `n / d`; an infinity on overflow. -/
def Dbl.round (neg : Bool) (n d : Nat) : Dbl :=
  if n = 0 then ⟨neg, 0⟩
  else
    let e := max (floorLog2 n d) (-1022)
    let m := roundDiv (n * 2 ^ (52 - e).toNat) (d * 2 ^ (e - 52).toNat)
    ⟨neg, min ((e + 1022).toNat * 2 ^ 52 + m) INF_BITS⟩

/-- The NaN an invalid operation produces (x86-64). -/
def Dbl.nan : Dbl := ⟨true, INF_BITS + 2 ^ 51⟩

/-- A NaN operand as it comes out of an operation: its quiet bit set. -/
def Dbl.quiet (d : Dbl) : Dbl := if d.bits / 2 ^ 51 % 2 = 1 then d else ⟨d.sign, d.bits + 2 ^ 51⟩

def Dbl.neg (d : Dbl) : Dbl := ⟨!d.sign, d.bits⟩

/-- The sum of two values neither of which is a NaN. -/
def Dbl.addNum (a b : Dbl) : Dbl :=
  if a.isInf then (if b.isInf && (a.sign != b.sign) then Dbl.nan else a)
  else if b.isInf then b
  else
    let s := a.scaled + b.scaled
    if s = 0 then ⟨a.sign && b.sign, 0⟩
    else Dbl.round (decide (s < 0)) s.natAbs (2 ^ 1074)

/-- The operation `a + b` on `double`. -/
def Dbl.add (a b : Dbl) : Dbl :=
  if a.isNaN then a.quiet else if b.isNaN then b.quiet else Dbl.addNum a b

/-- The operation `a - b` on `double`. -/
def Dbl.sub (a b : Dbl) : Dbl :=
  if a.isNaN then a.quiet else if b.isNaN then b.quiet else Dbl.addNum a b.neg

/-- The operation `a * b` on `double`. -/
def Dbl.mul (a b : Dbl) : Dbl :=
  if a.isNaN then a.quiet else if b.isNaN then b.quiet
  else if a.isInf || b.isInf then
    if a.bits = 0 ∨ b.bits = 0 then Dbl.nan else ⟨a.sign != b.sign, INF_BITS⟩
  else Dbl.round (a.sign != b.sign) (a.units * b.units) (2 ^ 2148)

/-- The conversion of an `int` to `double`. -/
def Dbl.ofInt (z : Int) : Dbl := Dbl.round (decide (z < 0)) z.natAbs 1

/-- The comparison `a < b` on `double`: false when either is a NaN. -/
def Dbl.lt (a b : Dbl) : Bool :=
  if a.isNaN || b.isNaN then false
  else if a.isInf then a.sign && !(b.isInf && b.sign)
  else if b.isInf then !b.sign
  else decide (a.scaled < b.scaled)

/-- The comparison `a <= b` on `double`: false when either is a NaN. -/
def Dbl.le (a b : Dbl) : Bool := !a.isNaN && !b.isNaN && !Dbl.lt b a

/-- The comparison `a == b` on `double`: false when either is a NaN. -/
def Dbl.eq (a b : Dbl) : Bool := Dbl.le a b && Dbl.le b a

/-- `r` is a `double` nearest to the number `q`: no finite `double` is nearer
to `q`. -/
def Dbl.Nearest (r : Dbl) (q : ℚ) : Prop :=
  ∀ y : Dbl, y.isFinite = true → |r.toRat - q| ≤ |y.toRat - q|

instance : LT Dbl := ⟨fun a b => Dbl.lt a b = true⟩
instance : LE Dbl := ⟨fun a b => Dbl.le a b = true⟩
instance (a b : Dbl) : Decidable (a < b) := inferInstanceAs (Decidable (Dbl.lt a b = true))
instance (a b : Dbl) : Decidable (a ≤ b) := inferInstanceAs (Decidable (Dbl.le a b = true))
instance : Add Dbl := ⟨Dbl.add⟩
instance : Sub Dbl := ⟨Dbl.sub⟩
instance : Mul Dbl := ⟨Dbl.mul⟩
instance : Neg Dbl := ⟨Dbl.neg⟩
/-- A decimal constant of the program text: the nearest `double`. -/
instance (n : Nat) : OfNat Dbl n := ⟨Dbl.round false n 1⟩
instance : OfScientific Dbl :=
  ⟨fun m s e => if s then Dbl.round false m (10 ^ e) else Dbl.round false (m * 10 ^ e) 1⟩

/-! ## Data model -/

inductive LocationType
  | SLIP
  | LAND
  | TRAILOR
  | STORAGE
deriving DecidableEq

/-- The union `info` together with the member that is active. -/
inductive Info
  | slipNumber (n : Int)
  | bayLetter (c : Nat)
  | trailorTag (t : List Nat)
  | storageNumber (n : Int)
deriving DecidableEq

structure Boat where
  name : List Nat
  length : Int
  info : Info
  amountOwed : Dbl
deriving DecidableEq

instance : Inhabited Boat := ⟨⟨[], 0, Info.slipNumber 0, 0⟩⟩

/-- The field `location`: the tag of the active union member. -/
def Boat.location (b : Boat) : LocationType :=
  match b.info with
  | Info.slipNumber _ => LocationType.SLIP
  | Info.bayLetter _ => LocationType.LAND
  | Info.trailorTag _ => LocationType.TRAILOR
  | Info.storageNumber _ => LocationType.STORAGE

/-- The table `RATES`, indexed by location. -/
def RATES : LocationType → Dbl
  | LocationType.SLIP => 12.5
  | LocationType.LAND => 14.0
  | LocationType.TRAILOR => 25.0
  | LocationType.STORAGE => 11.2

/-! ## Characters and strings of the C library -/

/-- Codes of a Lean string literal. -/
def str (s : String) : List Nat := s.toList.map Char.toNat

def tolower (c : Nat) : Nat := if 65 ≤ c ∧ c ≤ 90 then c + 32 else c

def toupper (c : Nat) : Nat := if 97 ≤ c ∧ c ≤ 122 then c - 32 else c

def isspace (c : Nat) : Bool := c = 32 || (9 ≤ c && c ≤ 13)

def isdigit (c : Nat) : Bool := 48 ≤ c && c ≤ 57

/-- The C string held by a buffer: the codes before the first `0`. -/
def cstr (s : List Nat) : List Nat := s.takeWhile (fun c => c != 0)

def strlen (s : List Nat) : Nat := (cstr s).length

/-- The library `strcmp`: difference of the first two codes that differ,
the end of a buffer reading as the terminator `0`. -/
def strcmp : List Nat → List Nat → Int
  | [], [] => 0
  | [], b :: _ => 0 - (b : Int)
  | a :: _, [] => (a : Int)
  | a :: as, b :: bs =>
    if a = 0 ∨ a ≠ b then (a : Int) - (b : Int) else strcmp as bs

/-- The library `strcasecmp`: as `strcmp` on the lower-cased codes. -/
def strcasecmp : List Nat → List Nat → Int
  | [], [] => 0
  | [], b :: _ => 0 - (tolower b : Int)
  | a :: _, [] => (tolower a : Int)
  | a :: as, b :: bs =>
    if tolower a = 0 ∨ tolower a ≠ tolower b then (tolower a : Int) - (tolower b : Int)
    else strcasecmp as bs

/-- The function `toLowerCase`: the lower-cased string of `src`. -/
def toLowerCase : List Nat → List Nat
  | [] => []
  | c :: rest => if c = 0 then [] else tolower c :: toLowerCase rest

/-! ## Lookup and ordering -/

def findBoatIndexFrom (lowerName : List Nat) : List Boat → Nat → Int
  | [], _ => -1
  | b :: rest, i =>
    if strcmp (toLowerCase b.name) lowerName = 0 then (i : Int)
    else findBoatIndexFrom lowerName rest (i + 1)

/-- The function `findBoatIndex`: index of the first boat with that name,
letter case ignored, or `-1`. -/
def findBoatIndex (boats : List Boat) (name : List Nat) : Int :=
  findBoatIndexFrom (toLowerCase name) boats 0

def compareBoats (a b : Boat) : Int := strcasecmp a.name b.name

/-- The three assignments exchanging `boats[i]` and `boats[j]`. -/
def swapBoats (boats : List Boat) (i j : Nat) : List Boat :=
  let temp := boats.getD i default
  (boats.set i (boats.getD j default)).set j temp

/-- The `for` loop of `quickSortBoats`, with `n` iterations left. -/
def partitionLoop (pivot : Boat) : Nat → List Boat → Int → Int → List Boat × Int
  | 0, boats, i, _ => (boats, i)
  | n + 1, boats, i, j =>
    if compareBoats (boats.getD j.toNat default) pivot < 0 then
      partitionLoop pivot n (swapBoats boats (i + 1).toNat j.toNat) (i + 1) (j + 1)
    else
      partitionLoop pivot n boats i (j + 1)

/-- The recursion of `quickSortBoats`, cut off after `fuel` nested calls. -/
def quickSortBoatsAux : Nat → List Boat → Int → Int → List Boat
  | 0, boats, _, _ => boats
  | fuel + 1, boats, low, high =>
    if low ≥ high then boats
    else
      let pivot := boats.getD high.toNat default
      let r := partitionLoop pivot (high - low).toNat boats (low - 1) low
      let boats2 := swapBoats r.1 (r.2 + 1).toNat high.toNat
      let pivotIndex := r.2 + 1
      let boats3 := quickSortBoatsAux fuel boats2 low (pivotIndex - 1)
      quickSortBoatsAux fuel boats3 (pivotIndex + 1) high

/-- The function `quickSortBoats`; the nesting depth is at most `high - low + 1`. -/
def quickSortBoats (boats : List Boat) (low high : Int) : List Boat :=
  quickSortBoatsAux (high - low + 1).toNat boats low high

def sortBoats (boats : List Boat) : List Boat :=
  quickSortBoats boats 0 ((boats.length : Int) - 1)

/-! ## Conversions of `sscanf` and `atoi` -/

/-- The destinations of `sscanf(line, "%127[^,],%d,%15[^,],%31[^,],%lf", ...)`:
`b->name`, `b->length`, `type`, `extra`, `b->amountOwed`. -/
structure Scanned where
  name : List Nat
  length : Int
  type : List Nat
  extra : List Nat
  amountOwed : Dbl
deriving DecidableEq

/-- The directive `%<width>[^,]`: the longest prefix of at most `width`
characters none of which is a comma, and the rest of the input. -/
def scanSet (width : Nat) (s : List Nat) : List Nat × List Nat :=
  let m := (s.takeWhile (fun c => c != 0 && c != COMMA)).take width
  (m, s.drop m.length)

def skipSpace (s : List Nat) : List Nat := s.dropWhile isspace

def leadingDigits (s : List Nat) : List Nat := s.takeWhile isdigit

/-- Value of a string of decimal digits. -/
def decValue (ds : List Nat) : Nat := ds.foldl (fun acc d => 10 * acc + (d - 48)) 0

/-- Result of `strtol` for the mathematical value `v`: clamped to `long`. -/
def clampLong (v : Int) : Int :=
  if v > 9223372036854775807 then 9223372036854775807
  else if v < -9223372036854775808 then -9223372036854775808
  else v

/-- Conversion of a `long` to `int`: the low 32 bits, two's complement. -/
def longToInt (v : Int) : Int := (v + 2147483648) % 4294967296 - 2147483648

/-- An optional sign: whether it is a minus, and the rest of the input. -/
def scanSign (s : List Nat) : Bool × List Nat :=
  match s with
  | 45 :: t => (true, t)
  | 43 :: t => (false, t)
  | _ => (false, s)

/-- The directive `%d`: white space, an optional sign, at least one digit. -/
def scanInt (s : List Nat) : Option (Int × List Nat) :=
  let sg := scanSign (skipSpace s)
  let ds := leadingDigits sg.2
  if ds = [] then none
  else
    let v : Int := if sg.1 then -(decValue ds : Int) else (decValue ds : Int)
    some (longToInt (clampLong v), sg.2.drop ds.length)

/-- The library `atoi`, that is `(int) strtol(s, NULL, 10)`. -/
def atoi (s : List Nat) : Int :=
  match scanInt s with
  | some (v, _) => v
  | none => 0

def isxdigit (c : Nat) : Bool := isdigit c || (97 ≤ c && c ≤ 102) || (65 ≤ c && c ≤ 70)

/-- Value of one hexadecimal digit. -/
def hexDigit (c : Nat) : Nat := if isdigit c then c - 48 else if 97 ≤ c then c - 87 else c - 55

/-- Value of a string of hexadecimal digits. -/
def hexValue (ds : List Nat) : Nat := ds.foldl (fun acc d => 16 * acc + hexDigit d) 0

/-- The exponent part at the head of `s`: the letter `ec` in either case, an
optional sign, digits.  It counts as `0` when it is absent or has no digit. -/
def scanExponent (ec : Nat) (s : List Nat) : Int :=
  match s with
  | c :: t =>
    if tolower c = ec then
      let sg := scanSign t
      let ds := leadingDigits sg.2
      if sg.1 then -(decValue ds : Int) else (decValue ds : Int)
    else 0
  | [] => 0

/-- The library `strtod` on text without leading white space: `inf`, `nan`,
a hexadecimal or a decimal number after an optional sign, converted to the
nearest `double`; `none` when the text starts with no number. -/
def strtod (s : List Nat) : Option Dbl :=
  let sg := scanSign s
  let t := sg.2
  if (t.take 3).map tolower = str "inf" then some ⟨sg.1, INF_BITS⟩
  else if (t.take 3).map tolower = str "nan" then some ⟨sg.1, INF_BITS + 2 ^ 51⟩
  else if (t.take 2).map tolower = str "0x" ∧
      ((t.drop 2).head?.any isxdigit ∨
        ((t.drop 2).head? = some 46 ∧ (t.drop 3).head?.any isxdigit)) then
    let ip := (t.drop 2).takeWhile isxdigit
    let r1 := (t.drop 2).drop ip.length
    let fp := match r1 with
      | 46 :: r => r.takeWhile isxdigit
      | _ => []
    let r2 := match r1 with
      | 46 :: r => r.drop fp.length
      | _ => r1
    let x := scanExponent 112 r2 - 4 * (fp.length : Int)
    some (Dbl.round sg.1 (hexValue (ip ++ fp) * 2 ^ x.toNat) (2 ^ (-x).toNat))
  else
    let ip := leadingDigits t
    let r1 := t.drop ip.length
    let fp := match r1 with
      | 46 :: r => leadingDigits r
      | _ => []
    let r2 := match r1 with
      | 46 :: r => r.drop fp.length
      | _ => r1
    if ip = [] ∧ fp = [] then none
    else
      let x := scanExponent 101 r2 - (fp.length : Int)
      some (Dbl.round sg.1 (decValue (ip ++ fp) * 10 ^ x.toNat) (10 ^ (-x).toNat))

/-- The loop of `%lf` that takes the characters of a number one by one, as
glibc does: digits, hexadecimal digits of a hexadecimal mantissa, a sign right
after the exponent letter, the exponent letter after a digit, one point.
`prev` is the character taken last; the result is what goes to `strtod`. -/
def floatChars (hex : Bool) : Bool → Bool → Bool → Nat → List Nat → List Nat
  | _, _, _, _, [] => []
  | gotDigit, gotDot, gotE, prev, c :: rest =>
    if isdigit c then c :: floatChars hex true gotDot gotE c rest
    else if !gotE && hex && isxdigit c then c :: floatChars hex true gotDot gotE c rest
    else if gotE && prev == (if hex then 112 else 101) && (c == 45 || c == 43) then
      c :: floatChars hex gotDigit gotDot gotE c rest
    else if gotDigit && !gotE && tolower c == (if hex then 112 else 101) then
      (if hex then 112 else 101) ::
        floatChars hex gotDigit true true (if hex then 112 else 101) rest
    else if c == 46 && !gotDot then c :: floatChars hex gotDigit true gotE c rest
    else []

/-- The characters `%lf` takes for `nan`, `inf` or `infinity` in either case;
`none` when the input starts one of these words and does not finish it. -/
def floatWord (s : List Nat) : Option (List Nat) :=
  if (s.take 3).map tolower = str "nan" then some (s.take 3)
  else if (s.take 3).map tolower = str "inf" then
    if (s.drop 3).head?.map tolower = some 105 then
      if ((s.drop 3).take 5).map tolower = str "inity" then some (s.take 8) else none
    else some (s.take 3)
  else none

/-- The directive `%lf` as glibc scans it: white space, an optional sign,
then `nan`, `inf`, `infinity`, or the characters of a decimal or hexadecimal
number, which `strtod` converts.  `none` when nothing is assigned. -/
def scanDouble (s : List Nat) : Option Dbl :=
  let s1 := skipSpace s
  let sg := if s1.head? = some 45 ∨ s1.head? = some 43 then s1.take 1 else []
  let s2 := s1.drop sg.length
  match s2 with
  | [] => none
  | c :: rest =>
    if tolower c = 110 ∨ tolower c = 105 then
      match floatWord s2 with
      | none => none
      | some w => strtod (sg ++ w)
    else
      let hex : Bool := c == 48 && rest.head?.map tolower == some 120
      let pre := if hex then s2.take 2 else if c = 48 then [48] else []
      let body := floatChars hex (c == 48 && !hex) false false 0 (s2.drop pre.length)
      let buf := sg ++ (pre ++ body)
      if buf.length = sg.length ∨ (hex = true ∧ buf.length = 2 + sg.length) then none
      else strtod buf

/-- The call `sscanf(line, "%127[^,],%d,%15[^,],%31[^,],%lf", ...)`: `u` is
the content of the destinations before the call, the result their content
after it.  Scanning stops at the first directive that does not match. -/
def sscanfBoat (u : Scanned) (line : List Nat) : Scanned :=
  let n := scanSet 127 line
  if n.1 = [] then u
  else
    let u1 := { u with name := n.1 }
    match n.2 with
    | 44 :: r2 =>
      match scanInt r2 with
      | none => u1
      | some (len, r3) =>
        let u2 := { u1 with length := len }
        match r3 with
        | 44 :: r4 =>
          let t := scanSet 15 r4
          if t.1 = [] then u2
          else
            let u3 := { u2 with type := t.1 }
            match t.2 with
            | 44 :: r6 =>
              let e := scanSet 31 r6
              if e.1 = [] then u3
              else
                let u4 := { u3 with extra := e.1 }
                match e.2 with
                | 44 :: r8 =>
                  match scanDouble r8 with
                  | none => u4
                  | some a => { u4 with amountOwed := a }
                | _ => u4
            | _ => u3
        | _ => u2
    | _ => u1

/-! ## Formatting of `fprintf` -/

def printNatAux : Nat → Nat → List Nat
  | 0, _ => []
  | fuel + 1, n =>
    if n < 10 then [48 + n] else printNatAux fuel (n / 10) ++ [48 + n % 10]

/-- Decimal digits of a natural number. -/
def printNat (n : Nat) : List Nat := printNatAux (n + 1) n

/-- The conversion `%d`. -/
def printInt (z : Int) : List Nat :=
  if z < 0 then 45 :: printNat z.natAbs else printNat z.toNat

/-- The conversion `%.2f`: the hundredths nearest to the value, ties to even,
after the sign; `inf` and `nan` for the values that are no numbers. -/
def printFixed2 (d : Dbl) : List Nat :=
  let cents := roundDiv (d.units * 100) (2 ^ 1074)
  let body :=
    if d.isNaN then str "nan"
    else if d.isInf then str "inf"
    else printNat (cents / 100) ++ [46, 48 + cents / 10 % 10, 48 + cents % 10]
  if d.sign then 45 :: body else body

/-! ## Persistence: one line of the file -/

def typeName : LocationType → List Nat
  | LocationType.SLIP => str "slip"
  | LocationType.LAND => str "land"
  | LocationType.TRAILOR => str "trailor"
  | LocationType.STORAGE => str "storage"

/-- The buffer `extra` that `saveCSV` fills by `sprintf`. -/
def saveExtra (b : Boat) : List Nat :=
  match b.info with
  | Info.slipNumber n => printInt n
  | Info.bayLetter c => [c]
  | Info.trailorTag t => cstr t
  | Info.storageNumber n => printInt n

/-- The line `saveCSV` writes for one boat:
`fprintf(file, "%s,%d,%s,%s,%.2f\n", ...)`. -/
def saveLine (b : Boat) : List Nat :=
  cstr b.name ++ COMMA :: (printInt b.length ++ COMMA :: (typeName b.location ++
    COMMA :: (cstr (saveExtra b) ++ COMMA :: (printFixed2 b.amountOwed ++ [10]))))

/-- The function `saveCSV`: the content of the file. -/
def saveCSV (boats : List Boat) : List Nat := (boats.map saveLine).flatten

/-- The body of the reading loop of `loadCSV` for one line: the `sscanf` call
and the dispatch on `type`.  `u` and `uinfo` are the indeterminate contents
of the fresh record and of the local buffers. -/
def loadBoat (u : Scanned) (uinfo : Info) (line : List Nat) : Option Boat :=
  let f := sscanfBoat u line
  if strcmp f.type (str "slip") = 0 then
    some ⟨f.name, f.length, Info.slipNumber (atoi f.extra), f.amountOwed⟩
  else if strcmp f.type (str "land") = 0 then
    some ⟨f.name, f.length, Info.bayLetter (f.extra.headD 0), f.amountOwed⟩
  else if strcmp f.type (str "trailor") = 0 then
    if strlen f.extra > 15 then none
    else some ⟨f.name, f.length, Info.trailorTag (cstr f.extra), f.amountOwed⟩
  else if strcmp f.type (str "storage") = 0 then
    some ⟨f.name, f.length, Info.storageNumber (atoi f.extra), f.amountOwed⟩
  else
    some ⟨f.name, f.length, uinfo, f.amountOwed⟩

/-! ## The store operations -/

/-- The function `checkCSV`: `1` when the line has exactly four commas. -/
def checkCSV (csvLine : List Nat) : Int :=
  if ((cstr csvLine).filter (fun c => c == COMMA)).length = 4 then 1 else -1

/-- The return points of `addBoat`, named after what each one prints. -/
inductive AddOutcome
  | added
  | full
  | invalidCSV
  | alreadyExists
  | lengthExceeds
  | invalidSlip
  | slipTaken
  | invalidBay
  | bayTaken
  | invalidTag
  | tagTaken
  | invalidSpace
  | spaceTaken
  | unknownType
deriving DecidableEq

def isSlip (n : Int) (b : Boat) : Bool :=
  match b.info with
  | Info.slipNumber m => m == n
  | _ => false

def isBay (bay : Nat) (b : Boat) : Bool :=
  match b.info with
  | Info.bayLetter c => toupper c == bay
  | _ => false

def isTag (extra : List Nat) (b : Boat) : Bool :=
  match b.info with
  | Info.trailorTag t => strcmp t extra == 0
  | _ => false

def isStorage (n : Int) (b : Boat) : Bool :=
  match b.info with
  | Info.storageNumber m => m == n
  | _ => false

/-- The assignment `boats[boatCount++] = b` followed by `sortBoats()`. -/
def insertBoat (boats : List Boat) (b : Boat) : List Boat := sortBoats (boats ++ [b])

/-- The function `addBoat`.  The result is the array after the call and the
return point taken; `none` when the tag copied into `trailorTag[16]` has more
than 15 characters. -/
def addBoat (u : Scanned) (boats : List Boat) (csvLine : List Nat) :
    Option (List Boat × AddOutcome) :=
  if boats.length ≥ MAX_BOATS then some (boats, AddOutcome.full)
  else if checkCSV csvLine ≠ 1 then some (boats, AddOutcome.invalidCSV)
  else
    let f := sscanfBoat u csvLine
    if boats.any (fun b => strcasecmp b.name f.name == 0) then
      some (boats, AddOutcome.alreadyExists)
    else if f.length > MAX_BOAT_LENGTH then some (boats, AddOutcome.lengthExceeds)
    else if strcmp f.type (str "slip") = 0 then
      let slipNumber := atoi f.extra
      if slipNumber < MIN_SLIP_NUM ∨ slipNumber > MAX_SLIP_NUM then
        some (boats, AddOutcome.invalidSlip)
      else if boats.any (isSlip slipNumber) then some (boats, AddOutcome.slipTaken)
      else
        some (insertBoat boats ⟨f.name, f.length, Info.slipNumber slipNumber, f.amountOwed⟩,
          AddOutcome.added)
    else if strcmp f.type (str "land") = 0 then
      let bay := toupper (f.extra.headD 0)
      if bay < FIRST_BAY_LETTER ∨ bay > LAST_BAY_LETTER ∨ strlen f.extra > 1 then
        some (boats, AddOutcome.invalidBay)
      else if boats.any (isBay bay) then some (boats, AddOutcome.bayTaken)
      else
        some (insertBoat boats ⟨f.name, f.length, Info.bayLetter (f.extra.headD 0), f.amountOwed⟩,
          AddOutcome.added)
    else if strcmp f.type (str "trailor") = 0 then
      if strlen f.extra = 0 ∨ strlen f.extra > 31 then some (boats, AddOutcome.invalidTag)
      else if boats.any (isTag f.extra) then some (boats, AddOutcome.tagTaken)
      else if strlen f.extra > 15 then none
      else
        some (insertBoat boats ⟨f.name, f.length, Info.trailorTag (cstr f.extra), f.amountOwed⟩,
          AddOutcome.added)
    else if strcmp f.type (str "storage") = 0 then
      let storageNumber := atoi f.extra
      if storageNumber < MIN_SPACE_NUM ∨ storageNumber > MAX_SPACE_NUM then
        some (boats, AddOutcome.invalidSpace)
      else if boats.any (isStorage storageNumber) then some (boats, AddOutcome.spaceTaken)
      else
        some (insertBoat boats
          ⟨f.name, f.length, Info.storageNumber storageNumber, f.amountOwed⟩, AddOutcome.added)
    else some (boats, AddOutcome.unknownType)

/-- The loop `for (i = index; i < boatCount - 1; i++) boats[i] = boats[i + 1]`,
with `n` iterations left. -/
def shiftDown : Nat → List Boat → Nat → List Boat
  | 0, boats, _ => boats
  | n + 1, boats, i => shiftDown n (boats.set i (boats.getD (i + 1) default)) (i + 1)

inductive RemoveOutcome
  | removed
  | noBoat
deriving DecidableEq

/-- The function `removeBoat`. -/
def removeBoat (boats : List Boat) (name : List Nat) : List Boat × RemoveOutcome :=
  let index := findBoatIndex boats name
  if index = -1 then (boats, RemoveOutcome.noBoat)
  else
    let shifted := shiftDown (boats.length - 1 - index.toNat) boats index.toNat
    (shifted.take (boats.length - 1), RemoveOutcome.removed)

inductive PayOutcome
  | paid
  | moreThanOwed
deriving DecidableEq

/-- The function `acceptPayment`; `none` when `index` is outside the array. -/
def acceptPayment (boats : List Boat) (index : Nat) (payment : Dbl) :
    Option (List Boat × PayOutcome) :=
  match boats[index]? with
  | none => none
  | some b =>
    if payment > b.amountOwed then some (boats, PayOutcome.moreThanOwed)
    else some (boats.set index { b with amountOwed := b.amountOwed - payment }, PayOutcome.paid)

/-- The function `newMonth`. -/
def newMonth (boats : List Boat) : List Boat :=
  boats.map (fun b =>
    { b with amountOwed := b.amountOwed + Dbl.ofInt b.length * RATES b.location })

/-! ## Valid records -/

/-- A non-empty string without a comma that fits in `width` characters. -/
def ValidField (width : Nat) (s : List Nat) : Prop :=
  s ≠ [] ∧ s.length ≤ width ∧ ∀ c ∈ s, c ≠ 0 ∧ c ≠ COMMA

/-- A payload in the range of its kind: slip 1..85, bay letter `A`..`Z` in
either case, storage space 1..50, a tag of 1 to 31 characters without a
comma. -/
def ValidInfo : Info → Prop
  | Info.slipNumber n => 1 ≤ n ∧ n ≤ 85
  | Info.bayLetter c => 65 ≤ toupper c ∧ toupper c ≤ 90
  | Info.trailorTag t => ValidField 31 t
  | Info.storageNumber n => 1 ≤ n ∧ n ≤ 50

/-- A non-negative amount with two decimal digits, as a `double`: the value
nearest to the amount in hundredths that `%.2f` prints for it. -/
def Dbl.TwoDecimals (d : Dbl) : Prop :=
  d.sign = false ∧ d.isFinite = true ∧
    d = Dbl.round false (roundDiv (d.units * 100) (2 ^ 1074)) 100

instance (d : Dbl) : Decidable d.TwoDecimals := by
  unfold Dbl.TwoDecimals; infer_instance

/-- A valid record: a name of 1 to 127 characters without a comma, a length
of 1 to 100 feet, a payload in range, and a non-negative amount owed with two
decimal digits. -/
def ValidRecord (r : Boat) : Prop :=
  ValidField 127 r.name ∧ 1 ≤ r.length ∧ r.length ≤ 100 ∧ ValidInfo r.info ∧
    r.amountOwed.TwoDecimals

instance (width : Nat) (s : List Nat) : Decidable (ValidField width s) := by
  unfold ValidField; infer_instance

instance (i : Info) : Decidable (ValidInfo i) := by
  cases i <;> unfold ValidInfo <;> infer_instance

instance (r : Boat) : Decidable (ValidRecord r) := by
  unfold ValidRecord; infer_instance

/-! ## Concrete values used in the examples -/

/-- One possible content of the destinations before `sscanf` runs. -/
def zeroed : Scanned := ⟨[], 0, [], [], 0⟩

/-- Another possible content of the destinations before `sscanf` runs. -/
def stale : Scanned := ⟨str "Old", -3, str "slip", str "9", 77⟩

/-- A third possible content: what an earlier call left there for a trailer
with tag `ZZ`. -/
def staleTrailer : Scanned := ⟨str "Old", 33, str "trailor", str "ZZ", 77⟩

/-- The record `{"Betty", 40, slip, 12, $0}`. -/
def betty : Boat := ⟨str "Betty", 40, Info.slipNumber 12, 0⟩

/-- The record `{"Jake", 16, land, 'A', $500}`. -/
def jake : Boat := ⟨str "Jake", 16, Info.bayLetter 65, 500⟩

/-- The record `{"Bob", 20, trailor, "ABCDEFGHIJKLMNOPQRSTUVW", $500}`, with a
tag of 23 characters. -/
def longTag : Boat := ⟨str "Bob", 20, Info.trailorTag (str "ABCDEFGHIJKLMNOPQRSTUVW"), 500⟩

/-- The record `{"Zed", 30, storage, 7, $10.50}`. -/
def zed : Boat := ⟨str "Zed", 30, Info.storageNumber 7, 10.5⟩

/-- The record `{"Sue", 3, storage, 7, $0}`. -/
def sue : Boat := ⟨str "Sue", 3, Info.storageNumber 7, 0⟩

/-- The record `{"Bob", 12, slip, 5, amount}`. -/
def bob (amount : Dbl) : Boat := ⟨str "Bob", 12, Info.slipNumber 5, amount⟩

/-- A full array: 120 trailers named `Aa`, `Ab`, ..., with tags `000` .. `119`. -/
def fullStore : List Boat :=
  (List.range 120).map fun i =>
    ⟨[65 + i / 26, 97 + i % 26], 20, Info.trailorTag [48 + i / 100, 48 + i / 10 % 10, 48 + i % 10], 0⟩

/-! ## The candidate a line is written for -/

def csvFieldsAux : List Nat → List Nat → List (List Nat)
  | [], cur => [cur.reverse]
  | c :: rest, cur =>
    if c = COMMA then cur.reverse :: csvFieldsAux rest [] else csvFieldsAux rest (c :: cur)

/-- The fields of a line as they are written: the text between its commas. -/
def csvFields (line : List Nat) : List (List Nat) := csvFieldsAux (cstr line) []

/-! ## Matching names, uniqueness, sortedness -/

/-- Two strings are equal ignoring letter case: they have the same characters
once every letter is lowered. -/
def equalIgnoringCase (a b : List Nat) : Prop := (cstr a).map tolower = (cstr b).map tolower

instance (a b : List Nat) : Decidable (equalIgnoringCase a b) := by
  unfold equalIgnoringCase; infer_instance

/-- Two payloads of the same kind hold the same value: equal slip numbers,
equal bay letters ignoring letter case, identical tag texts, equal storage
space numbers. -/
def samePayload : Info → Info → Prop
  | Info.slipNumber n, Info.slipNumber m => n = m
  | Info.bayLetter c, Info.bayLetter d => toupper c = toupper d
  | Info.trailorTag s, Info.trailorTag t => cstr s = cstr t
  | Info.storageNumber n, Info.storageNumber m => n = m
  | _, _ => False

instance (i j : Info) : Decidable (samePayload i j) := by
  cases i <;> cases j <;> unfold samePayload <;> infer_instance

/-- Two records clash: equal names ignoring letter case, or the same payload
in the same kind. -/
def Clash (a b : Boat) : Prop := equalIgnoringCase a.name b.name ∨ samePayload a.info b.info

instance (a b : Boat) : Decidable (Clash a b) := by
  unfold Clash; infer_instance

/-- The uniqueness invariant of the data model: no two records clash. -/
def Unique (boats : List Boat) : Prop := boats.Pairwise (fun a b => ¬ Clash a b)

instance (boats : List Boat) : Decidable (Unique boats) := by
  unfold Unique; infer_instance

/-- The store is sorted by name: every adjacent pair `(a, b)` has
`strcasecmp(a.name, b.name) ≤ 0`. -/
def SortedByName : List Boat → Prop
  | [] => True
  | [_] => True
  | a :: b :: rest => strcasecmp a.name b.name ≤ 0 ∧ SortedByName (b :: rest)

/-- Sortedness can be checked by running down the array. -/
def decideSorted : (boats : List Boat) → Decidable (SortedByName boats)
  | [] => isTrue trivial
  | [_] => isTrue trivial
  | a :: b :: rest =>
    match decideSorted (b :: rest) with
    | isTrue h =>
      if h0 : strcasecmp a.name b.name ≤ 0 then isTrue ⟨h0, h⟩
      else isFalse (fun hs => h0 hs.1)
    | isFalse h => isFalse (fun hs => h hs.2)

instance (boats : List Boat) : Decidable (SortedByName boats) := decideSorted boats

/-! ## `quickSortBoats` with a record of what it touches -/

/-- One observation of a call `quickSortBoats(low, high)`: either the array
element `boats[index]` is read or written, or `index` is the pivot index that
the call computes. -/
structure Event where
  isPivot : Bool
  low : Int
  index : Int
  high : Int
deriving DecidableEq

/-- The `for` loop of `quickSortBoats` as `partitionLoop`, recording every
array access: the read of `boats[j]` and, when it is below the pivot, the
exchange of `boats[i]` and `boats[j]`. -/
def partitionLoopLog (pivot : Boat) (low high : Int) :
    Nat → List Boat → Int → Int → List Boat × Int × List Event
  | 0, boats, i, _ => (boats, i, [])
  | n + 1, boats, i, j =>
    if compareBoats (boats.getD j.toNat default) pivot < 0 then
      let r := partitionLoopLog pivot low high n (swapBoats boats (i + 1).toNat j.toNat)
        (i + 1) (j + 1)
      (r.1, r.2.1, ⟨false, low, j, high⟩ :: ⟨false, low, i + 1, high⟩ ::
        ⟨false, low, j, high⟩ :: r.2.2)
    else
      let r := partitionLoopLog pivot low high n boats i (j + 1)
      (r.1, r.2.1, ⟨false, low, j, high⟩ :: r.2.2)

/-- The function `quickSortBoats` with `fuel` bounding the depth of the
recursion: `none` when a call with `low < high` finds the fuel used up,
otherwise the array and the record of all accesses and pivot indices. -/
def quickSortBoatsLog : Nat → List Boat → Int → Int → Option (List Boat × List Event)
  | 0, boats, low, high => if low ≥ high then some (boats, []) else none
  | fuel + 1, boats, low, high =>
    if low ≥ high then some (boats, [])
    else
      let pivot := boats.getD high.toNat default
      let r := partitionLoopLog pivot low high (high - low).toNat boats (low - 1) low
      let boats2 := swapBoats r.1 (r.2.1 + 1).toNat high.toNat
      let pivotIndex := r.2.1 + 1
      match quickSortBoatsLog fuel boats2 low (pivotIndex - 1) with
      | none => none
      | some (boats3, t1) =>
        match quickSortBoatsLog fuel boats3 (pivotIndex + 1) high with
        | none => none
        | some (boats4, t2) =>
          some (boats4, ⟨false, low, high, high⟩ :: r.2.2 ++
            ⟨false, low, pivotIndex, high⟩ :: ⟨false, low, high, high⟩ ::
            ⟨true, low, pivotIndex, high⟩ :: (t1 ++ t2))

/-- An observation stays inside the bounds of its own call, and that call
works inside `low .. high`. -/
def Event.Within (low high : Int) (e : Event) : Prop :=
  e.low ≤ e.index ∧ e.index ≤ e.high ∧ low ≤ e.low ∧ e.high ≤ high

instance (low high : Int) (e : Event) : Decidable (e.Within low high) := by
  unfold Event.Within; infer_instance

/-! ## Reading the file -/

/-- The characters one `fgets` call with room for `n` of them takes from the
file, and the rest of the file: it stops after a newline. -/
def fgetsAux : Nat → List Nat → List Nat × List Nat
  | 0, file => ([], file)
  | _ + 1, [] => ([], [])
  | n + 1, c :: file =>
    if c = 10 then ([c], file)
    else ((fgetsAux n file).1.cons c, (fgetsAux n file).2)

/-- The lines that successive calls `fgets(line, 256, file)` return until the
end of the file; `fuel` bounds their number. -/
def fileLinesAux : Nat → List Nat → List (List Nat)
  | 0, _ => []
  | _ + 1, [] => []
  | fuel + 1, c :: file =>
    (fgetsAux 255 (c :: file)).1 :: fileLinesAux fuel (fgetsAux 255 (c :: file)).2

/-- The lines of a file as `loadCSV` reads them; every call takes at least one
character, so the length of the file bounds their number. -/
def fileLines (file : List Nat) : List (List Nat) := fileLinesAux file.length file

/-- The reading loop of `loadCSV` over the lines of the file.  `g k` is the
indeterminate content of the fresh record and of the local buffers when the
array holds `k` records.  `none` when a tag of more than 15 characters is
copied into `trailorTag[16]`. -/
def loadLines (g : Nat → Scanned × Info) : List (List Nat) → List Boat → Option (List Boat)
  | [], boats => some boats
  | line :: rest, boats =>
    if boats.length ≥ MAX_BOATS then some boats
    else
      match loadBoat (g boats.length).1 (g boats.length).2 line with
      | none => none
      | some b => loadLines g rest (boats ++ [b])

/-- The function `loadCSV` on a file that could be opened. -/
def loadCSV (g : Nat → Scanned × Info) (file : List Nat) (boats : List Boat) :
    Option (List Boat) :=
  (loadLines g (fileLines file) boats).map sortBoats

/-! ## Sequences of calls -/

/-- One call of the command loop on the store. -/
inductive Op
  | add (u : Scanned) (csvLine : List Nat)
  | remove (name : List Nat)
  | month
  | pay (index : Nat) (payment : Dbl)

/-- The store after one call; `none` where the call has no defined result. -/
def step (boats : List Boat) : Op → Option (List Boat)
  | Op.add u csvLine => (addBoat u boats csvLine).map Prod.fst
  | Op.remove name => some (removeBoat boats name).1
  | Op.month => some (newMonth boats)
  | Op.pay index payment => (acceptPayment boats index payment).map Prod.fst

/-- The store after a sequence of calls. -/
def run : List Op → List Boat → Option (List Boat)
  | [], boats => some boats
  | op :: rest, boats => (step boats op).bind (run rest)

/-- The value `+infinity`. -/
def Dbl.inf : Dbl := ⟨false, INF_BITS⟩

theorem Dbl.round_sign (neg : Bool) (n d : Nat) : (Dbl.round neg n d).sign = neg := by
  unfold Dbl.round; split_ifs <;> rfl

theorem Dbl.round_bits_le (neg : Bool) (n d : Nat) : (Dbl.round neg n d).bits ≤ INF_BITS := by
  unfold Dbl.round; split_ifs
  · exact Nat.zero_le _
  · exact Nat.min_le_right _ _

theorem Dbl.units_eq_zero_iff (d : Dbl) : d.units = 0 ↔ d.bits = 0 := by
  unfold Dbl.units
  split_ifs with h
  · rfl
  · constructor
    · intro h0
      have : 0 < (2 ^ 52 + d.bits % 2 ^ 52) * 2 ^ (d.bits / 2 ^ 52 - 1) := by positivity
      omega
    · intro h0; rw [h0] at h; norm_num at h

theorem Dbl.scaled_nonneg_iff (d : Dbl) : 0 ≤ d.scaled ↔ d.sign = false ∨ d.bits = 0 := by
  have hu := Dbl.units_eq_zero_iff d
  unfold Dbl.scaled
  cases hs : d.sign
  · simp
  · simp only [if_true, Bool.true_eq_false, false_or]
    rw [← hu]; omega

theorem Dbl.isInf_bits (d : Dbl) : d.isInf = true ↔ d.bits = INF_BITS := by
  simp [Dbl.isInf]

theorem Dbl.isNaN_bits (d : Dbl) : d.isNaN = false ↔ d.bits ≤ INF_BITS := by
  simp [Dbl.isNaN]

theorem Dbl.zero_le_iff (d : Dbl) :
    (0 : Dbl) ≤ d ↔ d.isNaN = false ∧ (d.sign = false ∨ d.bits = 0) := by
  show Dbl.le ⟨false, 0⟩ d = true ↔ _
  have h0 : (⟨false, 0⟩ : Dbl).isNaN = false := by decide
  have h1 : (⟨false, 0⟩ : Dbl).isInf = false := by decide
  have h2 : (⟨false, 0⟩ : Dbl).scaled = 0 := by decide
  unfold Dbl.le Dbl.lt
  rw [h0, h1, h2]
  by_cases hn : d.isNaN = true
  · simp [hn]
  · have hn' : d.isNaN = false := by simpa using hn
    by_cases hi : d.isInf = true
    · have hb : d.bits ≠ 0 := by
        rw [(Dbl.isInf_bits d).1 hi]; decide
      simp [hn', hi, hb]
    · have hi' : d.isInf = false := by simpa using hi
      simp only [hn', hi', Bool.not_false, Bool.true_and, Bool.or_self, Bool.false_eq_true,
        if_false, Bool.not_eq_true', decide_eq_false_iff_not, not_lt, true_and]
      exact Dbl.scaled_nonneg_iff d

theorem Dbl.le_iff (a b : Dbl) :
    a ≤ b ↔ a.isNaN = false ∧ b.isNaN = false ∧ Dbl.lt b a = false := by
  show Dbl.le a b = true ↔ _
  unfold Dbl.le
  simp [Bool.and_eq_true, and_assoc]

theorem Dbl.round_nonneg (n d : Nat) : (0 : Dbl) ≤ Dbl.round false n d :=
  (Dbl.zero_le_iff _).2
    ⟨(Dbl.isNaN_bits _).2 (Dbl.round_bits_le _ _ _), Or.inl (Dbl.round_sign _ _ _)⟩

theorem Dbl.inf_sign (d : Dbl) (h0 : 0 ≤ d) (hi : d.isInf = true) : d.sign = false := by
  rcases ((Dbl.zero_le_iff d).1 h0).2 with h | h
  · exact h
  · rw [(Dbl.isInf_bits d).1 hi] at h; exact absurd h (by decide)

theorem Dbl.neg_scaled (p : Dbl) : p.neg.scaled = -p.scaled := by
  unfold Dbl.scaled Dbl.neg Dbl.units
  cases p.sign <;> simp

theorem roundDiv_mul_self (n c : Nat) (hc : 0 < c) : roundDiv (n * c) c = n := by
  unfold roundDiv
  rw [Nat.mul_mod_left, if_pos (by omega), Nat.mul_div_cancel _ hc]

theorem Dbl.round_bits_ne_zero (neg : Bool) (n : Nat) (hn : n ≠ 0) :
    (Dbl.round neg n (2 ^ 1074)).bits ≠ 0 := by
  unfold Dbl.round
  rw [if_neg hn]
  dsimp only
  have hINF : INF_BITS ≠ 0 := by decide
  by_cases he : floorLog2 n (2 ^ 1074) ≤ -1022
  · rw [max_eq_right he]
    have h1 : (52 - (-1022 : Int)).toNat = 1074 := by decide
    have h2 : ((-1022 : Int) - 52).toNat = 0 := by decide
    rw [h1, h2, pow_zero, Nat.mul_one, roundDiv_mul_self n _ (by positivity)]
    have h3 : ((-1022 : Int) + 1022).toNat = 0 := by decide
    rw [h3]
    omega
  · rw [max_eq_left (by omega)]
    have : 1 ≤ (floorLog2 n (2 ^ 1074) + 1022).toNat := by omega
    have h52 : (0 : Nat) < 2 ^ 52 := by positivity
    have : 2 ^ 52 ≤ (floorLog2 n (2 ^ 1074) + 1022).toNat * 2 ^ 52 := Nat.le_mul_of_pos_left _ (by omega)
    omega

theorem Dbl.lt_of_not_nan (a b : Dbl) (ha : a.isNaN = false) (hb : b.isNaN = false) :
    Dbl.lt a b = if a.isInf = true then a.sign && !(b.isInf && b.sign)
      else if b.isInf = true then !b.sign else decide (a.scaled < b.scaled) := by
  unfold Dbl.lt
  rw [if_neg (by simp [ha, hb])]

/-- The difference of a value that is `>= 0` and a value that is not greater,
not a NaN and not `+infinity`. -/
theorem Dbl.sub_cases (a p : Dbl) (ha : 0 ≤ a) (hnan : p.isNaN = false)
    (hlt : Dbl.lt a p = false) (hinf : p ≠ Dbl.inf) :
    0 ≤ a - p ∧ ((a - p).bits = 0 ↔ Dbl.lt p a = false) := by
  have ha' := (Dbl.zero_le_iff a).1 ha
  show 0 ≤ Dbl.sub a p ∧ ((Dbl.sub a p).bits = 0 ↔ _)
  have hsub : Dbl.sub a p = Dbl.addNum a p.neg := by
    unfold Dbl.sub
    rw [if_neg (by simp [ha'.1]), if_neg (by simp [hnan])]
  rw [hsub, Dbl.lt_of_not_nan p a hnan ha'.1]
  rw [Dbl.lt_of_not_nan a p ha'.1 hnan] at hlt
  have hpn : p.neg.isNaN = false := hnan
  have hpi : p.neg.isInf = p.isInf := rfl
  have hps : p.neg.sign = !p.sign := rfl
  have hinfsign : p.isInf = true → p.sign = true := by
    intro hi
    cases hs : p.sign
    · exfalso; apply hinf
      obtain ⟨s, b⟩ := p
      simp only at hs
      have := (Dbl.isInf_bits _).1 hi
      simp only at this
      rw [hs, this]; rfl
    · rfl
  unfold Dbl.addNum
  by_cases hia : a.isInf = true
  · have hsa := Dbl.inf_sign a ha hia
    have hab : a.bits ≠ 0 := by rw [(Dbl.isInf_bits a).1 hia]; decide
    rw [if_pos hia, hpi, hps, hsa]
    by_cases hip : p.isInf = true
    · rw [hip, hinfsign hip]
      simp [ha, hab]
    · have hip' : p.isInf = false := by simpa using hip
      rw [hip']
      simp [ha, hab, hia]
  have hia' : a.isInf = false := by simpa using hia
  rw [if_neg hia, hpi]
  rw [if_neg hia] at hlt
  by_cases hip : p.isInf = true
  · rw [if_pos hip, if_pos hip, hia']
    have hsp := hinfsign hip
    refine ⟨(Dbl.zero_le_iff _).2 ⟨hpn, Or.inl (by rw [hps, hsp]; rfl)⟩, ?_⟩
    have : p.neg.bits ≠ 0 := by
      show p.bits ≠ 0
      rw [(Dbl.isInf_bits p).1 hip]; decide
    simp [this, hsp]
  rw [if_neg hip, if_neg hip, if_neg hia]
  rw [if_neg hip, decide_eq_false_iff_not] at hlt
  rw [Dbl.neg_scaled]
  dsimp only
  split_ifs with hs
  · refine ⟨(Dbl.zero_le_iff _).2 ⟨by rfl, Or.inr rfl⟩, ?_⟩
    simp only [true_iff, decide_eq_false_iff_not]
    omega
  · have hd : decide (a.scaled + -p.scaled < 0) = false := by
      rw [decide_eq_false_iff_not]; omega
    rw [hd]
    refine ⟨Dbl.round_nonneg _ _, ?_⟩
    have hne := Dbl.round_bits_ne_zero false (a.scaled + -p.scaled).natAbs (by omega)
    simp only [hne, false_iff, decide_eq_false_iff_not, not_not]
    omega

theorem Dbl.eq_zero_iff (d : Dbl) (h : 0 ≤ d) : Dbl.eq d 0 = true ↔ d.bits = 0 := by
  have hd := (Dbl.zero_le_iff d).1 h
  have h0 : (0 : Dbl).isNaN = false := by decide
  have hle : Dbl.le 0 d = true := h
  unfold Dbl.eq
  rw [hle, Bool.and_true]
  show d ≤ 0 ↔ _
  rw [Dbl.le_iff, Dbl.lt_of_not_nan 0 d h0 hd.1]
  have h1 : (0 : Dbl).isInf = false := by decide
  have h2 : (0 : Dbl).scaled = 0 := by decide
  rw [h1, h2]
  by_cases hi : d.isInf = true
  · have hb : d.bits ≠ 0 := by rw [(Dbl.isInf_bits d).1 hi]; decide
    simp [hd.1, hi, hb, Dbl.inf_sign d h hi]
  · simp only [hd.1, h0, true_and, Bool.false_eq_true, if_false, if_neg hi,
      decide_eq_false_iff_not, not_lt]
    have := Dbl.scaled_nonneg_iff d
    have hu := Dbl.units_eq_zero_iff d
    constructor
    · intro hle0
      rcases hd.2 with hs | hb
      · rw [← hu]
        unfold Dbl.scaled at hle0
        rw [hs] at hle0
        simp only [Bool.false_eq_true, if_false] at hle0
        omega
      · exact hb
    · intro hb
      unfold Dbl.scaled
      rw [hu.2 hb]; simp

/-! ## Rounding to the nearest `double` -/

theorem bitLengthAux_lt (fuel : Nat) : ∀ n, n ≤ fuel → n < 2 ^ bitLengthAux fuel n := by
  induction fuel with
  | zero => intro n h; have : n = 0 := by omega
            subst this; simp [bitLengthAux]
  | succ fuel ih =>
    intro n h
    unfold bitLengthAux
    split_ifs with h0
    · subst h0; simp
    · have := ih (n / 2) (by omega)
      rw [pow_succ]
      omega

theorem bitLengthAux_le (fuel : Nat) : ∀ n, n ≤ fuel → n ≠ 0 → 2 ^ bitLengthAux fuel n ≤ 2 * n := by
  induction fuel with
  | zero => intro n h hn; omega
  | succ fuel ih =>
    intro n h hn
    unfold bitLengthAux
    rw [if_neg hn, pow_succ]
    by_cases h2 : n / 2 = 0
    · have : bitLengthAux fuel (n / 2) = 0 := by
        rw [h2]; cases fuel <;> simp [bitLengthAux]
      rw [this]; omega
    · have := ih (n / 2) (by omega) h2
      omega

theorem bitLength_lt (n : Nat) : n < 2 ^ bitLength n := bitLengthAux_lt n n (le_refl n)

theorem bitLength_le (n : Nat) (hn : n ≠ 0) : 2 ^ bitLength n ≤ 2 * n :=
  bitLengthAux_le n n (le_refl n) hn

/-- A power of two with an integer exponent as a quotient of two powers. -/
theorem zpow_two_split (e : Int) :
    (2 : ℚ) ^ e = ((2 ^ e.toNat : Nat) : ℚ) / ((2 ^ (-e).toNat : Nat) : ℚ) := by
  rcases le_or_lt 0 e with h | h
  · have h1 : (-e).toNat = 0 := by omega
    rw [h1, pow_zero, Nat.cast_one, div_one]
    conv_lhs => rw [← Int.toNat_of_nonneg h]
    rw [zpow_natCast]; push_cast; rfl
  · have h1 : e.toNat = 0 := by omega
    rw [h1, pow_zero, Nat.cast_one]
    have h2 : e = -(((-e).toNat : Nat) : Int) := by omega
    conv_lhs => rw [h2]
    rw [zpow_neg, zpow_natCast]; push_cast
    rw [one_div]

theorem floorLog2_spec (n d : Nat) (hn : 0 < n) (hd : 0 < d) :
    (2 : ℚ) ^ floorLog2 n d ≤ (n : ℚ) / d ∧ (n : ℚ) / d < (2 : ℚ) ^ (floorLog2 n d + 1) := by
  have hdq : (0 : ℚ) < d := by exact_mod_cast hd
  have hnq : (0 : ℚ) < n := by exact_mod_cast hn
  have a1 : (n : ℚ) < 2 ^ (bitLength n : Int) := by
    rw [zpow_natCast]; exact_mod_cast bitLength_lt n
  have a2 : (2 : ℚ) ^ (bitLength n : Int) ≤ 2 * n := by
    rw [zpow_natCast]; exact_mod_cast bitLength_le n (by omega)
  have b1 : (d : ℚ) < 2 ^ (bitLength d : Int) := by
    rw [zpow_natCast]; exact_mod_cast bitLength_lt d
  have b2 : (2 : ℚ) ^ (bitLength d : Int) ≤ 2 * d := by
    rw [zpow_natCast]; exact_mod_cast bitLength_le d (by omega)
  have two : (0 : ℚ) < 2 := by norm_num
  -- the two outer bounds
  have lo : (2 : ℚ) ^ ((bitLength n : Int) - bitLength d - 1) ≤ (n : ℚ) / d := by
    rw [le_div_iff₀ hdq]
    have e1 : (2 : ℚ) ^ ((bitLength n : Int) - bitLength d - 1) * 2 ^ (bitLength d : Int) * 2 =
        2 ^ (bitLength n : Int) := by
      rw [← zpow_add₀ (by norm_num), ← zpow_add_one₀ (by norm_num)]
      congr 1; ring
    have hp : (0 : ℚ) < 2 ^ ((bitLength n : Int) - bitLength d - 1) := by positivity
    nlinarith
  have hi : (n : ℚ) / d < (2 : ℚ) ^ ((bitLength n : Int) - bitLength d + 1) := by
    rw [div_lt_iff₀ hdq]
    have e1 : (2 : ℚ) ^ ((bitLength n : Int) - bitLength d + 1) * 2 ^ (bitLength d : Int) =
        2 ^ (bitLength n : Int) * 2 := by
      rw [← zpow_add₀ (by norm_num), ← zpow_add_one₀ (by norm_num)]
      congr 1; ring
    have hp : (0 : ℚ) < 2 ^ ((bitLength n : Int) - bitLength d + 1) := by positivity
    nlinarith
  -- the test of `floorLog2`
  have test : (n * 2 ^ (-((bitLength n : Int) - bitLength d)).toNat <
      d * 2 ^ ((bitLength n : Int) - bitLength d).toNat) ↔
      (n : ℚ) / d < 2 ^ ((bitLength n : Int) - bitLength d) := by
    rw [zpow_two_split, div_lt_div_iff₀ hdq (by positivity), mul_comm _ (d : ℚ)]
    constructor
    · intro h; exact_mod_cast h
    · intro h; exact_mod_cast h
  unfold floorLog2
  dsimp only
  split_ifs with h
  · refine ⟨lo, ?_⟩
    rw [sub_add_cancel]; exact test.1 h
  · refine ⟨?_, hi⟩
    have := mt test.2 h
    exact not_lt.1 this

theorem roundDiv_cases (A B : Nat) : roundDiv A B = A / B ∨ roundDiv A B = A / B + 1 := by
  unfold roundDiv
  split_ifs <;> simp

/-- `roundDiv A B` is an integer nearest to `A / B`. -/
theorem roundDiv_nearest (A B : Nat) (hB : 0 < B) (j : Nat) :
    |(roundDiv A B : Int) * B - A| ≤ |(j : Int) * B - A| := by
  have hA : (A : Int) = (A / B : Nat) * B + (A % B : Nat) := by
    have := Nat.div_add_mod A B
    rw [mul_comm] at this
    exact_mod_cast this.symm
  have hr : (A % B : Nat) < B := Nat.mod_lt _ hB
  unfold roundDiv
  generalize A / B = q at hA ⊢
  generalize A % B = r at hA hr ⊢
  rw [hA]
  have key : ∀ t : Int, (t ≤ 0 → (r : Int) ≤ |t * B - r|) ∧ (1 ≤ t → (B : Int) - r ≤ |t * B - r|) := by
    intro t
    constructor
    · intro ht
      have : t * B ≤ 0 := mul_nonpos_of_nonpos_of_nonneg ht (by positivity)
      rw [abs_of_nonpos (by omega)]; omega
    · intro ht
      have : (B : Int) ≤ t * B := by nlinarith
      rw [abs_of_nonneg (by omega)]; omega
  have hj : (j : Int) * B - (q * B + r) = ((j : Int) - q) * B - r := by ring
  rw [hj]
  have kj := key ((j : Int) - q)
  have hm0 : ((q : Nat) : Int) * B - (q * B + r) = -(r : Int) := by ring
  have hm1 : ((q + 1 : Nat) : Int) * B - (q * B + r) = (B : Int) - r := by push_cast; ring
  rcases le_or_lt ((j : Int) - q) 0 with ht | ht
  · have k1 := kj.1 ht
    split_ifs with h1 h2 h3
    · rw [hm0, abs_neg, abs_of_nonneg (by omega)]; exact k1
    · rw [hm1, abs_of_nonneg (by omega)]; omega
    · rw [hm0, abs_neg, abs_of_nonneg (by omega)]; exact k1
    · rw [hm1, abs_of_nonneg (by omega)]; omega
  · have k1 := kj.2 (by omega)
    split_ifs with h1 h2 h3
    · rw [hm0, abs_neg, abs_of_nonneg (by omega)]; omega
    · rw [hm1, abs_of_nonneg (by omega)]; exact k1
    · rw [hm0, abs_neg, abs_of_nonneg (by omega)]; omega
    · rw [hm1, abs_of_nonneg (by omega)]; exact k1

/-- What `Dbl.round` computes for `n / d > 0`: with `2^k` the spacing, in
units of `2^-1074`, of the `double` values around `n / d`, the magnitude is
`m * 2^k` for an integer `m` that makes it nearest to `n / d` among the
multiples of `2^k`. -/
theorem Dbl.round_spec (neg : Bool) (n d : Nat) (hn : 0 < n) (hd : 0 < d) :
    ∃ k m : Nat, Dbl.round neg n d = ⟨neg, min (k * 2 ^ 52 + m) INF_BITS⟩ ∧
      m ≤ 2 ^ 53 ∧ (1 ≤ k → 2 ^ 52 ≤ m) ∧
      (∀ j : Nat, |(m : ℚ) * 2 ^ k - n * 2 ^ 1074 / d| ≤ |(j : ℚ) * 2 ^ k - n * 2 ^ 1074 / d|) ∧
      (1 ≤ k → (2 : ℚ) ^ 52 * 2 ^ k ≤ n * 2 ^ 1074 / d) := by
  obtain ⟨slo, shi⟩ := floorLog2_spec n d hn hd
  have hdq : (0 : ℚ) < d := by exact_mod_cast hd
  generalize hfl : floorLog2 n d = fl at slo shi
  have hk : ∃ k : Nat, (k : Int) = max fl (-1022) + 1022 := ⟨(max fl (-1022) + 1022).toNat, by omega⟩
  obtain ⟨k, hk⟩ := hk
  have e1 : (max fl (-1022) + 1022).toNat = k := by omega
  have e2 : (52 - max fl (-1022)).toNat = 1074 - k := by omega
  have e3 : (max fl (-1022) - 52).toNat = k - 1074 := by omega
  have hB : 0 < d * 2 ^ (k - 1074) := by positivity
  have hBq : (0 : ℚ) < ((d * 2 ^ (k - 1074) : Nat) : ℚ) := by exact_mod_cast hB
  -- the scaled quotient
  have hid : ((n * 2 ^ (1074 - k) : Nat) : ℚ) * 2 ^ k / ((d * 2 ^ (k - 1074) : Nat) : ℚ) =
      n * 2 ^ 1074 / d := by
    rw [div_eq_div_iff (ne_of_gt hBq) (ne_of_gt hdq)]
    rcases le_or_lt k 1074 with h | h
    · have h1 : k - 1074 = 0 := by omega
      have h2 : 2 ^ (1074 - k) * 2 ^ k = (2 : ℚ) ^ 1074 := by
        rw [← pow_add, Nat.sub_add_cancel h]
      rw [h1]; push_cast
      rw [mul_one, mul_assoc (n : ℚ), h2]
    · have h1 : 1074 - k = 0 := by omega
      have h2 : 2 ^ 1074 * 2 ^ (k - 1074) = (2 : ℚ) ^ k := by
        rw [← pow_add, Nat.add_sub_cancel' (le_of_lt h)]
      rw [h1]; push_cast
      rw [mul_one, ← h2]; ring
  have hpk : (2 : ℚ) ^ (max fl (-1022) + 1) * 2 ^ 1074 = 2 ^ 53 * 2 ^ k := by
    have : max fl (-1022) + 1 = ((53 + k : Nat) : Int) - ((1074 : Nat) : Int) := by push_cast; omega
    rw [this, zpow_sub₀ (by norm_num), zpow_natCast, zpow_natCast, pow_add]
    field_simp
  have hpk' : (2 : ℚ) ^ (max fl (-1022)) * 2 ^ 1074 = 2 ^ 52 * 2 ^ k := by
    have : max fl (-1022) = ((52 + k : Nat) : Int) - ((1074 : Nat) : Int) := by push_cast; omega
    rw [this, zpow_sub₀ (by norm_num), zpow_natCast, zpow_natCast, pow_add]
    field_simp
  have hmono : (2 : ℚ) ^ (fl + 1) ≤ 2 ^ (max fl (-1022) + 1) :=
    zpow_le_zpow_right₀ (by norm_num) (by omega)
  have hup : (n : ℚ) * 2 ^ 1074 / d < 2 ^ 53 * 2 ^ k := by
    rw [← hpk, mul_div_right_comm]
    exact mul_lt_mul_of_pos_right (lt_of_lt_of_le shi hmono) (by positivity)
  have hlow : 1 ≤ k → (2 : ℚ) ^ 52 * 2 ^ k ≤ n * 2 ^ 1074 / d := by
    intro h1
    have : max fl (-1022) = fl := by omega
    rw [← hpk', mul_div_right_comm, this]
    exact mul_le_mul_of_nonneg_right slo (by positivity)
  have hpowk : (0 : ℚ) < 2 ^ k := by positivity
  -- bounds on the quotient in natural numbers
  have hAlt : n * 2 ^ (1074 - k) < 2 ^ 53 * (d * 2 ^ (k - 1074)) := by
    have : ((n * 2 ^ (1074 - k) : Nat) : ℚ) < 2 ^ 53 * ((d * 2 ^ (k - 1074) : Nat) : ℚ) := by
      rw [← hid, div_lt_iff₀ hBq] at hup
      have h' : ((n * 2 ^ (1074 - k) : Nat) : ℚ) * 2 ^ k <
          2 ^ 53 * ((d * 2 ^ (k - 1074) : Nat) : ℚ) * 2 ^ k := by linarith
      exact lt_of_mul_lt_mul_right h' (le_of_lt hpowk)
    exact_mod_cast this
  have hAge : 1 ≤ k → 2 ^ 52 * (d * 2 ^ (k - 1074)) ≤ n * 2 ^ (1074 - k) := by
    intro h1
    have h2 := hlow h1
    have : (2 : ℚ) ^ 52 * ((d * 2 ^ (k - 1074) : Nat) : ℚ) ≤ ((n * 2 ^ (1074 - k) : Nat) : ℚ) := by
      rw [← hid, le_div_iff₀ hBq] at h2
      have h' : (2 : ℚ) ^ 52 * ((d * 2 ^ (k - 1074) : Nat) : ℚ) * 2 ^ k ≤
          ((n * 2 ^ (1074 - k) : Nat) : ℚ) * 2 ^ k := by linarith
      exact le_of_mul_le_mul_right h' hpowk
    exact_mod_cast this
  refine ⟨k, roundDiv (n * 2 ^ (1074 - k)) (d * 2 ^ (k - 1074)), ?_, ?_, ?_, ?_, hlow⟩
  · unfold Dbl.round
    rw [if_neg (by omega)]
    simp only [hfl, e1, e2, e3]
  · have hq : n * 2 ^ (1074 - k) / (d * 2 ^ (k - 1074)) < 2 ^ 53 :=
      (Nat.div_lt_iff_lt_mul hB).2 hAlt
    rcases roundDiv_cases (n * 2 ^ (1074 - k)) (d * 2 ^ (k - 1074)) with h | h <;> omega
  · intro h1
    have hq : 2 ^ 52 ≤ n * 2 ^ (1074 - k) / (d * 2 ^ (k - 1074)) :=
      (Nat.le_div_iff_mul_le hB).2 (hAge h1)
    rcases roundDiv_cases (n * 2 ^ (1074 - k)) (d * 2 ^ (k - 1074)) with h | h <;> omega
  · intro j
    have hz := roundDiv_nearest (n * 2 ^ (1074 - k)) (d * 2 ^ (k - 1074)) hB j
    have hzq : |((roundDiv (n * 2 ^ (1074 - k)) (d * 2 ^ (k - 1074)) : Nat) : ℚ) *
        ((d * 2 ^ (k - 1074) : Nat) : ℚ) - ((n * 2 ^ (1074 - k) : Nat) : ℚ)| ≤
        |(j : ℚ) * ((d * 2 ^ (k - 1074) : Nat) : ℚ) - ((n * 2 ^ (1074 - k) : Nat) : ℚ)| := by
      exact_mod_cast hz
    rw [← hid]
    have sc : ∀ t : ℚ, t * 2 ^ k - ((n * 2 ^ (1074 - k) : Nat) : ℚ) * 2 ^ k /
        ((d * 2 ^ (k - 1074) : Nat) : ℚ) =
        (t * ((d * 2 ^ (k - 1074) : Nat) : ℚ) - ((n * 2 ^ (1074 - k) : Nat) : ℚ)) *
          (2 ^ k / ((d * 2 ^ (k - 1074) : Nat) : ℚ)) := by
      intro t; field_simp; ring
    rw [sc, sc, abs_mul, abs_mul]
    exact mul_le_mul_of_nonneg_right hzq (abs_nonneg _)

/-- The magnitude of the bits that `Dbl.round` puts together. -/
theorem Dbl.units_of_bits (s : Bool) (k m : Nat) (hm : m ≤ 2 ^ 53) (hk : 1 ≤ k → 2 ^ 52 ≤ m) :
    (⟨s, k * 2 ^ 52 + m⟩ : Dbl).units = m * 2 ^ k := by
  unfold Dbl.units
  simp only
  have p52 : (2 : Nat) ^ 52 = 4503599627370496 := by norm_num
  have p53 : (2 : Nat) ^ 53 = 9007199254740992 := by norm_num
  rw [p52] at hk ⊢
  rw [p53] at hm
  rcases Nat.lt_or_ge m 4503599627370496 with h1 | h1
  · have hk0 : k = 0 := by
      by_contra hne
      have := hk (by omega)
      omega
    subst hk0
    rw [if_pos (by omega)]
    simp
  · rw [if_neg (by omega)]
    rcases Nat.lt_or_ge m 9007199254740992 with h2 | h2
    · have e1 : (k * 4503599627370496 + m) % 4503599627370496 = m - 4503599627370496 := by omega
      have e2 : (k * 4503599627370496 + m) / 4503599627370496 - 1 = k := by omega
      have e3 : 4503599627370496 + (m - 4503599627370496) = m := by omega
      rw [e1, e2, e3]
    · have hm' : m = 9007199254740992 := by omega
      subst hm'
      have e1 : (k * 4503599627370496 + 9007199254740992) % 4503599627370496 = 0 := by omega
      have e2 : (k * 4503599627370496 + 9007199254740992) / 4503599627370496 - 1 = k + 1 := by
        omega
      rw [e1, e2, pow_succ]
      ring

/-- The magnitude grows with the bits. -/
theorem Dbl.units_succ (s : Bool) (b : Nat) : (⟨s, b⟩ : Dbl).units < (⟨s, b + 1⟩ : Dbl).units := by
  unfold Dbl.units
  simp only
  have p52 : (2 : Nat) ^ 52 = 4503599627370496 := by norm_num
  rw [p52]
  have hp : 0 < 2 ^ (b / 4503599627370496 - 1) := by positivity
  split_ifs with ha hb hb
  · omega
  · have e1 : (b + 1) % 4503599627370496 = 0 := by omega
    have e2 : (b + 1) / 4503599627370496 - 1 = 0 := by omega
    rw [e1, e2]; omega
  · omega
  · rcases Nat.lt_or_ge (b % 4503599627370496 + 1) 4503599627370496 with h3 | h3
    · have e1 : (b + 1) % 4503599627370496 = b % 4503599627370496 + 1 := by omega
      have e2 : (b + 1) / 4503599627370496 = b / 4503599627370496 := by omega
      rw [e1, e2]
      nlinarith
    · have e1 : (b + 1) % 4503599627370496 = 0 := by omega
      have e2 : (b + 1) / 4503599627370496 - 1 = (b / 4503599627370496 - 1) + 1 := by omega
      have e3 : b % 4503599627370496 = 4503599627370495 := by omega
      rw [e1, e2, e3, pow_succ]
      nlinarith

theorem Dbl.units_lt (s : Bool) (b c : Nat) (h : b < c) :
    (⟨s, b⟩ : Dbl).units < (⟨s, c⟩ : Dbl).units := by
  induction c with
  | zero => omega
  | succ c ih =>
    rcases Nat.lt_or_ge b c with h1 | h1
    · exact lt_trans (ih h1) (Dbl.units_succ s c)
    · have : b = c := by omega
      subst this; exact Dbl.units_succ s b

theorem Dbl.units_inj (s t : Bool) (b c : Nat)
    (h : (⟨s, b⟩ : Dbl).units = (⟨t, c⟩ : Dbl).units) : b = c := by
  have hs : ∀ x : Nat, (⟨s, x⟩ : Dbl).units = (⟨t, x⟩ : Dbl).units := fun x => rfl
  rcases Nat.lt_trichotomy b c with h1 | h1 | h1
  · have := Dbl.units_lt s b c h1
    rw [hs c] at this; omega
  · exact h1
  · have := Dbl.units_lt s c b h1
    rw [hs c] at this; omega

/-- Every magnitude is a multiple below `2^53` of a power of two. -/
theorem Dbl.units_form (y : Dbl) : ∃ M ky : Nat, y.units = M * 2 ^ ky ∧ M < 2 ^ 53 := by
  unfold Dbl.units
  have p52 : (2 : Nat) ^ 52 = 4503599627370496 := by norm_num
  have p53 : (2 : Nat) ^ 53 = 9007199254740992 := by norm_num
  split_ifs with h
  · exact ⟨y.bits, 0, by simp, by omega⟩
  · refine ⟨2 ^ 52 + y.bits % 2 ^ 52, y.bits / 2 ^ 52 - 1, rfl, ?_⟩
    rw [p52, p53]; omega

/-- Rounding gives a nearest magnitude: when `Dbl.round` does not overflow, no
`double` has a magnitude nearer to `n / d` than its result. -/
theorem Dbl.round_nearest (neg : Bool) (n d : Nat) (hn : 0 < n) (hd : 0 < d)
    (hf : (Dbl.round neg n d).bits < INF_BITS) (y : Dbl) :
    |((Dbl.round neg n d).units : ℚ) - n * 2 ^ 1074 / d| ≤
      |(y.units : ℚ) - n * 2 ^ 1074 / d| := by
  obtain ⟨k, m, hr, hm, hkm, hnear, hlow⟩ := Dbl.round_spec neg n d hn hd
  have hb : min (k * 2 ^ 52 + m) INF_BITS = k * 2 ^ 52 + m := by
    rw [hr] at hf
    simp only at hf
    rcases Nat.le_total (k * 2 ^ 52 + m) INF_BITS with h | h
    · exact min_eq_left h
    · rw [min_eq_right h] at hf; omega
  have hu : (Dbl.round neg n d).units = m * 2 ^ k := by
    rw [hr, hb]; exact Dbl.units_of_bits neg k m hm hkm
  obtain ⟨M, ky, hy, hM⟩ := Dbl.units_form y
  rw [hu, hy]
  push_cast
  rcases le_or_lt k ky with h | h
  · have := hnear (M * 2 ^ (ky - k))
    have e : ((M * 2 ^ (ky - k) : Nat) : ℚ) * 2 ^ k = (M : ℚ) * 2 ^ ky := by
      push_cast
      rw [mul_assoc, ← pow_add, Nat.sub_add_cancel h]
    rw [e] at this
    exact this
  · have h1 := hlow (by omega)
    have h2 : |(m : ℚ) * 2 ^ k - n * 2 ^ 1074 / d| ≤ |(2 : ℚ) ^ 52 * 2 ^ k - n * 2 ^ 1074 / d| := by
      have := hnear (2 ^ 52)
      rwa [Nat.cast_pow, Nat.cast_ofNat] at this
    have hMq : (M : ℚ) < 2 ^ 53 := by exact_mod_cast hM
    have hpow : (2 : ℚ) ^ 53 * 2 ^ ky ≤ 2 ^ 52 * 2 ^ k := by
      have : (2 : ℚ) ^ 53 * 2 ^ ky = 2 ^ 52 * 2 ^ (ky + 1) := by rw [pow_succ, pow_succ]; ring
      rw [this]
      exact mul_le_mul_of_nonneg_left (pow_le_pow_right₀ (by norm_num) (by omega)) (by positivity)
    have hky : (0 : ℚ) < 2 ^ ky := by positivity
    have h3 : (M : ℚ) * 2 ^ ky ≤ 2 ^ 52 * 2 ^ k := by nlinarith
    rw [abs_of_nonpos (by linarith : (2 : ℚ) ^ 52 * 2 ^ k - n * 2 ^ 1074 / d ≤ 0)] at h2
    rw [abs_of_nonpos (by linarith : (M : ℚ) * 2 ^ ky - n * 2 ^ 1074 / d ≤ 0)]
    linarith

/-- Rounding the magnitude of a `double` gives that `double` back. -/
theorem Dbl.round_units (neg : Bool) (x : Dbl) (h0 : x.bits ≠ 0) :
    Dbl.round neg x.units (2 ^ 1074) = ⟨neg, min x.bits INF_BITS⟩ := by
  have hn : 0 < x.units := by
    have := (Dbl.units_eq_zero_iff x).not.2 h0
    omega
  obtain ⟨k, m, hr, hm, hkm, hnear, hlow⟩ := Dbl.round_spec neg x.units (2 ^ 1074) hn (by positivity)
  have hQ : ((x.units : Nat) : ℚ) * 2 ^ 1074 / ((2 ^ 1074 : Nat) : ℚ) = x.units := by
    rw [Nat.cast_pow, Nat.cast_ofNat, mul_div_assoc, div_self (by positivity), mul_one]
  rw [hQ] at hnear hlow
  obtain ⟨M, kx, hx, hM⟩ := Dbl.units_form x
  have hj : ∃ j : Nat, (j : ℚ) * 2 ^ k = x.units := by
    rcases le_or_lt k kx with h | h
    · refine ⟨M * 2 ^ (kx - k), ?_⟩
      rw [hx]; push_cast
      rw [mul_assoc, ← pow_add, Nat.sub_add_cancel h]
    · exfalso
      have h1 := hlow (by omega)
      have hMq : (M : ℚ) < 2 ^ 53 := by exact_mod_cast hM
      have hpow : (2 : ℚ) ^ 53 * 2 ^ kx ≤ 2 ^ 52 * 2 ^ k := by
        have : (2 : ℚ) ^ 53 * 2 ^ kx = 2 ^ 52 * 2 ^ (kx + 1) := by rw [pow_succ, pow_succ]; ring
        rw [this]
        exact mul_le_mul_of_nonneg_left (pow_le_pow_right₀ (by norm_num) (by omega))
          (by positivity)
      have hkx : (0 : ℚ) < 2 ^ kx := by positivity
      rw [hx] at h1; push_cast at h1
      nlinarith
  obtain ⟨j, hj⟩ := hj
  have h1 := hnear j
  rw [hj, sub_self, abs_zero] at h1
  have h2 : (m : ℚ) * 2 ^ k = x.units := by
    have := abs_nonpos_iff.1 h1
    linarith
  have h3 : m * 2 ^ k = x.units := by exact_mod_cast h2
  have h4 : (⟨neg, k * 2 ^ 52 + m⟩ : Dbl).units = (⟨x.sign, x.bits⟩ : Dbl).units := by
    rw [Dbl.units_of_bits neg k m hm hkm, h3]
  rw [hr, Dbl.units_inj _ _ _ _ h4]

theorem Dbl.toRat_eq (x : Dbl) :
    x.toRat = if x.sign then -((x.units : ℚ) / 2 ^ 1074) else (x.units : ℚ) / 2 ^ 1074 := by
  unfold Dbl.toRat Dbl.scaled
  rw [Nat.cast_pow, Nat.cast_ofNat]
  split_ifs
  · push_cast; ring
  · push_cast; ring

theorem abs_sub_le_abs_neg_sub (a b c : ℚ) (hb : 0 ≤ b) (hc : 0 ≤ c) (h : |a - c| ≤ |b - c|) :
    |a - c| ≤ |-b - c| := by
  refine le_trans h ?_
  rw [abs_le]
  rw [show |-b - c| = b + c by rw [abs_of_nonpos (by linarith)]; ring]
  constructor <;> linarith

/-- The `double` that `Dbl.round` gives for `n / d`, when it is finite, is
nearest to `n / d` taken with the sign. -/
theorem Dbl.round_nearest_rat (neg : Bool) (n d : Nat) (hn : 0 < n) (hd : 0 < d)
    (hf : (Dbl.round neg n d).isFinite = true) :
    (Dbl.round neg n d).Nearest (if neg then -((n : ℚ) / d) else (n : ℚ) / d) := by
  intro y _
  have hb : (Dbl.round neg n d).bits < INF_BITS := of_decide_eq_true hf
  have h := Dbl.round_nearest neg n d hn hd hb y
  have hdq : (0 : ℚ) < d := by exact_mod_cast hd
  have hP : (0 : ℚ) < 2 ^ 1074 := by positivity
  have hQ : (0 : ℚ) ≤ (n : ℚ) / d := by positivity
  rw [Dbl.toRat_eq, Dbl.toRat_eq y, Dbl.round_sign]
  generalize (2 : ℚ) ^ 1074 = P at h hP ⊢
  have hy0 : (0 : ℚ) ≤ (y.units : ℚ) / P := by positivity
  -- the inequality on magnitudes, scaled down
  have h' : |((Dbl.round neg n d).units : ℚ) / P - n / d| ≤ |(y.units : ℚ) / P - n / d| := by
    have sc : ∀ t : ℚ, t / P - n / d = (t - n * P / d) / P := by
      intro t; field_simp; ring
    rw [sc, sc, abs_div, abs_div]
    exact div_le_div_of_nonneg_right h (abs_nonneg _)
  cases neg
  · simp only [Bool.false_eq_true, if_false]
    split_ifs
    · exact abs_sub_le_abs_neg_sub _ _ _ hy0 hQ h'
    · exact h'
  · simp only [if_true]
    have flip : ∀ t : ℚ, |-t - -((n : ℚ) / d)| = |t - n / d| := by
      intro t
      rw [show -t - -((n : ℚ) / d) = -(t - n / d) by ring, abs_neg]
    rw [flip]
    split_ifs
    · rw [flip]; exact h'
    · have := abs_sub_le_abs_neg_sub _ _ _ hy0 hQ h'
      rw [show (y.units : ℚ) / P - -((n : ℚ) / d) = -(-((y.units : ℚ) / P) - n / d) by
        ring, abs_neg]
      exact this

theorem Dbl.finite_iff (x : Dbl) :
    x.isFinite = true ↔ x.isNaN = false ∧ x.isInf = false := by
  simp only [Dbl.isFinite, Dbl.isNaN, Dbl.isInf, decide_eq_true_eq, decide_eq_false_iff_not]
  omega

theorem Dbl.toRat_zero_bits (s : Bool) : (⟨s, 0⟩ : Dbl).toRat = 0 := by
  have h : (⟨s, 0⟩ : Dbl).scaled = 0 := by cases s <;> rfl
  unfold Dbl.toRat
  rw [h, Int.cast_zero, zero_div]

theorem Dbl.neg_toRat (x : Dbl) : x.neg.toRat = -x.toRat := by
  unfold Dbl.toRat
  rw [Dbl.neg_scaled, Int.cast_neg, neg_div]

/-- The sum of two finite values, when it is finite, is a `double` nearest to
the exact sum. -/
theorem Dbl.addNum_nearest (a b : Dbl) (ha : a.isFinite = true) (hb : b.isFinite = true)
    (hr : (Dbl.addNum a b).isFinite = true) : (Dbl.addNum a b).Nearest (a.toRat + b.toRat) := by
  have ha' := (Dbl.finite_iff a).1 ha
  have hb' := (Dbl.finite_iff b).1 hb
  have hsum : a.toRat + b.toRat = ((a.scaled + b.scaled : Int) : ℚ) / 2 ^ 1074 := by
    unfold Dbl.toRat
    rw [Nat.cast_pow, Nat.cast_ofNat]; push_cast; ring
  unfold Dbl.addNum at hr ⊢
  rw [if_neg (by simp [ha'.2]), if_neg (by simp [hb'.2])] at hr ⊢
  dsimp only at hr ⊢
  by_cases hs : a.scaled + b.scaled = 0
  · rw [if_pos hs]
    intro y _
    rw [hsum, hs, Dbl.toRat_zero_bits, Int.cast_zero, zero_div, sub_self, abs_zero]
    exact abs_nonneg _
  · rw [if_neg hs] at hr ⊢
    have h := Dbl.round_nearest_rat (decide (a.scaled + b.scaled < 0)) (a.scaled + b.scaled).natAbs
      (2 ^ 1074) (by omega) (by positivity) hr
    have e : (if decide (a.scaled + b.scaled < 0) = true then
        -(((a.scaled + b.scaled).natAbs : ℚ) / ((2 ^ 1074 : Nat) : ℚ))
        else ((a.scaled + b.scaled).natAbs : ℚ) / ((2 ^ 1074 : Nat) : ℚ)) =
        a.toRat + b.toRat := by
      rw [hsum, Nat.cast_pow, Nat.cast_ofNat]
      have habs : (((a.scaled + b.scaled).natAbs : Nat) : ℚ) = |((a.scaled + b.scaled : Int) : ℚ)| := by
        rw [Nat.cast_natAbs, Int.cast_abs]
      rw [habs]
      by_cases hneg : a.scaled + b.scaled < 0
      · have : ((a.scaled + b.scaled : Int) : ℚ) < 0 := by exact_mod_cast hneg
        simp only [hneg, decide_True, if_true]
        rw [abs_of_neg this]; ring
      · have : (0 : ℚ) ≤ ((a.scaled + b.scaled : Int) : ℚ) := by exact_mod_cast not_lt.1 hneg
        simp only [hneg, decide_False, Bool.false_eq_true, if_false]
        rw [abs_of_nonneg this]
    rw [e] at h
    exact h

theorem Dbl.add_nearest (a b : Dbl) (ha : a.isFinite = true) (hb : b.isFinite = true)
    (hr : (a + b).isFinite = true) : (a + b).Nearest (a.toRat + b.toRat) := by
  have ha' := (Dbl.finite_iff a).1 ha
  have hb' := (Dbl.finite_iff b).1 hb
  have e : a + b = Dbl.addNum a b := by
    show Dbl.add a b = _
    unfold Dbl.add
    rw [if_neg (by simp [ha'.1]), if_neg (by simp [hb'.1])]
  rw [e] at hr ⊢
  exact Dbl.addNum_nearest a b ha hb hr

/-- The difference of two finite values, when it is finite, is a `double`
nearest to the exact difference. -/
theorem Dbl.sub_nearest (a b : Dbl) (ha : a.isFinite = true) (hb : b.isFinite = true)
    (hr : (a - b).isFinite = true) : (a - b).Nearest (a.toRat - b.toRat) := by
  have ha' := (Dbl.finite_iff a).1 ha
  have hb' := (Dbl.finite_iff b).1 hb
  have e : a - b = Dbl.addNum a b.neg := by
    show Dbl.sub a b = _
    unfold Dbl.sub
    rw [if_neg (by simp [ha'.1]), if_neg (by simp [hb'.1])]
  rw [e] at hr ⊢
  have := Dbl.addNum_nearest a b.neg ha hb hr
  rw [Dbl.neg_toRat, ← sub_eq_add_neg] at this
  exact this

/-- The product of two finite values, when it is finite, is a `double` nearest
to the exact product. -/
theorem Dbl.mul_nearest (a b : Dbl) (ha : a.isFinite = true) (hb : b.isFinite = true)
    (hr : (a * b).isFinite = true) : (a * b).Nearest (a.toRat * b.toRat) := by
  have ha' := (Dbl.finite_iff a).1 ha
  have hb' := (Dbl.finite_iff b).1 hb
  have e : a * b = Dbl.round (a.sign != b.sign) (a.units * b.units) (2 ^ 2148) := by
    show Dbl.mul a b = _
    unfold Dbl.mul
    rw [if_neg (by simp [ha'.1]), if_neg (by simp [hb'.1]), if_neg (by simp [ha'.2, hb'.2])]
  rw [e] at hr ⊢
  have hprod : a.toRat * b.toRat = (if (a.sign != b.sign) = true then
      -(((a.units * b.units : Nat) : ℚ) / ((2 ^ 2148 : Nat) : ℚ))
      else ((a.units * b.units : Nat) : ℚ) / ((2 ^ 2148 : Nat) : ℚ)) := by
    rw [Dbl.toRat_eq, Dbl.toRat_eq b, Nat.cast_pow, Nat.cast_ofNat]
    have h2 : (2 : ℚ) ^ 2148 = 2 ^ 1074 * 2 ^ 1074 := by rw [← pow_add]
    rw [h2]
    generalize (2 : ℚ) ^ 1074 = P
    push_cast
    cases a.sign <;> cases b.sign <;> simp <;> ring
  by_cases h0 : a.units * b.units = 0
  · intro y _
    have : Dbl.round (a.sign != b.sign) (a.units * b.units) (2 ^ 2148) = ⟨a.sign != b.sign, 0⟩ := by
      unfold Dbl.round; rw [if_pos h0]
    rw [this, Dbl.toRat_zero_bits, hprod, h0, Nat.cast_zero, zero_div, neg_zero, ite_self,
      sub_self, abs_zero]
    exact abs_nonneg _
  · have h := Dbl.round_nearest_rat (a.sign != b.sign) (a.units * b.units) (2 ^ 2148) (by omega)
      (by positivity) hr
    rw [hprod]
    exact h

/-- Finite values that stand for the same number compare equal. -/
theorem Dbl.eq_of_toRat (r x : Dbl) (hr : r.isFinite = true) (hx : x.isFinite = true)
    (h : r.toRat = x.toRat) : Dbl.eq r x = true := by
  have hr' := (Dbl.finite_iff r).1 hr
  have hx' := (Dbl.finite_iff x).1 hx
  have hs : r.scaled = x.scaled := by
    unfold Dbl.toRat at h
    have hP : ((2 ^ 1074 : Nat) : ℚ) ≠ 0 := by positivity
    have := (div_left_inj' hP).1 h
    exact_mod_cast this
  unfold Dbl.eq Dbl.le
  rw [Dbl.lt_of_not_nan x r hx'.1 hr'.1, Dbl.lt_of_not_nan r x hr'.1 hx'.1]
  simp [hr'.1, hx'.1, hr'.2, hx'.2, hs]

/-- A finite value nearest to a number that is itself a `double` equals it. -/
theorem Dbl.Nearest.exact (r x : Dbl) (q : ℚ) (h : r.Nearest q) (hr : r.isFinite = true)
    (hx : x.isFinite = true) (hq : x.toRat = q) : Dbl.eq r x = true := by
  have := h x hx
  rw [hq, sub_self, abs_zero] at this
  have e : r.toRat = q := by
    have := abs_nonpos_iff.1 this
    linarith
  exact Dbl.eq_of_toRat r x hr hx (by rw [e, hq])

/-- The magnitude of a converted `int`. -/
theorem Dbl.ofInt_units (z : Int) (hz : z.natAbs < 2 ^ 53) :
    (Dbl.ofInt z).isFinite = true ∧ (Dbl.ofInt z).units = z.natAbs * 2 ^ 1074 := by
  unfold Dbl.ofInt
  by_cases h0 : z = 0
  · subst h0
    have : Dbl.round (decide ((0 : Int) < 0)) (0 : Int).natAbs 1 = ⟨false, 0⟩ := rfl
    rw [this]
    refine ⟨rfl, ?_⟩
    rw [Int.natAbs_zero, Nat.zero_mul]
    exact (Dbl.units_eq_zero_iff _).2 rfl
  have hn : 0 < z.natAbs := by omega
  obtain ⟨k, m, hr, hm, hkm, hnear, hlow⟩ :=
    Dbl.round_spec (decide (z < 0)) z.natAbs 1 hn (by norm_num)
  have hnq : ((z.natAbs : Nat) : ℚ) < 2 ^ 53 := by exact_mod_cast hz
  have hk : k ≤ 1074 := by
    by_contra hc
    have h1 := hlow (by omega)
    have hpow : (2 : ℚ) ^ 53 * 2 ^ 1074 ≤ 2 ^ 52 * 2 ^ k := by
      have : (2 : ℚ) ^ 53 * 2 ^ 1074 = 2 ^ 52 * 2 ^ 1075 := by rw [← pow_add, ← pow_add]
      rw [this]
      exact mul_le_mul_of_nonneg_left (pow_le_pow_right₀ (by norm_num) (by omega))
        (by positivity)
    rw [Nat.cast_one, div_one] at h1
    have hP : (0 : ℚ) < 2 ^ 1074 := by positivity
    generalize (2 : ℚ) ^ 1074 = P at h1 hpow hP
    have := mul_lt_mul_of_pos_right hnq hP
    linarith
  have h1 := hnear (z.natAbs * 2 ^ (1074 - k))
  have e : ((z.natAbs * 2 ^ (1074 - k) : Nat) : ℚ) * 2 ^ k =
      (z.natAbs : ℚ) * 2 ^ 1074 / ((1 : Nat) : ℚ) := by
    push_cast
    rw [div_one, mul_assoc, ← pow_add, Nat.sub_add_cancel hk]
  rw [e, sub_self, abs_zero] at h1
  have h2 : (m : ℚ) * 2 ^ k = (z.natAbs : ℚ) * 2 ^ 1074 := by
    have := abs_nonpos_iff.1 h1
    rw [Nat.cast_one, div_one] at this
    linarith
  have h3 : m * 2 ^ k = z.natAbs * 2 ^ 1074 := by
    have : ((m * 2 ^ k : Nat) : ℚ) = ((z.natAbs * 2 ^ 1074 : Nat) : ℚ) := by
      rw [Nat.cast_mul, Nat.cast_pow, Nat.cast_ofNat, h2, Nat.cast_mul, Nat.cast_pow,
        Nat.cast_ofNat]
    exact Nat.cast_injective this
  have hbits : k * 2 ^ 52 + m < INF_BITS := by
    have p52 : (2 : Nat) ^ 52 = 4503599627370496 := by norm_num
    have p53 : (2 : Nat) ^ 53 = 9007199254740992 := by norm_num
    have : INF_BITS = 2047 * 4503599627370496 := by unfold INF_BITS; rw [p52]
    rw [this, p52]; rw [p53] at hm
    omega
  have hmin : min (k * 2 ^ 52 + m) INF_BITS = k * 2 ^ 52 + m := min_eq_left (le_of_lt hbits)
  rw [hr, hmin]
  refine ⟨by simp only [Dbl.isFinite, decide_eq_true_eq]; exact hbits, ?_⟩
  rw [Dbl.units_of_bits _ k m hm hkm, h3]

/-- An `int` converts to `double` without rounding. -/
theorem Dbl.ofInt_exact (z : Int) (hz : z.natAbs < 2 ^ 53) :
    (Dbl.ofInt z).isFinite = true ∧ (Dbl.ofInt z).toRat = z := by
  obtain ⟨hf, hu⟩ := Dbl.ofInt_units z hz
  refine ⟨hf, ?_⟩
  have hs : (Dbl.ofInt z).sign = decide (z < 0) := by unfold Dbl.ofInt; exact Dbl.round_sign _ _ _
  have hP : (2 : ℚ) ^ 1074 ≠ 0 := by positivity
  have habs : ((z.natAbs : Nat) : ℚ) = |(z : ℚ)| := by
    rw [Nat.cast_natAbs, Int.cast_abs]
  rw [Dbl.toRat_eq, hu, hs, Nat.cast_mul, Nat.cast_pow, Nat.cast_ofNat, mul_div_assoc,
    div_self hP, mul_one, habs]
  by_cases hneg : z < 0
  · have : (z : ℚ) < 0 := by exact_mod_cast hneg
    simp only [hneg, decide_True, if_true]
    rw [abs_of_neg this]; ring
  · have : (0 : ℚ) ≤ (z : ℚ) := by exact_mod_cast not_lt.1 hneg
    simp only [hneg, decide_False, Bool.false_eq_true, if_false]
    rw [abs_of_nonneg this]

/-- Rounding a number below `2^1023` does not overflow. -/
theorem Dbl.round_finite (neg : Bool) (n d : Nat) (hd : 0 < d) (h : n < d * 2 ^ 1023) :
    (Dbl.round neg n d).isFinite = true := by
  by_cases h0 : n = 0
  · subst h0
    have : Dbl.round neg 0 d = ⟨neg, 0⟩ := by unfold Dbl.round; rw [if_pos rfl]
    rw [this]; rfl
  obtain ⟨k, m, hr, hm, hkm, hnear, hlow⟩ := Dbl.round_spec neg n d (by omega) hd
  have hdq : (0 : ℚ) < d := by exact_mod_cast hd
  have hk : k ≤ 2044 := by
    by_contra hc
    have h1 := hlow (by omega)
    have hnq : (n : ℚ) < d * 2 ^ 1023 := by
      have e : ((d * 2 ^ 1023 : Nat) : ℚ) = d * 2 ^ 1023 := by
        rw [Nat.cast_mul, Nat.cast_pow, Nat.cast_ofNat]
      rw [← e]
      exact Nat.cast_lt.2 h
    have hpow : (2 : ℚ) ^ 1023 * 2 ^ 1074 ≤ 2 ^ 52 * 2 ^ k := by
      have : (2 : ℚ) ^ 1023 * 2 ^ 1074 = 2 ^ 52 * 2 ^ 2045 := by rw [← pow_add, ← pow_add]
      rw [this]
      exact mul_le_mul_of_nonneg_left (pow_le_pow_right₀ (by norm_num) (by omega))
        (by positivity)
    have hP : (0 : ℚ) < 2 ^ 1074 := by positivity
    have hlt : (n : ℚ) * 2 ^ 1074 / d < 2 ^ 1023 * 2 ^ 1074 := by
      rw [div_lt_iff₀ hdq]
      generalize (2 : ℚ) ^ 1074 = P at hP ⊢
      generalize (2 : ℚ) ^ 1023 = R at hnq ⊢
      have := mul_lt_mul_of_pos_right hnq hP
      linarith
    linarith
  have hbits : k * 2 ^ 52 + m < INF_BITS := by
    have p52 : (2 : Nat) ^ 52 = 4503599627370496 := by norm_num
    have p53 : (2 : Nat) ^ 53 = 9007199254740992 := by norm_num
    have : INF_BITS = 2047 * 4503599627370496 := by unfold INF_BITS; rw [p52]
    rw [this, p52]; rw [p53] at hm
    omega
  rw [hr, min_eq_left (le_of_lt hbits)]
  simp only [Dbl.isFinite, decide_eq_true_eq]; exact hbits

/-- The difference of two finite values is exact whenever the exact
difference is a `double`. -/
theorem Dbl.sub_exact (a b x : Dbl) (ha : a.isFinite = true) (hb : b.isFinite = true)
    (hx : x.isFinite = true) (h : x.toRat = a.toRat - b.toRat) : Dbl.eq (a - b) x = true := by
  have ha' := (Dbl.finite_iff a).1 ha
  have hb' := (Dbl.finite_iff b).1 hb
  have hxb : x.bits < INF_BITS := of_decide_eq_true hx
  have e : a - b = Dbl.addNum a b.neg := by
    show Dbl.sub a b = _
    unfold Dbl.sub
    rw [if_neg (by simp [ha'.1]), if_neg (by simp [hb'.1])]
  have hs : x.scaled = a.scaled + b.neg.scaled := by
    rw [Dbl.neg_scaled]
    unfold Dbl.toRat at h
    have hP : ((2 ^ 1074 : Nat) : ℚ) ≠ 0 := by positivity
    rw [← sub_div] at h
    have := (div_left_inj' hP).1 h
    exact_mod_cast this
  rw [e]
  unfold Dbl.addNum
  have hbi : b.neg.isInf = false := hb'.2
  rw [if_neg (by simp [ha'.2]), if_neg (by simp [hbi])]
  dsimp only
  rw [← hs]
  by_cases h0 : x.scaled = 0
  · rw [if_pos h0]
    refine Dbl.eq_of_toRat _ x ?_ hx ?_
    · rfl
    rw [Dbl.toRat_zero_bits]
    unfold Dbl.toRat
    rw [h0, Int.cast_zero, zero_div]
  · rw [if_neg h0]
    have hu : x.scaled.natAbs = x.units := by
      unfold Dbl.scaled; split_ifs <;> simp
    have hb0 : x.bits ≠ 0 := by
      intro hz
      apply h0
      unfold Dbl.scaled
      rw [(Dbl.units_eq_zero_iff x).2 hz]; simp
    have hsg : decide (x.scaled < 0) = x.sign := by
      have hup : 0 < x.units := by
        have := (Dbl.units_eq_zero_iff x).not.2 hb0
        omega
      unfold Dbl.scaled
      cases x.sign
      · simp
      · simp only [if_true, decide_eq_true_eq]; omega
    rw [hu, hsg, Dbl.round_units x.sign x hb0, min_eq_left (le_of_lt hxb)]
    exact Dbl.eq_of_toRat _ _ hx hx rfl

/-! ## Order properties of `strcasecmp` -/

theorem strcasecmp_self (a : List Nat) : strcasecmp a a = 0 := by
  induction a with
  | nil => simp [strcasecmp]
  | cons x xs ih => simp [strcasecmp, ih]

theorem strcasecmp_trans (a b c : List Nat) (h1 : strcasecmp a b ≤ 0) (h2 : strcasecmp b c ≤ 0) :
    strcasecmp a c ≤ 0 := by
  induction a generalizing b c with
  | nil => cases b <;> cases c <;> simp only [strcasecmp] at * <;> omega
  | cons x xs ih =>
    cases b with
    | nil => cases c <;> simp only [strcasecmp] at * <;> omega
    | cons y ys =>
      cases c with
      | nil =>
        simp only [strcasecmp] at *
        split_ifs at h1 <;> omega
      | cons z zs =>
        simp only [strcasecmp] at *
        split_ifs at h1 h2 ⊢ <;> try omega
        exact ih ys zs h1 h2

theorem strcasecmp_total (a b : List Nat) (h : ¬ strcasecmp a b < 0) : strcasecmp b a ≤ 0 := by
  induction a generalizing b with
  | nil => cases b <;> simp only [strcasecmp] at * <;> omega
  | cons x xs ih =>
    cases b with
    | nil => simp only [strcasecmp] at *; omega
    | cons y ys =>
      simp only [strcasecmp] at *
      split_ifs at h ⊢ <;> try omega
      exact ih ys h

/-! ## The exchange of two array elements -/

theorem getD_set_eq (bs : List Boat) (i k : Nat) (x d : Boat) :
    (bs.set i x).getD k d = if i = k ∧ i < bs.length then x else bs.getD k d := by
  simp only [List.getD_eq_getElem?_getD, List.getElem?_set]
  by_cases h : i = k
  · subst h
    by_cases h2 : i < bs.length
    · simp [h2]
    · simp [h2, List.getElem?_eq_none (Nat.le_of_not_lt h2)]
  · simp [h]

theorem swapBoats_length (bs : List Boat) (i j : Nat) :
    (swapBoats bs i j).length = bs.length := by
  simp [swapBoats]

theorem swapBoats_getD (bs : List Boat) (i j k : Nat) (hi : i < bs.length) (hj : j < bs.length) :
    (swapBoats bs i j).getD k default =
      if k = j then bs.getD i default else if k = i then bs.getD j default
      else bs.getD k default := by
  simp only [swapBoats, getD_set_eq, List.length_set]
  by_cases h1 : k = j
  · subst h1; simp [hj]
  · by_cases h2 : k = i
    · subst h2
      have : ¬ j = k := fun h => h1 h.symm
      simp [this, hi, h1]
    · have a : ¬ j = k := fun h => h1 h.symm
      have b : ¬ i = k := fun h => h2 h.symm
      simp [a, b, h1, h2]

theorem set_getD_self (bs : List Boat) (i : Nat) (d : Boat) (h : i < bs.length) :
    bs.set i (bs.getD i d) = bs := by
  apply List.ext_getElem (by simp)
  intro n h1 h2
  simp only [List.getElem_set]
  split
  · next h => subst h; simp [List.getD_eq_getElem?_getD, List.getElem?_eq_getElem h]
  · rfl

theorem swapBoats_perm (bs : List Boat) (i j : Nat) (hi : i < bs.length) (hj : j < bs.length) :
    (swapBoats bs i j).Perm bs := by
  rw [List.perm_iff_count]
  intro a
  unfold swapBoats
  have hj2 : j < (bs.set i (bs.getD j default)).length := by simpa using hj
  rw [List.count_set _ _ _ _ hj2, List.count_set _ _ _ _ hi]
  simp only [List.getElem_set, List.getD_eq_getElem?_getD, List.getElem?_eq_getElem hi,
    List.getElem?_eq_getElem hj, Option.getD_some]
  have c1 : bs[i] = a → 0 < List.count a bs := fun x =>
    List.count_pos_iff.2 (x ▸ List.getElem_mem hi)
  have c2 : bs[j] = a → 0 < List.count a bs := fun y =>
    List.count_pos_iff.2 (y ▸ List.getElem_mem hj)
  simp only [ite_self, beq_iff_eq]
  by_cases x : bs[i] = a <;> by_cases y : bs[j] = a
  · have := c1 x; simp only [x, y, if_true]; omega
  · have := c1 x; simp only [x, y, if_true, if_false]; omega
  · have := c2 y; simp only [x, y, if_true, if_false]; omega
  · simp only [x, y, if_false]; omega

/-! ## The partition loop -/

/-- What the `for` loop of `quickSortBoats` establishes: with `low - 1 ≤ i < j`
and `n = high - j` iterations left, the elements at `low .. i` stay below the
pivot, those at `i+1 .. high-1` are not below it, nothing outside
`low .. high-1` is touched, and the array is permuted. -/
theorem partitionLoop_spec (pivot : Boat) (low high : Int) (n : Nat) :
    ∀ (bs : List Boat) (i j : Int), 0 ≤ low → low - 1 ≤ i → i < j → j + n = high →
      high < bs.length →
      (∀ k : Nat, low ≤ k → (k : Int) ≤ i → compareBoats (bs.getD k default) pivot < 0) →
      (∀ k : Nat, i < k → (k : Int) < j → ¬ compareBoats (bs.getD k default) pivot < 0) →
      (partitionLoop pivot n bs i j).1.length = bs.length ∧
      low - 1 ≤ (partitionLoop pivot n bs i j).2 ∧
      (partitionLoop pivot n bs i j).2 < high ∧
      (∀ k : Nat, low ≤ k → (k : Int) ≤ (partitionLoop pivot n bs i j).2 →
        compareBoats ((partitionLoop pivot n bs i j).1.getD k default) pivot < 0) ∧
      (∀ k : Nat, (partitionLoop pivot n bs i j).2 < k → (k : Int) < high →
        ¬ compareBoats ((partitionLoop pivot n bs i j).1.getD k default) pivot < 0) ∧
      (∀ k : Nat, ((k : Int) < low ∨ high ≤ k) →
        (partitionLoop pivot n bs i j).1.getD k default = bs.getD k default) ∧
      (∀ P : Boat → Prop, (∀ k : Nat, low ≤ k → (k : Int) < high → P (bs.getD k default)) →
        ∀ k : Nat, low ≤ k → (k : Int) < high →
          P ((partitionLoop pivot n bs i j).1.getD k default)) ∧
      (partitionLoop pivot n bs i j).1.Perm bs := by
  induction n with
  | zero =>
    intro bs i j _ hi hij hj _ hlt hge
    simp only [partitionLoop]
    have : j = high := by simpa using hj
    subst this
    exact ⟨trivial, hi, hij, hlt, hge, fun _ _ => trivial, fun _ hP => hP, List.Perm.refl _⟩
  | succ n ih =>
    intro bs i j hlow hi hij hj hlen hlt hge
    simp only [partitionLoop]
    have hjn : j + 1 + (n : Int) = high := by push_cast at hj; omega
    have hi1 : (i + 1).toNat < bs.length := by omega
    have hj1 : j.toNat < bs.length := by omega
    split_ifs with hc
    · have hsw := swapBoats_getD bs (i + 1).toNat j.toNat
      have hlen2 : high < (swapBoats bs (i + 1).toNat j.toNat).length := by
        rw [swapBoats_length]; exact hlen
      have hlt2 : ∀ k : Nat, low ≤ k → (k : Int) ≤ i + 1 →
          compareBoats ((swapBoats bs (i + 1).toNat j.toNat).getD k default) pivot < 0 := by
        intro k hk1 hk2
        rw [hsw k hi1 hj1]
        by_cases e1 : k = j.toNat
        · rw [if_pos e1]
          by_cases e2 : i + 1 = j
          · rw [e2]; exact hc
          · exact hlt (i + 1).toNat (by omega) (by omega) |> fun h => by
              exact absurd h (hge (i + 1).toNat (by omega) (by omega))
        · rw [if_neg e1]
          by_cases e2 : k = (i + 1).toNat
          · rw [if_pos e2]; exact hc
          · rw [if_neg e2]; exact hlt k hk1 (by omega)
      have hge2 : ∀ k : Nat, i + 1 < k → (k : Int) < j + 1 →
          ¬ compareBoats ((swapBoats bs (i + 1).toNat j.toNat).getD k default) pivot < 0 := by
        intro k hk1 hk2
        rw [hsw k hi1 hj1]
        by_cases e1 : k = j.toNat
        · rw [if_pos e1]
          exact hge (i + 1).toNat (by omega) (by omega)
        · rw [if_neg e1]
          have e2 : ¬ k = (i + 1).toNat := by omega
          rw [if_neg e2]
          exact hge k (by omega) (by omega)
      obtain ⟨r1, r2, r3, r4, r5, r6, r7, r8⟩ :=
        ih (swapBoats bs (i + 1).toNat j.toNat) (i + 1) (j + 1) hlow (by omega) (by omega) hjn
          hlen2 hlt2 hge2
      refine ⟨by rw [r1, swapBoats_length], r2, r3, r4, r5, ?_, ?_, ?_⟩
      · intro k hk
        rw [r6 k hk, hsw k hi1 hj1]
        have e1 : ¬ k = j.toNat := by omega
        have e2 : ¬ k = (i + 1).toNat := by omega
        rw [if_neg e1, if_neg e2]
      · intro P hP
        apply r7 P
        intro k hk1 hk2
        rw [hsw k hi1 hj1]
        split_ifs
        · exact hP (i + 1).toNat (by omega) (by omega)
        · exact hP j.toNat (by omega) (by omega)
        · exact hP k hk1 hk2
      · exact r8.trans (swapBoats_perm bs _ _ hi1 hj1)
    · have hge2 : ∀ k : Nat, i < k → (k : Int) < j + 1 →
          ¬ compareBoats (bs.getD k default) pivot < 0 := by
        intro k hk1 hk2
        by_cases e1 : k = j.toNat
        · rw [e1]; exact hc
        · exact hge k hk1 (by omega)
      exact ih bs i (j + 1) hlow hi (by omega) hjn hlen hlt hge2

/-! ## Correctness of `quickSortBoats` -/

theorem compareBoats_self (a : Boat) : compareBoats a a ≤ 0 := by
  simp [compareBoats, strcasecmp_self]

theorem compareBoats_trans (a b c : Boat) (h1 : compareBoats a b ≤ 0)
    (h2 : compareBoats b c ≤ 0) : compareBoats a c ≤ 0 :=
  strcasecmp_trans _ _ _ h1 h2

theorem compareBoats_total (a b : Boat) (h : ¬ compareBoats a b < 0) :
    compareBoats b a ≤ 0 :=
  strcasecmp_total _ _ h

/-- With fuel above `high - low`, `quickSortBoats(low, high)` keeps the length,
leaves the elements outside `low .. high` in place, keeps every property
shared by the elements of `low .. high`, permutes the array, and leaves
`low .. high` in ascending order of `compareBoats`. -/
theorem quickSortBoatsAux_spec (fuel : Nat) :
    ∀ (bs : List Boat) (low high : Int), 0 ≤ low → high < bs.length → high - low < fuel →
      (quickSortBoatsAux fuel bs low high).length = bs.length ∧
      (∀ k : Nat, ((k : Int) < low ∨ high < k) →
        (quickSortBoatsAux fuel bs low high).getD k default = bs.getD k default) ∧
      (∀ P : Boat → Prop, (∀ k : Nat, low ≤ k → (k : Int) ≤ high → P (bs.getD k default)) →
        ∀ k : Nat, low ≤ k → (k : Int) ≤ high →
          P ((quickSortBoatsAux fuel bs low high).getD k default)) ∧
      (quickSortBoatsAux fuel bs low high).Perm bs ∧
      (∀ k l : Nat, low ≤ k → k ≤ l → (l : Int) ≤ high →
        compareBoats ((quickSortBoatsAux fuel bs low high).getD k default)
          ((quickSortBoatsAux fuel bs low high).getD l default) ≤ 0) := by
  induction fuel with
  | zero =>
    intro bs low high _ _ hf
    simp only [quickSortBoatsAux]
    refine ⟨trivial, fun _ _ => trivial, fun _ hP => hP, List.Perm.refl _, ?_⟩
    intro k l h1 h2 h3
    exfalso; push_cast at hf; omega
  | succ fuel ih =>
    intro bs low high hlow hlen hf
    simp only [quickSortBoatsAux]
    split_ifs with hc
    · refine ⟨rfl, fun _ _ => rfl, fun _ hP => hP, List.Perm.refl _, ?_⟩
      intro k l h1 h2 h3
      have : k = l := by omega
      subst this
      exact compareBoats_self _
    · -- the partition
      obtain ⟨p1, p2, p3, p4, p5, p6, p7, p8⟩ :=
        partitionLoop_spec (bs.getD high.toNat default) low high (high - low).toNat bs
          (low - 1) low hlow (le_refl _) (by omega) (by omega) hlen
          (fun k h1 h2 => by exfalso; omega) (fun k h1 h2 => by exfalso; omega)
      generalize partitionLoop (bs.getD high.toNat default) (high - low).toNat bs (low - 1) low
        = r at p1 p2 p3 p4 p5 p6 p7 p8 ⊢
      obtain ⟨b1, i⟩ := r
      simp only at p1 p2 p3 p4 p5 p6 p7 p8 ⊢
      have hp : (i + 1).toNat < b1.length := by omega
      have hh : high.toNat < b1.length := by omega
      have hsw := swapBoats_getD b1 (i + 1).toNat high.toNat
      have hpiv : b1.getD high.toNat default = bs.getD high.toNat default :=
        p6 high.toNat (by omega)
      generalize hpv : bs.getD high.toNat default = pivot at p4 p5 hpiv
      -- after the exchange with `boats[high]`
      set b2 := swapBoats b1 (i + 1).toNat high.toNat with hb2
      have l2 : b2.length = bs.length := by rw [hb2, swapBoats_length, p1]
      have q_lt : ∀ k : Nat, low ≤ k → (k : Int) ≤ i → compareBoats (b2.getD k default) pivot < 0 := by
        intro k h1 h2
        rw [hb2, hsw k hp hh, if_neg (by omega), if_neg (by omega)]
        exact p4 k h1 h2
      have q_piv : b2.getD (i + 1).toNat default = pivot := by
        rw [hb2, hsw _ hp hh]
        by_cases e : (i + 1).toNat = high.toNat
        · rw [if_pos e, e]; exact hpiv
        · rw [if_neg e, if_pos rfl]; exact hpiv
      have q_ge : ∀ k : Nat, i + 1 < k → (k : Int) ≤ high →
          compareBoats pivot (b2.getD k default) ≤ 0 := by
        intro k h1 h2
        apply compareBoats_total
        rw [hb2, hsw k hp hh]
        split_ifs with e1 e2
        · exact p5 (i + 1).toNat (by omega) (by omega)
        · exfalso; omega
        · exact p5 k (by omega) (by omega)
      have q_out : ∀ k : Nat, ((k : Int) < low ∨ high < k) →
          b2.getD k default = bs.getD k default := by
        intro k hk
        rw [hb2, hsw k hp hh, if_neg (by omega), if_neg (by omega)]
        exact p6 k (by omega)
      have q_P : ∀ P : Boat → Prop,
          (∀ k : Nat, low ≤ k → (k : Int) ≤ high → P (bs.getD k default)) →
          ∀ k : Nat, low ≤ k → (k : Int) ≤ high → P (b2.getD k default) := by
        intro P hP
        have hP1 : ∀ k : Nat, low ≤ k → (k : Int) ≤ high → P (b1.getD k default) := by
          intro k h1 h2
          by_cases e : (k : Int) < high
          · exact p7 P (fun k a b => hP k a (by omega)) k h1 e
          · rw [p6 k (by omega)]; exact hP k h1 h2
        intro k h1 h2
        rw [hb2, hsw k hp hh]
        split_ifs
        · exact hP1 _ (by omega) (by omega)
        · exact hP1 _ (by omega) (by omega)
        · exact hP1 k h1 h2
      have q_perm : b2.Perm bs := (swapBoats_perm b1 _ _ hp hh).trans p8
      -- the two recursive calls
      obtain ⟨s1, s2, s3, s4, s5⟩ := ih b2 low (i + 1 - 1) hlow (by omega) (by omega)
      set b3 := quickSortBoatsAux fuel b2 low (i + 1 - 1) with hb3
      obtain ⟨t1, t2, t3, t4, t5⟩ := ih b3 (i + 1 + 1) high (by omega) (by omega) (by omega)
      set b4 := quickSortBoatsAux fuel b3 (i + 1 + 1) high with hb4
      have left_lt : ∀ k : Nat, low ≤ k → (k : Int) ≤ i →
          compareBoats (b4.getD k default) pivot < 0 := by
        intro k h1 h2
        rw [t2 k (by omega)]
        exact s3 (fun b => compareBoats b pivot < 0)
          (fun k a b => q_lt k a (by omega)) k h1 (by omega)
      have mid : b4.getD (i + 1).toNat default = pivot := by
        rw [t2 _ (by omega), s2 _ (by omega)]; exact q_piv
      have right_ge : ∀ k : Nat, i + 1 < k → (k : Int) ≤ high →
          compareBoats pivot (b4.getD k default) ≤ 0 := by
        intro k h1 h2
        refine t3 (fun b => compareBoats pivot b ≤ 0) ?_ k (by omega) h2
        intro k a b
        rw [s2 k (by omega)]
        exact q_ge k (by omega) b
      refine ⟨by rw [t1, s1, l2], ?_, ?_, t4.trans (s4.trans q_perm), ?_⟩
      · intro k hk
        rw [t2 k (by omega), s2 k (by omega)]
        exact q_out k hk
      · intro P hP k h1 h2
        have hP2 := q_P P hP
        have hP3 : ∀ k : Nat, low ≤ k → (k : Int) ≤ high → P (b3.getD k default) := by
          intro k h1 h2
          by_cases e : (k : Int) ≤ i + 1 - 1
          · exact s3 P (fun k a b => hP2 k a (by omega)) k h1 e
          · rw [s2 k (by omega)]; exact hP2 k h1 h2
        by_cases e : i + 1 + 1 ≤ (k : Int)
        · exact t3 P (fun k a b => hP3 k (by omega) b) k e h2
        · rw [t2 k (by omega)]; exact hP3 k h1 h2
      · intro k l h1 h2 h3
        by_cases ek : (k : Int) ≤ i
        · by_cases el : (l : Int) ≤ i
          · rw [t2 k (by omega), t2 l (by omega)]
            exact s5 k l h1 h2 (by omega)
          · have hk := left_lt k h1 ek
            by_cases el2 : (l : Int) = i + 1
            · have : l = (i + 1).toNat := by omega
              rw [this, mid]; omega
            · exact compareBoats_trans _ pivot _ (by omega) (right_ge l (by omega) h3)
        · by_cases ek2 : (k : Int) = i + 1
          · have : k = (i + 1).toNat := by omega
            rw [this, mid]
            by_cases el2 : (l : Int) = i + 1
            · have : l = (i + 1).toNat := by omega
              rw [this, mid]; exact compareBoats_self _
            · exact right_ge l (by omega) h3
          · exact t5 k l (by omega) h2 h3

/-- The cut-off of the recursion is never reached: any two amounts of fuel
above `high - low` give the same result. -/
theorem quickSortBoatsAux_fuel (fuel : Nat) :
    ∀ (fuel' : Nat) (bs : List Boat) (low high : Int), 0 ≤ low → high < bs.length →
      high - low < fuel → high - low < fuel' →
      quickSortBoatsAux fuel bs low high = quickSortBoatsAux fuel' bs low high := by
  induction fuel with
  | zero =>
    intro fuel' bs low high _ _ hf hf'
    cases fuel' with
    | zero => rfl
    | succ n =>
      simp only [quickSortBoatsAux]
      rw [if_pos (by push_cast at hf; omega)]
  | succ fuel ih =>
    intro fuel' bs low high hlow hlen hf hf'
    cases fuel' with
    | zero =>
      simp only [quickSortBoatsAux]
      rw [if_pos (by push_cast at hf'; omega)]
    | succ n =>
      simp only [quickSortBoatsAux]
      by_cases hc : low ≥ high
      · rw [if_pos hc, if_pos hc]
      · rw [if_neg hc, if_neg hc]
        obtain ⟨p1, p2, p3, _⟩ :=
          partitionLoop_spec (bs.getD high.toNat default) low high (high - low).toNat bs
            (low - 1) low hlow (le_refl _) (by omega) (by omega) hlen
            (fun k h1 h2 => by exfalso; omega) (fun k h1 h2 => by exfalso; omega)
        generalize partitionLoop (bs.getD high.toNat default) (high - low).toNat bs (low - 1) low
          = r at p1 p2 p3 ⊢
        obtain ⟨b1, i⟩ := r
        simp only at p1 p2 p3 ⊢
        have l2 : (swapBoats b1 (i + 1).toNat high.toNat).length = bs.length := by
          rw [swapBoats_length, p1]
        push_cast at hf hf'
        rw [ih n _ low (i + 1 - 1) hlow (by omega) (by omega) (by omega)]
        have l3 := (quickSortBoatsAux_spec n (swapBoats b1 (i + 1).toNat high.toNat) low
          (i + 1 - 1) hlow (by omega) (by omega)).1
        exact ih n _ (i + 1 + 1) high (by omega) (by omega) (by omega) (by omega)

/-! ## `sortBoats` -/

theorem sortBoats_spec (bs : List Boat) :
    (sortBoats bs).length = bs.length ∧ (sortBoats bs).Perm bs ∧
    (∀ k l : Nat, k ≤ l → l < bs.length →
      compareBoats ((sortBoats bs).getD k default) ((sortBoats bs).getD l default) ≤ 0) := by
  obtain ⟨h1, _, _, h4, h5⟩ := quickSortBoatsAux_spec ((bs.length : Int) - 1 - 0 + 1).toNat bs 0
    ((bs.length : Int) - 1) (le_refl _) (by omega) (by omega)
  refine ⟨h1, h4, ?_⟩
  intro k l hkl hl
  exact h5 k l (by omega) hkl (by omega)

/-- Adjacent elements of a sorted array are in order. -/
theorem sortBoats_adjacent (bs : List Boat) (k : Nat) (hk : k + 1 < (sortBoats bs).length) :
    strcasecmp ((sortBoats bs)[k]).name ((sortBoats bs)[k + 1]).name ≤ 0 := by
  obtain ⟨h1, _, h3⟩ := sortBoats_spec bs
  have := h3 k (k + 1) (by omega) (by omega)
  simpa [compareBoats, List.getD_eq_getElem?_getD, List.getElem?_eq_getElem hk,
    List.getElem?_eq_getElem (show k < (sortBoats bs).length by omega)] using this

/-! ## The return points of `addBoat` -/

/-- Every return of `addBoat` other than the last leaves the array as it was;
the last one appends a record made of the scanned fields and sorts. -/
theorem addBoat_cases (u : Scanned) (boats : List Boat) (csvLine : List Nat)
    (boats' : List Boat) (o : AddOutcome) (h : addBoat u boats csvLine = some (boats', o)) :
    (boats' = boats ∧ o ≠ AddOutcome.added) ∨
    (o = AddOutcome.added ∧ boats.length < MAX_BOATS ∧ checkCSV csvLine = 1 ∧
      ∃ info : Info, boats' = insertBoat boats
        ⟨(sscanfBoat u csvLine).name, (sscanfBoat u csvLine).length, info,
          (sscanfBoat u csvLine).amountOwed⟩) := by
  unfold addBoat at h
  have keep : ∀ o', o' ≠ AddOutcome.added → some (boats, o') = some (boats', o) →
      (boats' = boats ∧ o ≠ AddOutcome.added) ∨
      (o = AddOutcome.added ∧ boats.length < MAX_BOATS ∧ checkCSV csvLine = 1 ∧
        ∃ info : Info, boats' = insertBoat boats
          ⟨(sscanfBoat u csvLine).name, (sscanfBoat u csvLine).length, info,
            (sscanfBoat u csvLine).amountOwed⟩) := by
    intro o' ho' e
    simp only [Option.some.injEq, Prod.mk.injEq] at e
    obtain ⟨rfl, rfl⟩ := e
    exact Or.inl ⟨rfl, ho'⟩
  by_cases h1 : boats.length ≥ MAX_BOATS
  · rw [if_pos h1] at h; exact keep _ (by decide) h
  rw [if_neg h1] at h
  by_cases h2 : checkCSV csvLine ≠ 1
  · rw [if_pos h2] at h; exact keep _ (by decide) h
  rw [if_neg h2] at h
  have h2' : checkCSV csvLine = 1 := not_not.1 h2
  have add : ∀ info, some (insertBoat boats ⟨(sscanfBoat u csvLine).name,
      (sscanfBoat u csvLine).length, info, (sscanfBoat u csvLine).amountOwed⟩,
      AddOutcome.added) = some (boats', o) →
      (boats' = boats ∧ o ≠ AddOutcome.added) ∨
      (o = AddOutcome.added ∧ boats.length < MAX_BOATS ∧ checkCSV csvLine = 1 ∧
        ∃ info : Info, boats' = insertBoat boats
          ⟨(sscanfBoat u csvLine).name, (sscanfBoat u csvLine).length, info,
            (sscanfBoat u csvLine).amountOwed⟩) := by
    intro info e
    simp only [Option.some.injEq, Prod.mk.injEq] at e
    obtain ⟨rfl, rfl⟩ := e
    exact Or.inr ⟨rfl, Nat.lt_of_not_le h1, h2', info, rfl⟩
  dsimp only at h
  split at h
  · exact keep _ (by decide) h
  split at h
  · exact keep _ (by decide) h
  split at h
  · split at h
    · exact keep _ (by decide) h
    split at h
    · exact keep _ (by decide) h
    exact add _ h
  split at h
  · split at h
    · exact keep _ (by decide) h
    split at h
    · exact keep _ (by decide) h
    exact add _ h
  split at h
  · split at h
    · exact keep _ (by decide) h
    split at h
    · exact keep _ (by decide) h
    split at h
    · exact absurd h (by simp)
    exact add _ h
  split at h
  · split at h
    · exact keep _ (by decide) h
    split at h
    · exact keep _ (by decide) h
    exact add _ h
  exact keep _ (by decide) h

theorem cstr_cons (x : Nat) (xs : List Nat) (hx : x ≠ 0) : cstr (x :: xs) = x :: cstr xs := by
  simp only [cstr]; rw [List.takeWhile_cons_of_pos (by simpa using hx)]

theorem cstr_zero (xs : List Nat) : cstr (0 :: xs) = [] := by simp [cstr]

theorem strcmp_eq_zero_iff (a b : List Nat) : strcmp a b = 0 ↔ cstr a = cstr b := by
  induction a generalizing b with
  | nil =>
    cases b with
    | nil => simp [strcmp, cstr]
    | cons y ys =>
      by_cases hy : y = 0
      · simp [strcmp, cstr, hy]
      · rw [cstr_cons y ys hy]
        simp only [strcmp, cstr, List.takeWhile_nil]
        exact ⟨fun h => by omega, fun h => absurd h (by simp)⟩
  | cons x xs ih =>
    cases b with
    | nil =>
      by_cases hx : x = 0
      · simp [strcmp, cstr, hx]
      · rw [cstr_cons x xs hx]
        simp only [strcmp, cstr, List.takeWhile_nil]
        exact ⟨fun h => by omega, fun h => absurd h (by simp)⟩
    | cons y ys =>
      simp only [strcmp]
      by_cases hx : x = 0
      · subst hx
        rw [if_pos (Or.inl rfl), cstr_zero]
        by_cases hy : y = 0
        · subst hy; simp [cstr_zero]
        · rw [cstr_cons y ys hy]
          exact ⟨fun h => by omega, fun h => absurd h (by simp)⟩
      · rw [cstr_cons x xs hx]
        by_cases hxy : x = y
        · subst hxy
          rw [if_neg (by simp [hx]), cstr_cons x ys hx, ih ys]
          exact ⟨fun h => by rw [h], fun h => (List.cons.inj h).2⟩
        · rw [if_pos (Or.inr hxy)]
          constructor
          · intro h; omega
          · intro h
            by_cases hy : y = 0
            · subst hy; rw [cstr_zero] at h; exact absurd h (by simp)
            · rw [cstr_cons y ys hy] at h
              exact absurd (List.cons.inj h).1 hxy

/-- The four tags `addBoat` dispatches on are pairwise different strings. -/
theorem type_exclusive (t : List Nat) :
    (strcmp t (str "slip") = 0 → strcmp t (str "land") ≠ 0 ∧ strcmp t (str "trailor") ≠ 0 ∧
      strcmp t (str "storage") ≠ 0) ∧
    (strcmp t (str "land") = 0 → strcmp t (str "slip") ≠ 0 ∧ strcmp t (str "trailor") ≠ 0 ∧
      strcmp t (str "storage") ≠ 0) ∧
    (strcmp t (str "trailor") = 0 → strcmp t (str "slip") ≠ 0 ∧ strcmp t (str "land") ≠ 0 ∧
      strcmp t (str "storage") ≠ 0) ∧
    (strcmp t (str "storage") = 0 → strcmp t (str "slip") ≠ 0 ∧ strcmp t (str "land") ≠ 0 ∧
      strcmp t (str "trailor") ≠ 0) := by
  simp only [strcmp_eq_zero_iff, ne_eq]
  refine ⟨?_, ?_, ?_, ?_⟩ <;> intro h <;> rw [h] <;> decide

/-! ## The claims about `addBoat` -/

/-- C1. Whenever `addBoat` grows the record count by one, the resulting array
is sorted: every adjacent pair `(a, b)` has `strcasecmp(a.name, b.name) ≤ 0`.
Nothing is assumed about the array before the call. -/
theorem addBoat_success_sorted (u : Scanned) (boats : List Boat) (csvLine : List Nat)
    (boats' : List Boat) (o : AddOutcome) (h : addBoat u boats csvLine = some (boats', o))
    (hgrow : boats'.length = boats.length + 1) :
    List.Chain' (fun a b : Boat => strcasecmp a.name b.name ≤ 0) boats' := by
  rcases addBoat_cases u boats csvLine boats' o h with ⟨rfl, _⟩ | ⟨_, _, _, info, rfl⟩
  · omega
  · rw [List.chain'_iff_get]
    intro k hk
    exact sortBoats_adjacent _ k (by unfold insertBoat at hk; omega)

theorem addBoat_success_sorted_witness :
    addBoat stale [zed, betty] (str "marie,35,slip,13,0") =
      some ([betty, ⟨str "marie", 35, Info.slipNumber 13, 0⟩, zed], AddOutcome.added) ∧
    [betty, ⟨str "marie", 35, Info.slipNumber 13, 0⟩, zed].length = [zed, betty].length + 1 ∧
    List.Chain' (fun a b : Boat => strcasecmp a.name b.name ≤ 0)
      [betty, ⟨str "marie", 35, Info.slipNumber 13, 0⟩, zed] :=
  ⟨by decide!, by decide,
    addBoat_success_sorted stale [zed, betty] (str "marie,35,slip,13,0")
      [betty, ⟨str "marie", 35, Info.slipNumber 13, 0⟩, zed] AddOutcome.added (by decide!)
      (by decide)⟩

/-- C2, on the code. A line with four commas whose scanned name equals, letter
case ignored, the name of a record in the array: below the capacity of 120
`addBoat` returns after printing "Boat already exists" and the array is
unchanged; on a full array it returns before scanning, silently, and the
array is unchanged as well. -/
theorem addBoat_duplicate_name (u : Scanned) (boats : List Boat) (csvLine : List Nat) (b : Boat)
    (hcsv : checkCSV csvLine = 1) (hb : b ∈ boats)
    (hname : strcasecmp b.name (sscanfBoat u csvLine).name = 0) :
    (boats.length < MAX_BOATS →
      addBoat u boats csvLine = some (boats, AddOutcome.alreadyExists)) ∧
    (MAX_BOATS ≤ boats.length → addBoat u boats csvLine = some (boats, AddOutcome.full)) := by
  constructor
  · intro hlt
    unfold addBoat
    rw [if_neg (by omega), if_neg (by simp [hcsv])]
    dsimp only
    rw [if_pos]
    rw [List.any_eq_true]
    exact ⟨b, hb, by simp [hname]⟩
  · intro hge
    unfold addBoat
    rw [if_pos hge]

theorem addBoat_duplicate_name_witness :
    checkCSV (str "JAKE,20,slip,3,0") = 1 ∧ jake ∈ [betty, jake] ∧
    strcasecmp jake.name (sscanfBoat stale (str "JAKE,20,slip,3,0")).name = 0 ∧
    [betty, jake].length < MAX_BOATS ∧
    addBoat stale [betty, jake] (str "JAKE,20,slip,3,0") =
      some ([betty, jake], AddOutcome.alreadyExists) :=
  ⟨by decide, by decide, by decide, by decide,
    (addBoat_duplicate_name stale [betty, jake] (str "JAKE,20,slip,3,0") jake (by decide)
      (by decide) (by decide)).1 (by decide)⟩

/-- C2 as stated fails on a full array: the line `aa,30,slip,1,0` names the
stored boat `Aa`, yet `addBoat` returns at the capacity test and reports no
duplicate. -/
theorem addBoat_duplicate_name_full_store :
    checkCSV (str "aa,30,slip,1,0") = 1 ∧
    (⟨str "Aa", 20, Info.trailorTag (str "000"), 0⟩ : Boat) ∈ fullStore ∧
    strcasecmp (str "Aa") (sscanfBoat zeroed (str "aa,30,slip,1,0")).name = 0 ∧
    addBoat zeroed fullStore (str "aa,30,slip,1,0") = some (fullStore, AddOutcome.full) ∧
    addBoat zeroed fullStore (str "aa,30,slip,1,0") ≠
      some (fullStore, AddOutcome.alreadyExists) := by
  refine ⟨by decide, by decide!, by decide!, ?_, ?_⟩
  · unfold addBoat; rw [if_pos (by decide)]
  · unfold addBoat; rw [if_pos (by decide)]; simp

/-- Whatever `sscanf` leaves in the destinations: if they hold a slip with a
number outside 1..85, or a land record whose bay letter, upper-cased, is
outside `A`..`Z`, or a storage record with a number outside 1..50, or a length
above 100, then `addBoat` returns at one of its rejections and the array is
unchanged. -/
theorem addBoat_rejects_out_of_range (u : Scanned) (boats : List Boat) (csvLine : List Nat)
    (h : (strcmp (sscanfBoat u csvLine).type (str "slip") = 0 ∧
          (atoi (sscanfBoat u csvLine).extra < 1 ∨ 85 < atoi (sscanfBoat u csvLine).extra)) ∨
        (strcmp (sscanfBoat u csvLine).type (str "land") = 0 ∧
          (toupper ((sscanfBoat u csvLine).extra.headD 0) < 65 ∨
            90 < toupper ((sscanfBoat u csvLine).extra.headD 0))) ∨
        (strcmp (sscanfBoat u csvLine).type (str "storage") = 0 ∧
          (atoi (sscanfBoat u csvLine).extra < 1 ∨ 50 < atoi (sscanfBoat u csvLine).extra)) ∨
        100 < (sscanfBoat u csvLine).length) :
    ∃ o, o ≠ AddOutcome.added ∧ addBoat u boats csvLine = some (boats, o) := by
  unfold addBoat
  by_cases h1 : boats.length ≥ MAX_BOATS
  · rw [if_pos h1]; exact ⟨_, by decide, rfl⟩
  rw [if_neg h1]
  by_cases h2 : checkCSV csvLine ≠ 1
  · rw [if_pos h2]; exact ⟨_, by decide, rfl⟩
  rw [if_neg h2]
  dsimp only
  split
  · exact ⟨_, by decide, rfl⟩
  split
  · exact ⟨_, by decide, rfl⟩
  · next hlen =>
    have hx := type_exclusive (sscanfBoat u csvLine).type
    rcases h with ⟨ht, hr⟩ | ⟨ht, hr⟩ | ⟨ht, hr⟩ | hl
    · rw [if_pos ht, if_pos (by simpa [MIN_SLIP_NUM, MAX_SLIP_NUM] using hr)]
      exact ⟨_, by decide, rfl⟩
    · rw [if_neg (hx.2.1 ht).1, if_pos ht, if_pos]
      · exact ⟨_, by decide, rfl⟩
      · simp only [FIRST_BAY_LETTER, LAST_BAY_LETTER]
        rcases hr with hr | hr
        · exact Or.inl hr
        · exact Or.inr (Or.inl hr)
    · rw [if_neg (hx.2.2.2 ht).1, if_neg (hx.2.2.2 ht).2.1, if_neg (hx.2.2.2 ht).2.2, if_pos ht,
        if_pos (by simpa [MIN_SPACE_NUM, MAX_SPACE_NUM] using hr)]
      exact ⟨_, by decide, rfl⟩
    · exact absurd hl (by simpa [MAX_BOAT_LENGTH] using hlen)

theorem insertBoat_nil (b : Boat) : insertBoat [] b = [b] := by
  simp [insertBoat, sortBoats, quickSortBoats, quickSortBoatsAux]

/-- An `addBoat` call on the empty array whose destinations hold a slip in
range after `sscanf`. -/
theorem addBoat_nil_slip (u : Scanned) (csvLine name extra : List Nat) (len : Int) (amt : Dbl)
    (hc : checkCSV csvLine = 1)
    (hs : sscanfBoat u csvLine = ⟨name, len, str "slip", extra, amt⟩)
    (hl : len ≤ 100) (h1 : 1 ≤ atoi extra) (h2 : atoi extra ≤ 85) :
    addBoat u [] csvLine =
      some ([⟨name, len, Info.slipNumber (atoi extra), amt⟩], AddOutcome.added) := by
  unfold addBoat
  rw [if_neg (by decide), if_neg (by simp [hc]), hs]
  dsimp only
  rw [if_neg (by simp), if_neg (by simp only [MAX_BOAT_LENGTH]; omega), if_pos (by decide),
    if_neg (by simp only [MIN_SLIP_NUM, MAX_SLIP_NUM]; omega), if_neg (by simp), insertBoat_nil]

/-- C3, the code at failing inputs.  The line
`Bob,99999999999999999999,slip,4294967381,0` is written for a slip numbered
4294967381 and 99999999999999999999 feet long, both out of range.  `%d` and
`atoi` convert the digits as a `long` and keep the low 32 bits, the tests of
`addBoat` see the length -1 and the slip 85, and the record is inserted,
whatever the memory held before.  The same happens to a length of 4294967297
feet (stored as 1) and to storage space 4294967297 (stored as 1).  The line
`Marie,x35,slip,86,0` is written for slip 86: `%d` stops at `x35`, the value
returned by `sscanf` is not looked at, `type` and `extra` keep what an earlier
call left there (here slip 9), and the record is inserted. -/
theorem addBoat_accepts_out_of_range :
    csvFields (str "Bob,99999999999999999999,slip,4294967381,0") =
      [str "Bob", str "99999999999999999999", str "slip", str "4294967381", str "0"] ∧
    100 < decValue (str "99999999999999999999") ∧ 85 < decValue (str "4294967381") ∧
    (∀ u : Scanned, addBoat u [] (str "Bob,99999999999999999999,slip,4294967381,0") =
      some ([⟨str "Bob", -1, Info.slipNumber 85, 0⟩], AddOutcome.added)) ∧
    (∀ u : Scanned, addBoat u [] (str "Bob,4294967297,slip,5,0") =
      some ([⟨str "Bob", 1, Info.slipNumber 5, 0⟩], AddOutcome.added)) ∧
    (∀ u : Scanned, addBoat u [] (str "Bob,20,storage,4294967297,0") =
      some ([⟨str "Bob", 20, Info.storageNumber 1, 0⟩], AddOutcome.added)) ∧
    csvFields (str "Marie,x35,slip,86,0") =
      [str "Marie", str "x35", str "slip", str "86", str "0"] ∧
    addBoat stale [betty] (str "Marie,x35,slip,86,0") =
      some ([betty, ⟨str "Marie", -3, Info.slipNumber 9, 77⟩], AddOutcome.added) := by
  refine ⟨by decide, by decide, by decide, ?_, ?_, ?_, by decide, by decide!⟩
  · intro u
    exact addBoat_nil_slip u _ (str "Bob") (str "4294967381") (-1) 0 (by decide)
      (by with_unfolding_all rfl) (by decide) (by decide) (by decide)
  · intro u
    exact addBoat_nil_slip u _ (str "Bob") (str "5") 1 0 (by decide)
      (by with_unfolding_all rfl) (by decide) (by decide) (by decide)
  · intro u
    have hs : sscanfBoat u (str "Bob,20,storage,4294967297,0") =
        ⟨str "Bob", 20, str "storage", str "4294967297", 0⟩ := by
      with_unfolding_all rfl
    unfold addBoat
    rw [if_neg (by decide), if_neg (by decide), hs]
    dsimp only
    rw [if_neg (by simp), if_neg (by decide), if_neg (by decide), if_neg (by decide),
      if_neg (by decide), if_pos (by decide), if_neg (by decide), if_neg (by simp), insertBoat_nil]
    rfl

/-- Whatever `sscanf` leaves in the destinations: if the payload they hold is
already used by a record of the same kind (the slip number by a slip, the bay
letter, letter case ignored, by a land record, the tag text by a trailer, the
space number by a storage record), `addBoat` returns at one of its rejections
and the array is unchanged. -/
theorem addBoat_rejects_taken_payload (u : Scanned) (boats : List Boat) (csvLine : List Nat)
    (b : Boat) (hb : b ∈ boats)
    (h : (strcmp (sscanfBoat u csvLine).type (str "slip") = 0 ∧
          b.info = Info.slipNumber (atoi (sscanfBoat u csvLine).extra)) ∨
        (strcmp (sscanfBoat u csvLine).type (str "land") = 0 ∧
          ∃ c, b.info = Info.bayLetter c ∧
            toupper c = toupper ((sscanfBoat u csvLine).extra.headD 0)) ∨
        (strcmp (sscanfBoat u csvLine).type (str "trailor") = 0 ∧
          ∃ t, b.info = Info.trailorTag t ∧ strcmp t (sscanfBoat u csvLine).extra = 0) ∨
        (strcmp (sscanfBoat u csvLine).type (str "storage") = 0 ∧
          b.info = Info.storageNumber (atoi (sscanfBoat u csvLine).extra))) :
    ∃ o, o ≠ AddOutcome.added ∧ addBoat u boats csvLine = some (boats, o) := by
  unfold addBoat
  by_cases h1 : boats.length ≥ MAX_BOATS
  · rw [if_pos h1]; exact ⟨_, by decide, rfl⟩
  rw [if_neg h1]
  by_cases h2 : checkCSV csvLine ≠ 1
  · rw [if_pos h2]; exact ⟨_, by decide, rfl⟩
  rw [if_neg h2]
  dsimp only
  split
  · exact ⟨_, by decide, rfl⟩
  split
  · exact ⟨_, by decide, rfl⟩
  have hx := type_exclusive (sscanfBoat u csvLine).type
  rcases h with ⟨ht, hr⟩ | ⟨ht, c, hr, hc⟩ | ⟨ht, t, hr, hc⟩ | ⟨ht, hr⟩
  · rw [if_pos ht]
    split
    · exact ⟨_, by decide, rfl⟩
    rw [if_pos (List.any_eq_true.2 ⟨b, hb, by simp [isSlip, hr]⟩)]
    exact ⟨_, by decide, rfl⟩
  · rw [if_neg (hx.2.1 ht).1, if_pos ht]
    split
    · exact ⟨_, by decide, rfl⟩
    rw [if_pos (List.any_eq_true.2 ⟨b, hb, by simp [isBay, hr, hc]⟩)]
    exact ⟨_, by decide, rfl⟩
  · rw [if_neg (hx.2.2.1 ht).1, if_neg (hx.2.2.1 ht).2.1, if_pos ht]
    split
    · exact ⟨_, by decide, rfl⟩
    rw [if_pos (List.any_eq_true.2 ⟨b, hb, by simp [isTag, hr, hc]⟩)]
    exact ⟨_, by decide, rfl⟩
  · rw [if_neg (hx.2.2.2 ht).1, if_neg (hx.2.2.2 ht).2.1, if_neg (hx.2.2.2 ht).2.2, if_pos ht]
    split
    · exact ⟨_, by decide, rfl⟩
    rw [if_pos (List.any_eq_true.2 ⟨b, hb, by simp [isStorage, hr]⟩)]
    exact ⟨_, by decide, rfl⟩

/-- C4, the code at a failing input.  The array holds `{Betty,40,slip,12,0}`
and the line `Marie,x35,slip,12,0` is written for slip 12, which Betty has.
`%d` stops at `x35`, the value returned by `sscanf` is not looked at, `type`
and `extra` keep what an earlier call left there (here a trailer with tag
`ZZ`), no test sees slip 12, and Marie is inserted.  When the line scans, as
`Marie,35,slip,12,0` does, the call is rejected as "slip taken". -/
theorem addBoat_accepts_taken_payload :
    csvFields (str "Marie,x35,slip,12,0") =
      [str "Marie", str "x35", str "slip", str "12", str "0"] ∧
    betty.info = Info.slipNumber 12 ∧ decValue (str "12") = 12 ∧
    addBoat staleTrailer [betty] (str "Marie,x35,slip,12,0") =
      some ([betty, ⟨str "Marie", 33, Info.trailorTag (str "ZZ"), 77⟩], AddOutcome.added) ∧
    (∀ u : Scanned, addBoat u [betty] (str "Marie,35,slip,12,0") =
      some ([betty], AddOutcome.slipTaken)) := by
  refine ⟨by decide, rfl, by decide, by decide!, ?_⟩
  intro u
  have hs : sscanfBoat u (str "Marie,35,slip,12,0") = ⟨str "Marie", 35, str "slip", str "12", 0⟩ := by
    with_unfolding_all rfl
  unfold addBoat
  rw [hs]
  decide

/-! ## Billing -/

/-- C5. A payment above the amount owed by `boats[index]` is refused: the call
reports "more than the amount owed" and the whole array, the amount owed
included, is as before. -/
theorem acceptPayment_overpayment (boats : List Boat) (index : Nat) (r : Boat) (amount : Dbl)
    (hr : boats[index]? = some r) (h : amount > r.amountOwed) :
    acceptPayment boats index amount = some (boats, PayOutcome.moreThanOwed) := by
  unfold acceptPayment
  rw [hr]
  simp only
  rw [if_pos h]

theorem acceptPayment_overpayment_witness :
    [betty, jake][1]? = some jake ∧ (500.01 : Dbl) > jake.amountOwed ∧
    acceptPayment [betty, jake] 1 500.01 = some ([betty, jake], PayOutcome.moreThanOwed) :=
  ⟨by decide, by decide!,
    acceptPayment_overpayment [betty, jake] 1 jake 500.01 (by decide) (by decide!)⟩

/-- C6 as stated fails in `double` arithmetic.  After
`addBoat("Bob,12,slip,5,1e16")` the record owes 1e16; a payment of 1 is
accepted and the record still owes 1e16, not the old amount minus 1.  After
`addBoat("Bob,12,slip,5,inf")` the record owes `+infinity`; a payment of
`+infinity` is not above it, is subtracted, and leaves a NaN, which is neither
`>= 0` nor zero although the payment equals the old amount. -/
theorem acceptPayment_rounds :
    run [Op.add zeroed (str "Bob,12,slip,5,1e16"), Op.pay 0 1] [] = some [bob 1e16] ∧
    (0 : Dbl) ≤ 1e16 ∧ (1 : Dbl) ≤ 1e16 ∧
    acceptPayment [bob 1e16] 0 1 = some ([bob 1e16], PayOutcome.paid) ∧
    (1e16 : Dbl).toRat ≠ (1e16 : Dbl).toRat - (1 : Dbl).toRat ∧
    run [Op.add zeroed (str "Bob,12,slip,5,inf"), Op.pay 0 Dbl.inf] [] = some [bob Dbl.nan] ∧
    (0 : Dbl) ≤ Dbl.inf ∧ Dbl.inf ≤ Dbl.inf ∧ Dbl.eq Dbl.inf Dbl.inf = true ∧
    acceptPayment [bob Dbl.inf] 0 Dbl.inf = some ([bob Dbl.nan], PayOutcome.paid) ∧
    ¬ (0 : Dbl) ≤ Dbl.nan ∧ Dbl.eq Dbl.nan 0 = false := by
  refine ⟨by decide!, by decide!, by decide!, by decide!, by decide!, by decide!, by decide!,
    by decide!, by decide!, by decide!, by decide!, by decide!⟩

/-- C6, on the code.  When `boats[index]` owes an amount that is `>= 0` and the
payment is not above it and is not `+infinity`, `acceptPayment` succeeds, the
record owes the `double` difference of the old amount and the payment and
every other field and record is as before; the new amount is `>= 0`, and it is
zero exactly when the payment equals the old amount.  For finite amounts the
`double` difference is a `double` nearest to the exact difference, unless it
overflows, and it is the exact difference whenever that is a `double`. -/
theorem acceptPayment_applies (boats : List Boat) (index : Nat) (r : Boat) (amount : Dbl)
    (hr : boats[index]? = some r) (h0 : 0 ≤ r.amountOwed) (h : amount ≤ r.amountOwed)
    (hinf : amount ≠ Dbl.inf) :
    acceptPayment boats index amount =
      some (boats.set index ⟨r.name, r.length, r.info, r.amountOwed - amount⟩, PayOutcome.paid) ∧
    0 ≤ r.amountOwed - amount ∧
    (Dbl.eq (r.amountOwed - amount) 0 = true ↔ Dbl.eq amount r.amountOwed = true) ∧
    (r.amountOwed.isFinite = true → amount.isFinite = true →
      ((r.amountOwed - amount).isFinite = true →
        (r.amountOwed - amount).Nearest (r.amountOwed.toRat - amount.toRat)) ∧
      ∀ x : Dbl, x.isFinite = true → x.toRat = r.amountOwed.toRat - amount.toRat →
        Dbl.eq (r.amountOwed - amount) x = true) := by
  have hle := (Dbl.le_iff amount r.amountOwed).1 h
  have hc := Dbl.sub_cases r.amountOwed amount h0 hle.1 hle.2.2 hinf
  refine ⟨?_, hc.1, ?_, ?_⟩
  · unfold acceptPayment
    rw [hr]
    simp only
    rw [if_neg (by
      show ¬ (Dbl.lt r.amountOwed amount = true)
      rw [hle.2.2]; simp)]
  · rw [Dbl.eq_zero_iff _ hc.1, hc.2]
    have h' : Dbl.le amount r.amountOwed = true := h
    unfold Dbl.eq
    rw [h', Bool.true_and]
    show _ ↔ r.amountOwed ≤ amount
    rw [Dbl.le_iff]
    simp [hle.1, hle.2.1]
  · intro hfa hfp
    exact ⟨fun hfr => Dbl.sub_nearest _ _ hfa hfp hfr,
      fun x hx hxe => Dbl.sub_exact _ _ x hfa hfp hx hxe⟩

theorem acceptPayment_applies_witness :
    [betty, jake][1]? = some jake ∧ 0 ≤ jake.amountOwed ∧ (500 : Dbl) ≤ jake.amountOwed ∧
    (500 : Dbl) ≠ Dbl.inf ∧
    acceptPayment [betty, jake] 1 500 =
      some ([betty, jake].set 1 ⟨jake.name, jake.length, jake.info, jake.amountOwed - 500⟩,
        PayOutcome.paid) ∧
    0 ≤ jake.amountOwed - 500 ∧
    (Dbl.eq (jake.amountOwed - 500) 0 = true ↔ Dbl.eq 500 jake.amountOwed = true) :=
  ⟨by decide, by decide!, by decide!, by decide!,
    (acceptPayment_applies [betty, jake] 1 jake 500 (by decide) (by decide!) (by decide!)
      (by decide!)).1,
    (acceptPayment_applies [betty, jake] 1 jake 500 (by decide) (by decide!) (by decide!)
      (by decide!)).2.1,
    (acceptPayment_applies [betty, jake] 1 jake 500 (by decide) (by decide!) (by decide!)
      (by decide!)).2.2.1⟩

/-- C7 as stated fails in `double` arithmetic.  For `{Sue,3,storage,7,0}` the
code multiplies 3 by the `double` nearest to 11.2 and rounds: Sue then owes
33.599999999999994..., which is below 0 + 3 * 11.2 and is not even the `double`
nearest to 33.6, so that a payment of 33.6 is refused as more than the amount
owed. -/
theorem newMonth_rounds :
    newMonth [sue] = [⟨str "Sue", 3, Info.storageNumber 7, ⟨false, 0x4040CCCCCCCCCCCC⟩⟩] ∧
    (⟨false, 0x4040CCCCCCCCCCCC⟩ : Dbl).toRat < sue.amountOwed.toRat + 3 * (56 / 5) ∧
    (⟨false, 0x4040CCCCCCCCCCCC⟩ : Dbl) ≠ 33.6 ∧
    acceptPayment (newMonth [sue]) 0 33.6 = some (newMonth [sue], PayOutcome.moreThanOwed) := by
  refine ⟨by decide!, by decide!, by decide!, by decide!⟩

theorem RATES_units (l : LocationType) :
    (RATES l).isFinite = true ∧ (RATES l).units ≤ 25 * 2 ^ 1074 := by
  cases l <;> exact ⟨by decide!, by decide!⟩

theorem charge_bound (a u P S R : Nat) (h53 : a < S) (hru : u ≤ 25 * P) (h : 25 * S < R)
    (hP : 0 < P) : a * P * u < P * P * R := by
  have h1 : a * P * u ≤ S * P * (25 * P) :=
    Nat.mul_le_mul (Nat.mul_le_mul_right _ (le_of_lt h53)) hru
  have h2 : S * P * (25 * P) < P * P * R := by
    have : S * P * (25 * P) = P * P * (25 * S) := by ring
    rw [this]
    exact Nat.mul_lt_mul_of_pos_left h (Nat.mul_pos hP hP)
  omega

/-- The monthly charge of a record: the product of its length and its rate is
finite and is a `double` nearest to the exact product. -/
theorem charge_nearest (z : Int) (hz : z.natAbs < 2 ^ 53) (l : LocationType) :
    (Dbl.ofInt z * RATES l).isFinite = true ∧
    (Dbl.ofInt z * RATES l).Nearest ((z : ℚ) * (RATES l).toRat) := by
  obtain ⟨hf, hu⟩ := Dbl.ofInt_units z hz
  obtain ⟨hrf, hru⟩ := RATES_units l
  have hf' := (Dbl.finite_iff _).1 hf
  have hrf' := (Dbl.finite_iff _).1 hrf
  have hfin : (Dbl.ofInt z * RATES l).isFinite = true := by
    show (Dbl.mul (Dbl.ofInt z) (RATES l)).isFinite = true
    unfold Dbl.mul
    rw [if_neg (by simp [hf'.1]), if_neg (by simp [hrf'.1]), if_neg (by simp [hf'.2, hrf'.2])]
    apply Dbl.round_finite _ _ _ (by positivity)
    rw [hu]
    have h2148 : (2 : Nat) ^ 2148 = 2 ^ 1074 * 2 ^ 1074 := by rw [← pow_add]
    have h58 : 25 * 2 ^ 53 < (2 : Nat) ^ 58 := by norm_num
    rw [h2148]
    exact charge_bound _ _ _ _ _ hz hru
      (lt_trans h58 (pow_lt_pow_right₀ (by norm_num) (by norm_num))) (by positivity)
  refine ⟨hfin, ?_⟩
  have := Dbl.mul_nearest (Dbl.ofInt z) (RATES l) hf hrf hfin
  rw [(Dbl.ofInt_exact z hz).2] at this
  exact this

/-- C7, on the code.  `newMonth` keeps the number and the order of the records
and, in each record, the name, the length and the location with its payload;
the amount owed becomes the `double` sum of the old amount and the `double`
product of the length and the rate of the location.  The length converts to
`double` exactly, the product is finite and is a `double` nearest to the length
times the rate, and the sum of finite values is a `double` nearest to the old
amount plus the product, unless it overflows.  The rates are the `double`
values nearest to 12.5 for a slip, 14.0 on land, 25.0 for a trailer, 11.2 in
storage; the first three are exact, the last one is not.
`{Jake,16,land,'A',500}` then owes 724.00. -/
theorem newMonth_charges :
    (∀ boats : List Boat, (newMonth boats).length = boats.length) ∧
    (∀ (boats : List Boat) (k : Nat) (hk : k < boats.length) (hk2 : k < (newMonth boats).length),
      ((newMonth boats)[k]).name = (boats[k]).name ∧
      ((newMonth boats)[k]).length = (boats[k]).length ∧
      ((newMonth boats)[k]).info = (boats[k]).info ∧
      ((newMonth boats)[k]).amountOwed =
        (boats[k]).amountOwed + Dbl.ofInt (boats[k]).length * RATES (boats[k]).location ∧
      ((boats[k]).length.natAbs < 2 ^ 53 →
        (Dbl.ofInt (boats[k]).length).toRat = (boats[k]).length ∧
        (Dbl.ofInt (boats[k]).length * RATES (boats[k]).location).isFinite = true ∧
        (Dbl.ofInt (boats[k]).length * RATES (boats[k]).location).Nearest
          (((boats[k]).length : ℚ) * (RATES (boats[k]).location).toRat) ∧
        ((boats[k]).amountOwed.isFinite = true → ((newMonth boats)[k]).amountOwed.isFinite = true →
          ((newMonth boats)[k]).amountOwed.Nearest ((boats[k]).amountOwed.toRat +
            (Dbl.ofInt (boats[k]).length * RATES (boats[k]).location).toRat)))) ∧
    (∀ b : Boat, RATES b.location =
      match b.info with
      | Info.slipNumber _ => 12.5
      | Info.bayLetter _ => 14.0
      | Info.trailorTag _ => 25.0
      | Info.storageNumber _ => 11.2) ∧
    ((12.5 : Dbl).toRat = 25 / 2 ∧ (14.0 : Dbl).toRat = 14 ∧ (25.0 : Dbl).toRat = 25 ∧
      (11.2 : Dbl).toRat = 3152519739159347 / 281474976710656) ∧
    newMonth [jake] = [⟨str "Jake", 16, Info.bayLetter 65, 724⟩] := by
  refine ⟨?_, ?_, ?_, ?_, ?_⟩
  · intro boats; simp [newMonth]
  · intro boats k hk hk2
    have hnew : ((newMonth boats)[k]).amountOwed =
        (boats[k]).amountOwed + Dbl.ofInt (boats[k]).length * RATES (boats[k]).location := by
      simp only [newMonth, List.getElem_map]
    refine ⟨?_, ?_, ?_, hnew, ?_⟩
    · simp only [newMonth, List.getElem_map]
    · simp only [newMonth, List.getElem_map]
    · simp only [newMonth, List.getElem_map]
    · intro hz
      obtain ⟨hpf, hpn⟩ := charge_nearest (boats[k]).length hz (boats[k]).location
      refine ⟨(Dbl.ofInt_exact _ hz).2, hpf, hpn, ?_⟩
      intro hfa hfr
      rw [hnew] at hfr ⊢
      exact Dbl.add_nearest _ _ hfa hpf hfr
  · intro b
    cases hi : b.info <;> simp [Boat.location, RATES, hi]
  · refine ⟨by decide!, by decide!, by decide!, by decide!⟩
  · decide!

/-! ## Removal -/

theorem findBoatIndexFrom_range (lowerName : List Nat) (bs : List Boat) (i0 : Nat) :
    findBoatIndexFrom lowerName bs i0 = -1 ∨
    ∃ k : Nat, k < bs.length ∧ findBoatIndexFrom lowerName bs i0 = ((i0 + k : Nat) : Int) := by
  induction bs generalizing i0 with
  | nil => left; rfl
  | cons b rest ih =>
    simp only [findBoatIndexFrom]
    split_ifs with h
    · right; exact ⟨0, by simp, by simp⟩
    · rcases ih (i0 + 1) with e | ⟨k, hk, e⟩
      · left; exact e
      · right; exact ⟨k + 1, by simpa using hk, by rw [e]; push_cast; ring⟩

theorem shiftDown_length (n : Nat) : ∀ (bs : List Boat) (i : Nat),
    (shiftDown n bs i).length = bs.length := by
  induction n with
  | zero => intro bs i; rfl
  | succ n ih => intro bs i; simp [shiftDown, ih]

theorem shiftDown_getD (n : Nat) : ∀ (bs : List Boat) (i k : Nat), i + n < bs.length →
    (shiftDown n bs i).getD k default =
      if i ≤ k ∧ k < i + n then bs.getD (k + 1) default else bs.getD k default := by
  induction n with
  | zero =>
    intro bs i k _
    simp only [shiftDown]
    rw [if_neg (by omega)]
  | succ n ih =>
    intro bs i k h
    simp only [shiftDown]
    rw [ih _ (i + 1) k (by simpa using (by omega : i + 1 + n < bs.length))]
    simp only [getD_set_eq]
    by_cases h1 : i + 1 ≤ k ∧ k < i + 1 + n
    · rw [if_pos h1, if_neg (by omega), if_pos (by omega)]
    · rw [if_neg h1]
      by_cases h2 : i = k
      · rw [if_pos ⟨h2, by omega⟩, if_pos (by omega), h2]
      · rw [if_neg (by tauto), if_neg (by omega)]

/-- The shifting loop followed by `boatCount--` erases the element at `i`. -/
theorem shiftDown_take (bs : List Boat) (i : Nat) (hi : i < bs.length) :
    (shiftDown (bs.length - 1 - i) bs i).take (bs.length - 1) = bs.eraseIdx i := by
  apply List.ext_getElem?
  intro k
  by_cases hk : k < bs.length - 1
  · have e1 : ((shiftDown (bs.length - 1 - i) bs i).take (bs.length - 1))[k]? =
        some ((shiftDown (bs.length - 1 - i) bs i).getD k default) := by
      rw [List.getElem?_take_of_lt hk, List.getD_eq_getElem?_getD,
        List.getElem?_eq_getElem (by rw [shiftDown_length]; omega)]
      rfl
    rw [e1, shiftDown_getD _ bs i k (by omega), List.getElem?_eraseIdx]
    by_cases h1 : k < i
    · rw [if_neg (by omega), if_pos h1, List.getD_eq_getElem?_getD,
        List.getElem?_eq_getElem (by omega)]
      rfl
    · rw [if_pos (by omega), if_neg h1, List.getD_eq_getElem?_getD,
        List.getElem?_eq_getElem (by omega)]
      rfl
  · rw [List.getElem?_eq_none (by simp [shiftDown_length]; omega),
      List.getElem?_eq_none (by rw [List.length_eraseIdx, if_pos hi]; omega)]

/-- C10. When `findBoatIndex` returns an index `i`, `removeBoat` leaves the old
sequence with exactly the element at `i` erased, the other records in their
order, and one record less; when it returns `-1`, `removeBoat` leaves the
array as it was. -/
theorem removeBoat_erases (boats : List Boat) (name : List Nat) :
    (findBoatIndex boats name = -1 → removeBoat boats name = (boats, RemoveOutcome.noBoat)) ∧
    (∀ i : Nat, findBoatIndex boats name = (i : Int) →
      i < boats.length ∧
      removeBoat boats name = (boats.eraseIdx i, RemoveOutcome.removed) ∧
      (boats.eraseIdx i).length = boats.length - 1) := by
  constructor
  · intro h
    unfold removeBoat
    simp only [h, if_true]
  · intro i h
    have hi : i < boats.length := by
      rcases findBoatIndexFrom_range (toLowerCase name) boats 0 with e | ⟨k, hk, e⟩
      · unfold findBoatIndex at h; rw [e] at h; omega
      · unfold findBoatIndex at h; rw [e] at h; omega
    refine ⟨hi, ?_, by rw [List.length_eraseIdx, if_pos hi]⟩
    unfold removeBoat
    simp only [h]
    rw [if_neg (by omega)]
    simp only [Int.toNat_ofNat]
    rw [shiftDown_take boats i hi]

theorem removeBoat_erases_witness :
    findBoatIndex [betty, jake, zed] (str "jAKE") = ((1 : Nat) : Int) ∧
    1 < [betty, jake, zed].length ∧
    removeBoat [betty, jake, zed] (str "jAKE") = ([betty, jake, zed].eraseIdx 1,
      RemoveOutcome.removed) ∧
    ([betty, jake, zed].eraseIdx 1).length = [betty, jake, zed].length - 1 :=
  ⟨by decide, (removeBoat_erases [betty, jake, zed] (str "jAKE")).2 1 (by decide)⟩

/-! ## Printing and scanning numbers -/

theorem takeWhile_append_stop (p : Nat → Bool) (xs rest : List Nat)
    (hxs : ∀ c ∈ xs, p c = true) (hrest : ∀ c ∈ rest.head?, p c = false) :
    (xs ++ rest).takeWhile p = xs := by
  induction xs with
  | nil =>
    cases rest with
    | nil => rfl
    | cons c t => simp [List.takeWhile, hrest c (by simp)]
  | cons x xs ih =>
    simp only [List.cons_append]
    rw [List.takeWhile_cons_of_pos (hxs x (by simp)), ih (fun c hc => hxs c (by simp [hc]))]

theorem drop_length_append (xs rest : List Nat) : (xs ++ rest).drop xs.length = rest := by
  simp

theorem printNatAux_digits (fuel : Nat) : ∀ n, ∀ c ∈ printNatAux fuel n, isdigit c = true := by
  induction fuel with
  | zero => intro n c hc; simp [printNatAux] at hc
  | succ fuel ih =>
    intro n c hc
    simp only [printNatAux] at hc
    split_ifs at hc with h
    · simp only [List.mem_singleton] at hc
      subst hc; simp [isdigit]; omega
    · rw [List.mem_append] at hc
      rcases hc with hc | hc
      · exact ih _ c hc
      · simp only [List.mem_singleton] at hc
        subst hc; simp [isdigit]; omega

theorem decValue_append_one (xs : List Nat) (d : Nat) :
    decValue (xs ++ [d]) = 10 * decValue xs + (d - 48) := by
  simp [decValue, List.foldl_append]

theorem printNatAux_value (fuel : Nat) : ∀ n, n < fuel → decValue (printNatAux fuel n) = n := by
  induction fuel with
  | zero => intro n h; omega
  | succ fuel ih =>
    intro n h
    simp only [printNatAux]
    split_ifs with h1
    · simp [decValue]
    · rw [decValue_append_one, ih (n / 10) (by omega)]
      omega

theorem printNatAux_ne_nil (fuel n : Nat) : printNatAux (fuel + 1) n ≠ [] := by
  simp only [printNatAux]
  split_ifs <;> simp

theorem printNatAux_length (fuel : Nat) : ∀ n k, n < 10 ^ (k + 1) →
    (printNatAux fuel n).length ≤ k + 1 := by
  induction fuel with
  | zero => intro n k _; simp [printNatAux]
  | succ fuel ih =>
    intro n k h
    simp only [printNatAux]
    split_ifs with h1
    · simp
    · cases k with
      | zero => omega
      | succ k =>
        have : n / 10 < 10 ^ (k + 1) := by
          rw [Nat.div_lt_iff_lt_mul (by norm_num)]
          calc n < 10 ^ (k + 1 + 1) := h
            _ = 10 ^ (k + 1) * 10 := by ring
        have := ih (n / 10) k this
        simp only [List.length_append, List.length_singleton]
        omega

theorem printNat_digits (n : Nat) : ∀ c ∈ printNat n, isdigit c = true :=
  printNatAux_digits _ n

theorem printNat_value (n : Nat) : decValue (printNat n) = n :=
  printNatAux_value _ n (by omega)

theorem printNat_ne_nil (n : Nat) : printNat n ≠ [] := printNatAux_ne_nil n n

theorem isdigit_not_space (c : Nat) (h : isdigit c = true) : isspace c = false := by
  simp [isdigit, isspace] at *; omega

theorem skipSpace_digits (xs rest : List Nat) (hne : xs ≠ [])
    (hxs : ∀ c ∈ xs, isdigit c = true) : skipSpace (xs ++ rest) = xs ++ rest := by
  cases xs with
  | nil => exact absurd rfl hne
  | cons x t =>
    simp only [skipSpace, List.cons_append]
    rw [List.dropWhile_cons_of_neg (by simp [isdigit_not_space x (hxs x (by simp))])]

theorem scanSign_digits (xs rest : List Nat) (hne : xs ≠ [])
    (hxs : ∀ c ∈ xs, isdigit c = true) : scanSign (xs ++ rest) = (false, xs ++ rest) := by
  cases xs with
  | nil => exact absurd rfl hne
  | cons x t =>
    have hx := hxs x (by simp)
    simp only [isdigit, Bool.and_eq_true, decide_eq_true_eq] at hx
    simp only [List.cons_append]
    unfold scanSign
    split
    · next h => simp only [List.cons.injEq] at h; omega
    · next h => simp only [List.cons.injEq] at h; omega
    · rfl

theorem longToInt_clampLong (v : Int) (h1 : -2147483648 ≤ v) (h2 : v < 2147483648) :
    longToInt (clampLong v) = v := by
  unfold clampLong longToInt
  split_ifs <;> omega

/-- Scanning `%d` over the digits that `%d` printed gives the number back and
stops in front of the next character. -/
theorem scanInt_printNat (n : Nat) (rest : List Nat) (hn : n < 2147483648)
    (hrest : ∀ c ∈ rest.head?, isdigit c = false) :
    scanInt (printNat n ++ rest) = some ((n : Int), rest) := by
  unfold scanInt
  rw [skipSpace_digits _ _ (printNat_ne_nil n) (printNat_digits n),
    scanSign_digits _ _ (printNat_ne_nil n) (printNat_digits n)]
  simp only [leadingDigits]
  rw [takeWhile_append_stop isdigit _ _ (printNat_digits n) hrest, if_neg (printNat_ne_nil n),
    printNat_value, drop_length_append]
  simp only [Bool.false_eq_true, if_false]
  rw [longToInt_clampLong _ (by omega) (by omega)]

theorem atoi_printNat (n : Nat) (hn : n < 2147483648) : atoi (printNat n) = (n : Int) := by
  have := scanInt_printNat n [] hn (by simp)
  rw [List.append_nil] at this
  simp [atoi, this]

theorem printInt_of_nonneg (z : Int) (h : 0 ≤ z) : printInt z = printNat z.toNat := by
  unfold printInt
  rw [if_neg (by omega)]

theorem scanSet_field (w : Nat) (xs rest : List Nat) (hxs : ∀ c ∈ xs, c ≠ 0 ∧ c ≠ COMMA)
    (hlen : xs.length ≤ w) : scanSet w (xs ++ COMMA :: rest) = (xs, COMMA :: rest) := by
  unfold scanSet
  have h1 : (xs ++ COMMA :: rest).takeWhile (fun c => c != 0 && c != COMMA) = xs :=
    takeWhile_append_stop _ xs (COMMA :: rest)
      (fun c hc => by simp [(hxs c hc).1, (hxs c hc).2]) (fun c hc => by
        simp only [List.head?_cons, Option.mem_def, Option.some.injEq] at hc
        subst hc; simp)
  simp only [h1]
  rw [List.take_of_length_le hlen, drop_length_append]

theorem isdigit_add (d : Nat) (h : d < 10) : isdigit (48 + d) = true := by
  simp [isdigit]; omega

theorem isdigit_bounds (c : Nat) (h : isdigit c = true) : 48 ≤ c ∧ c ≤ 57 := by
  simpa [isdigit] using h

theorem tolower_digit (c : Nat) (h : isdigit c = true) : tolower c = c := by
  have := isdigit_bounds c h
  unfold tolower; rw [if_neg (by omega)]

/-- Before an exponent letter the character taken last plays no part. -/
theorem floatChars_prev (hex gd gdot : Bool) (prev prev' : Nat) (s : List Nat) :
    floatChars hex gd gdot false prev s = floatChars hex gd gdot false prev' s := by
  cases s with
  | nil => simp [floatChars]
  | cons c rest => simp [floatChars]

/-- `%lf` on input that starts with a digit and is not hexadecimal: the
digit and the characters the loop takes after it go to `strtod`. -/
theorem scanDouble_of_digit (c : Nat) (rest : List Nat) (hc : isdigit c = true)
    (hx : rest.head?.map tolower ≠ some 120) :
    scanDouble (c :: rest) = strtod (c :: floatChars false true false false 0 rest) := by
  have hb := isdigit_bounds c hc
  have hlow := tolower_digit c hc
  have hsk : skipSpace (c :: rest) = c :: rest := skipSpace_digits [c] rest (by simp)
    (fun x hx => by simp only [List.mem_singleton] at hx; subst hx; exact hc)
  unfold scanDouble
  rw [hsk]
  have hsg : (if (c :: rest).head? = some 45 ∨ (c :: rest).head? = some 43 then
      (c :: rest).take 1 else []) = [] := by
    rw [if_neg]
    simp only [List.head?_cons, Option.some.injEq]
    omega
  simp only [hsg, List.length_nil, List.drop_zero, List.nil_append]
  rw [if_neg (by rw [hlow]; omega)]
  have hhex : (c == 48 && rest.head?.map tolower == some 120) = false := by
    have : (rest.head?.map tolower == some 120) = false := by simpa using hx
    rw [this, Bool.and_false]
  simp only [hhex, Bool.false_eq_true, if_false, Bool.not_false, Bool.and_true, false_and,
    or_false]
  by_cases h48 : c = 48
  · subst h48
    simp
  · simp only [if_neg h48, List.length_nil, List.drop_zero, List.nil_append]
    rw [floatChars, if_pos hc, floatChars_prev false true false c 0]
    simp

theorem floatChars_tail (gd : Bool) (prev d1 d2 : Nat) (h1 : d1 < 10) (h2 : d2 < 10) :
    floatChars false gd false false prev [46, 48 + d1, 48 + d2, 10] = [46, 48 + d1, 48 + d2] := by
  have e1 : isdigit 46 = false := rfl
  have e2 : isdigit 10 = false := rfl
  have e3 : tolower 46 = 46 := rfl
  have e4 : tolower 10 = 10 := rfl
  simp [floatChars, e1, e2, e3, e4, isdigit_add d1 h1, isdigit_add d2 h2]

theorem floatChars_printed (ds : List Nat) (hds : ∀ c ∈ ds, isdigit c = true) (d1 d2 : Nat)
    (h1 : d1 < 10) (h2 : d2 < 10) : ∀ (gd : Bool) (prev : Nat),
    floatChars false gd false false prev (ds ++ [46, 48 + d1, 48 + d2, 10]) =
      ds ++ [46, 48 + d1, 48 + d2] := by
  induction ds with
  | nil => intro gd prev; exact floatChars_tail gd prev d1 d2 h1 h2
  | cons c t ih =>
    intro gd prev
    rw [List.cons_append, floatChars, if_pos (hds c (by simp)),
      ih (fun x hx => hds x (by simp [hx])), List.cons_append]

/-- `strtod` on digits, a point and two digits. -/
theorem strtod_printed (ds : List Nat) (hne : ds ≠ []) (hds : ∀ c ∈ ds, isdigit c = true)
    (d1 d2 : Nat) (h1 : d1 < 10) (h2 : d2 < 10) :
    strtod (ds ++ [46, 48 + d1, 48 + d2]) =
      some (Dbl.round false (decValue ds * 100 + d1 * 10 + d2) 100) := by
  have hstop : ∀ c ∈ ([46, 48 + d1, 48 + d2] : List Nat).head?, isdigit c = false := by
    intro c hc
    simp only [List.head?_cons, Option.mem_def, Option.some.injEq] at hc
    subst hc; rfl
  have hfp : leadingDigits [48 + d1, 48 + d2] = [48 + d1, 48 + d2] := by
    have := takeWhile_append_stop isdigit [48 + d1, 48 + d2] []
      (fun c hc => by
        simp only [List.mem_cons, List.mem_singleton, List.not_mem_nil, or_false] at hc
        rcases hc with rfl | rfl
        · exact isdigit_add d1 h1
        · exact isdigit_add d2 h2)
      (fun c hc => by simp at hc)
    simpa [leadingDigits] using this
  obtain ⟨c, t, rfl⟩ : ∃ c t, ds = c :: t := by
    cases ds with
    | nil => exact absurd rfl hne
    | cons c t => exact ⟨c, t, rfl⟩
  have hc := hds c (by simp)
  have hb := isdigit_bounds c hc
  have hlow := tolower_digit c hc
  unfold strtod
  rw [scanSign_digits _ _ hne hds]
  dsimp only
  have n1 : ¬ ((c :: t ++ [46, 48 + d1, 48 + d2]).take 3).map tolower = str "inf" := by
    intro h
    have := congrArg List.head? h
    simp only [List.cons_append, List.take_succ_cons, List.map_cons, List.head?_cons, hlow] at this
    have : c = 105 := by simpa [str] using this
    omega
  have n2 : ¬ ((c :: t ++ [46, 48 + d1, 48 + d2]).take 3).map tolower = str "nan" := by
    intro h
    have := congrArg List.head? h
    simp only [List.cons_append, List.take_succ_cons, List.map_cons, List.head?_cons, hlow] at this
    have : c = 110 := by simpa [str] using this
    omega
  have n3 : ¬ (((c :: t ++ [46, 48 + d1, 48 + d2]).take 2).map tolower = str "0x" ∧
      (((c :: t ++ [46, 48 + d1, 48 + d2]).drop 2).head?.any isxdigit ∨
        (((c :: t ++ [46, 48 + d1, 48 + d2]).drop 2).head? = some 46 ∧
          ((c :: t ++ [46, 48 + d1, 48 + d2]).drop 3).head?.any isxdigit))) := by
    rintro ⟨h, _⟩
    cases t with
    | nil =>
      have := congrArg (fun l => l.getD 1 0) h
      simp [str] at this
      exact absurd this (by decide)
    | cons x t' =>
      have hxd := hds x (by simp)
      have hxb := isdigit_bounds x hxd
      have := congrArg (fun l => l.getD 1 0) h
      simp [str, tolower_digit x hxd] at this
      omega
  rw [if_neg n1, if_neg n2, if_neg n3]
  simp only [leadingDigits] at hfp ⊢
  rw [takeWhile_append_stop isdigit _ _ hds hstop, drop_length_append]
  simp only [hfp]
  rw [if_neg (by simp)]
  simp only [List.length_cons, List.length_nil, List.drop_succ_cons, List.drop_zero,
    scanExponent]
  have hv : decValue (c :: t ++ [48 + d1, 48 + d2]) = decValue (c :: t) * 100 + d1 * 10 + d2 := by
    have : c :: t ++ [48 + d1, 48 + d2] = ((c :: t) ++ [48 + d1]) ++ [48 + d2] := by simp
    rw [this, decValue_append_one, decValue_append_one]
    omega
  rw [hv]
  have e1 : (0 - ((0 + 1 + 1 : Nat) : Int)).toNat = 0 := by decide
  have e2 : (-(0 - ((0 + 1 + 1 : Nat) : Int))).toNat = 2 := by decide
  rw [e1, e2, pow_zero, Nat.mul_one]
  rfl

/-- Scanning `%lf` over an amount printed by `%.2f` and followed by the end
of the line gives the `double` nearest to the printed amount. -/
theorem scanDouble_printed (a d1 d2 : Nat) (h1 : d1 < 10) (h2 : d2 < 10) :
    scanDouble (printNat a ++ [46, 48 + d1, 48 + d2, 10]) =
      some (Dbl.round false (a * 100 + d1 * 10 + d2) 100) := by
  obtain ⟨c, t, hct⟩ : ∃ c t, printNat a = c :: t := by
    cases hp : printNat a with
    | nil => exact absurd hp (printNat_ne_nil a)
    | cons c t => exact ⟨c, t, rfl⟩
  have hdig := printNat_digits a
  rw [hct] at hdig
  have ht : ∀ x ∈ t, isdigit x = true := fun x hx => hdig x (by simp [hx])
  have hx : (t ++ [46, 48 + d1, 48 + d2, 10]).head?.map tolower ≠ some 120 := by
    cases t with
    | nil => simp [tolower]
    | cons x t' =>
      have hxd := ht x (by simp)
      have := isdigit_bounds x hxd
      simp [tolower_digit x hxd]; omega
  rw [hct, List.cons_append, scanDouble_of_digit c _ (hdig c (by simp)) hx,
    floatChars_printed t ht d1 d2 h1 h2, ← List.cons_append, ← hct,
    strtod_printed _ (printNat_ne_nil a) (printNat_digits a) d1 d2 h1 h2, printNat_value]

/-! ## Round trip through one line of the file -/

theorem cstr_of_no_zero (s : List Nat) (h : ∀ c ∈ s, c ≠ 0 ∧ c ≠ COMMA) : cstr s = s := by
  unfold cstr
  rw [List.takeWhile_eq_self_iff]
  intro c hc
  simp [(h c hc).1]

/-- The `sscanf` call reads back five well-formed fields, whatever the
destinations held before. -/
theorem sscanfBoat_fields (u : Scanned) (name type extra : List Nat) (len a d1 d2 : Nat)
    (hname : ValidField 127 name) (htype : ValidField 15 type) (hextra : ValidField 31 extra)
    (hlen : len < 2147483648) (h1 : d1 < 10) (h2 : d2 < 10) :
    sscanfBoat u (name ++ COMMA :: (printNat len ++ COMMA :: (type ++ COMMA :: (extra ++
      COMMA :: (printNat a ++ [46, 48 + d1, 48 + d2, 10]))))) =
      ⟨name, (len : Int), type, extra, Dbl.round false (a * 100 + d1 * 10 + d2) 100⟩ := by
  unfold sscanfBoat
  rw [scanSet_field 127 name _ hname.2.2 hname.2.1]
  simp only [COMMA, if_neg hname.1]
  rw [scanInt_printNat len _ hlen (fun c hc => by
    simp only [List.head?_cons, Option.mem_def, Option.some.injEq] at hc
    subst hc; rfl)]
  simp only
  have e1 := scanSet_field 15 type (extra ++ COMMA :: (printNat a ++ [46, 48 + d1, 48 + d2, 10]))
    htype.2.2 htype.2.1
  have e2 := scanSet_field 31 extra (printNat a ++ [46, 48 + d1, 48 + d2, 10])
    hextra.2.2 hextra.2.1
  simp only [COMMA] at e1 e2
  rw [e1]
  simp only [if_neg htype.1]
  rw [e2]
  simp only [if_neg hextra.1]
  rw [scanDouble_printed a d1 d2 h1 h2]

/-- The text `%.2f` prints for an amount that is finite and not negative. -/
theorem printFixed2_finite (d : Dbl) (hs : d.sign = false) (hf : d.isFinite = true) :
    printFixed2 d =
      printNat (roundDiv (d.units * 100) (2 ^ 1074) / 100) ++
        [46, 48 + roundDiv (d.units * 100) (2 ^ 1074) / 10 % 10,
          48 + roundDiv (d.units * 100) (2 ^ 1074) % 10] := by
  have hb : d.bits < INF_BITS := by simpa [Dbl.isFinite] using hf
  have hn : d.isNaN = false := by simp only [Dbl.isNaN, decide_eq_false_iff_not]; omega
  have hi : d.isInf = false := by simp only [Dbl.isInf, decide_eq_false_iff_not]; omega
  unfold printFixed2
  simp only [hs, hn, hi, Bool.false_eq_true, if_false]

theorem validField_typeName (l : LocationType) : ValidField 15 (typeName l) := by
  cases l <;> decide

theorem validField_printNat (n : Nat) (h : n < 1000) : ValidField 31 (printNat n) := by
  refine ⟨printNat_ne_nil n, ?_, ?_⟩
  · have := printNatAux_length (n + 1) n 2 (by omega)
    unfold printNat; omega
  · intro c hc
    have := printNat_digits n c hc
    simp only [isdigit, Bool.and_eq_true, decide_eq_true_eq] at this
    simp only [COMMA]; omega

/-- For every valid record `r` whose tag, if it has one, fits the member
`trailorTag[16]`, scanning the line that `saveCSV` writes for `r` the way
`loadCSV` does (the `sscanf` call and the dispatch on the type tag) yields `r`
again, whatever the fresh record and the local buffers held before. -/
theorem save_load_roundtrip (u : Scanned) (uinfo : Info) (r : Boat) (h : ValidRecord r)
    (hfit : ∀ t, r.info = Info.trailorTag t → t.length ≤ 15) :
    loadBoat u uinfo (saveLine r) = some r := by
  obtain ⟨name, len, info, amt⟩ := r
  obtain ⟨hname, hl1, hl2, hinfo, hsign, hfin, hamt⟩ := h
  simp only at hname hl1 hl2 hinfo hsign hfin hamt hfit
  generalize hcents : roundDiv (amt.units * 100) (2 ^ 1074) = cents at hamt
  have hpr := printFixed2_finite amt hsign hfin
  rw [hcents] at hpr
  have hc : Dbl.round false (cents / 100 * 100 + cents / 10 % 10 * 10 + cents % 10) 100 = amt := by
    have e : cents / 100 * 100 + cents / 10 % 10 * 10 + cents % 10 = cents := by omega
    rw [e]; exact hamt.symm
  have hlen : printInt len = printNat len.toNat := printInt_of_nonneg len (by omega)
  have hlen2 : ((len.toNat : Nat) : Int) = len := Int.toNat_of_nonneg (by omega)
  have key : ∀ extra, ValidField 31 extra →
      sscanfBoat u (name ++ COMMA :: (printNat len.toNat ++ COMMA ::
        (typeName (Boat.location ⟨name, len, info, amt⟩) ++ COMMA :: (extra ++
        COMMA :: (printNat (cents / 100) ++ [46, 48 + cents / 10 % 10, 48 + cents % 10, 10]))))) =
      ⟨name, len, typeName (Boat.location ⟨name, len, info, amt⟩), extra, amt⟩ := by
    intro extra hextra
    rw [sscanfBoat_fields u name _ extra len.toNat (cents / 100) (cents / 10 % 10) (cents % 10)
      hname (validField_typeName _) hextra (by omega) (Nat.mod_lt _ (by norm_num))
      (Nat.mod_lt _ (by norm_num)), hc, hlen2]
  unfold loadBoat saveLine
  simp only [cstr_of_no_zero name hname.2.2, hlen, hpr, List.append_assoc,
    List.cons_append, List.nil_append]
  cases info with
  | slipNumber n =>
    simp only [ValidInfo] at hinfo
    have hx : saveExtra ⟨name, len, Info.slipNumber n, amt⟩ = printNat n.toNat := by
      simp only [saveExtra]; exact printInt_of_nonneg n (by omega)
    have hv := validField_printNat n.toNat (by omega)
    rw [hx, cstr_of_no_zero _ hv.2.2, key _ hv]
    simp only [Boat.location, typeName]
    rw [if_pos (by decide), atoi_printNat _ (by omega), Int.toNat_of_nonneg (by omega)]
  | bayLetter c =>
    simp only [ValidInfo] at hinfo
    have hv : ValidField 31 [c] := by
      refine ⟨by simp, by simp, ?_⟩
      intro x hx
      simp only [List.mem_singleton] at hx
      subst hx
      unfold toupper at hinfo
      simp only [COMMA]
      split_ifs at hinfo <;> omega
    have hx : saveExtra ⟨name, len, Info.bayLetter c, amt⟩ = [c] := rfl
    rw [hx, cstr_of_no_zero _ hv.2.2, key _ hv]
    simp only [Boat.location, typeName]
    rw [if_neg (by decide), if_pos (by decide)]
    rfl
  | trailorTag t =>
    simp only [ValidInfo] at hinfo
    have hx : saveExtra ⟨name, len, Info.trailorTag t, amt⟩ = cstr t := rfl
    rw [hx, cstr_of_no_zero _ hinfo.2.2, cstr_of_no_zero _ hinfo.2.2, key _ hinfo]
    simp only [Boat.location, typeName]
    rw [if_neg (by decide), if_neg (by decide), if_pos (by decide),
      if_neg (by unfold strlen; rw [cstr_of_no_zero _ hinfo.2.2]; have := hfit t rfl; omega),
      cstr_of_no_zero _ hinfo.2.2]
  | storageNumber n =>
    simp only [ValidInfo] at hinfo
    have hx : saveExtra ⟨name, len, Info.storageNumber n, amt⟩ =
        printNat n.toNat := by
      simp only [saveExtra]; exact printInt_of_nonneg n (by omega)
    have hv := validField_printNat n.toNat (by omega)
    rw [hx, cstr_of_no_zero _ hv.2.2, key _ hv]
    simp only [Boat.location, typeName]
    rw [if_neg (by decide), if_neg (by decide), if_neg (by decide), if_pos (by decide),
      atoi_printNat _ (by omega), Int.toNat_of_nonneg (by omega)]

/-- C8, the code at the failing input.  The record `longTag` is valid (its tag
has 23 characters, inside 1..31), `saveCSV` writes the line
`Bob,20,trailor,ABCDEFGHIJKLMNOPQRSTUVW,500.00` for it, and `loadCSV` scans the
23 characters into `extra` and copies them with `strcpy` past the 16 bytes of
`trailorTag`: no record equal to `longTag` comes back. -/
theorem loadBoat_long_tag :
    ValidRecord longTag ∧
    saveLine longTag = str "Bob,20,trailor,ABCDEFGHIJKLMNOPQRSTUVW,500.00\n" ∧
    (∀ (u : Scanned) (uinfo : Info), loadBoat u uinfo (saveLine longTag) = none) := by
  refine ⟨by decide!, by decide!, ?_⟩
  intro u uinfo
  have hl : saveLine longTag = str "Bob,20,trailor,ABCDEFGHIJKLMNOPQRSTUVW,500.00\n" := by
    decide!
  have hs : sscanfBoat u (str "Bob,20,trailor,ABCDEFGHIJKLMNOPQRSTUVW,500.00\n") =
      ⟨str "Bob", 20, str "trailor", str "ABCDEFGHIJKLMNOPQRSTUVW", 500⟩ := by
    with_unfolding_all rfl
  unfold loadBoat
  rw [hl, hs]
  dsimp only
  rw [if_neg (by decide), if_neg (by decide), if_pos (by decide), if_pos (by decide)]

/-! ## What a successful `addBoat` stores -/

/-- On the return point `added` the array is a permutation of the old array
with one record appended, and that record holds the scanned name, length and
amount. -/
theorem addBoat_added_perm (u : Scanned) (boats : List Boat) (csvLine : List Nat)
    (boats' : List Boat) (h : addBoat u boats csvLine = some (boats', AddOutcome.added)) :
    ∃ info : Info, boats'.Perm (boats ++ [⟨(sscanfBoat u csvLine).name,
      (sscanfBoat u csvLine).length, info, (sscanfBoat u csvLine).amountOwed⟩]) ∧
      boats'.length = boats.length + 1 := by
  rcases addBoat_cases u boats csvLine boats' _ h with ⟨_, h2⟩ | ⟨_, _, _, info, rfl⟩
  · exact absurd rfl h2
  · refine ⟨info, (sortBoats_spec _).2.1, ?_⟩
    unfold insertBoat
    rw [(sortBoats_spec _).1]; simp

/-- C9, the code at the failing inputs.  For the line `Bob,12,slip,5,x` the
conversion `%lf` does not match, `addBoat` succeeds all the same, and the new
record owes whatever the fresh memory held: two runs that differ only in that
content store different amounts.  For a tag of 23 characters `addBoat` passes
every test and copies the tag past the 16 bytes of `trailorTag`. -/
theorem addBoat_unscanned_amount :
    (∀ u : Scanned, addBoat u [] (str "Bob,12,slip,5,x") =
      some ([⟨str "Bob", 12, Info.slipNumber 5, u.amountOwed⟩], AddOutcome.added)) ∧
    addBoat zeroed [] (str "Bob,12,slip,5,x") ≠ addBoat stale [] (str "Bob,12,slip,5,x") ∧
    (∀ u : Scanned,
      addBoat u [] (str "Bob,20,trailor,ABCDEFGHIJKLMNOPQRSTUVW,500") = none) := by
  refine ⟨?_, by decide!, ?_⟩
  · intro u
    have hs : sscanfBoat u (str "Bob,12,slip,5,x") =
        ⟨str "Bob", 12, str "slip", str "5", u.amountOwed⟩ := by
      with_unfolding_all rfl
    have h1 : insertBoat [] ⟨str "Bob", 12, Info.slipNumber 5, u.amountOwed⟩ =
        [⟨str "Bob", 12, Info.slipNumber 5, u.amountOwed⟩] := by
      simp [insertBoat, sortBoats, quickSortBoats, quickSortBoatsAux]
    unfold addBoat
    rw [hs]
    dsimp only
    rw [if_neg (by decide), if_neg (by decide), if_neg (by decide), if_neg (by decide),
      if_pos (by decide), if_neg (by decide), if_neg (by decide)]
    have h2 : atoi (str "5") = 5 := by decide
    rw [h2, h1]
  · intro u
    have hs : sscanfBoat u (str "Bob,20,trailor,ABCDEFGHIJKLMNOPQRSTUVW,500") =
        ⟨str "Bob", 20, str "trailor", str "ABCDEFGHIJKLMNOPQRSTUVW", 500⟩ := by
      with_unfolding_all rfl
    unfold addBoat
    rw [hs]
    decide!

/-! ## The name field of a line -/

/-- When the line starts with a name field of 1 to 127 characters followed by
a comma, `sscanf` stores exactly that field as the name. -/
theorem sscanfBoat_name (u : Scanned) (name rest : List Nat) (hname : ValidField 127 name) :
    (sscanfBoat u (name ++ COMMA :: rest)).name = name := by
  unfold sscanfBoat
  rw [scanSet_field 127 name rest hname.2.2 hname.2.1]
  simp only [COMMA, if_neg hname.1]
  repeat' split
  all_goals rfl

/-! ## Lookup by name -/

theorem tolower_eq_zero (c : Nat) : tolower c = 0 ↔ c = 0 := by
  unfold tolower
  by_cases h : 65 ≤ c ∧ c ≤ 90
  · rw [if_pos h]; exact ⟨fun e => by omega, fun e => by omega⟩
  · rw [if_neg h]

theorem toLowerCase_eq_map (s : List Nat) : toLowerCase s = (cstr s).map tolower := by
  induction s with
  | nil => rfl
  | cons c rest ih =>
    simp only [toLowerCase]
    by_cases h : c = 0
    · subst h; rw [if_pos rfl, cstr_zero]; rfl
    · rw [if_neg h, cstr_cons c rest h, ih]; rfl

theorem cstr_toLowerCase (s : List Nat) : cstr (toLowerCase s) = toLowerCase s := by
  induction s with
  | nil => rfl
  | cons c rest ih =>
    simp only [toLowerCase]
    by_cases h : c = 0
    · rw [if_pos h]; rfl
    · rw [if_neg h, cstr_cons _ _ (fun e => h ((tolower_eq_zero c).1 e)), ih]

/-- The test of `findBoatIndex`, `strcmp` on the two lower-cased copies, holds
exactly for names that are equal ignoring letter case. -/
theorem strcmp_toLowerCase (a b : List Nat) :
    strcmp (toLowerCase a) (toLowerCase b) = 0 ↔ equalIgnoringCase a b := by
  rw [strcmp_eq_zero_iff, cstr_toLowerCase, cstr_toLowerCase, toLowerCase_eq_map,
    toLowerCase_eq_map]
  rfl

/-- The library `strcasecmp` returns 0 exactly for names that are equal
ignoring letter case. -/
theorem strcasecmp_eq_zero_iff (a b : List Nat) :
    strcasecmp a b = 0 ↔ equalIgnoringCase a b := by
  unfold equalIgnoringCase
  induction a generalizing b with
  | nil =>
    cases b with
    | nil => simp [strcasecmp]
    | cons y ys =>
      simp only [strcasecmp]
      by_cases hy : y = 0
      · subst hy; simp [cstr_zero, tolower, cstr]
      · rw [cstr_cons y ys hy]
        have := (tolower_eq_zero y).not.2 hy
        exact ⟨fun h => by omega, fun h => absurd h (by simp [cstr])⟩
  | cons x xs ih =>
    cases b with
    | nil =>
      simp only [strcasecmp]
      by_cases hx : x = 0
      · subst hx; simp [cstr_zero, tolower, cstr]
      · rw [cstr_cons x xs hx]
        have := (tolower_eq_zero x).not.2 hx
        exact ⟨fun h => by omega, fun h => absurd h (by simp [cstr])⟩
    | cons y ys =>
      simp only [strcasecmp]
      by_cases hx : x = 0
      · subst hx
        have t0 : tolower 0 = 0 := rfl
        rw [if_pos (Or.inl t0), cstr_zero, t0]
        by_cases hy : y = 0
        · subst hy; simp [cstr_zero, t0]
        · rw [cstr_cons y ys hy]
          have := (tolower_eq_zero y).not.2 hy
          exact ⟨fun h => by omega, fun h => absurd h (by simp)⟩
      · have hx' := (tolower_eq_zero x).not.2 hx
        rw [cstr_cons x xs hx]
        by_cases hxy : tolower x = tolower y
        · have hy : y ≠ 0 := fun e => hx' (by rw [hxy, e]; rfl)
          rw [if_neg (by rw [not_or]; exact ⟨hx', not_not.2 hxy⟩), cstr_cons y ys hy, ih ys]
          simp only [List.map_cons, List.cons.injEq, hxy, true_and]
        · rw [if_pos (Or.inr hxy)]
          constructor
          · intro h; omega
          · intro h
            by_cases hy : y = 0
            · subst hy; rw [cstr_zero] at h; exact absurd h (by simp)
            · rw [cstr_cons y ys hy] at h
              simp only [List.map_cons, List.cons.injEq] at h
              exact absurd h.1 hxy

theorem findBoatIndexFrom_spec (name : List Nat) (bs : List Boat) :
    ∀ i0 : Nat,
      (findBoatIndexFrom (toLowerCase name) bs i0 = -1 ↔
        ∀ b ∈ bs, ¬ equalIgnoringCase b.name name) ∧
      (∀ k : Nat, findBoatIndexFrom (toLowerCase name) bs i0 = ((i0 + k : Nat) : Int) ↔
        ∃ b, bs[k]? = some b ∧ equalIgnoringCase b.name name ∧
          ∀ j c, j < k → bs[j]? = some c → ¬ equalIgnoringCase c.name name) := by
  induction bs with
  | nil =>
    intro i0
    simp only [findBoatIndexFrom]
    refine ⟨by simp, ?_⟩
    intro k
    constructor
    · intro h; omega
    · rintro ⟨b, hb, _⟩; simp at hb
  | cons b rest ih =>
    intro i0
    simp only [findBoatIndexFrom, strcmp_toLowerCase]
    obtain ⟨ih1, ih2⟩ := ih (i0 + 1)
    by_cases hm : equalIgnoringCase b.name name
    · rw [if_pos hm]
      constructor
      · constructor
        · intro h; omega
        · intro h; exact absurd hm (h b (by simp))
      · intro k
        constructor
        · intro h
          have : k = 0 := by omega
          subst this
          exact ⟨b, by simp, hm, fun j c hj => by omega⟩
        · rintro ⟨c, hc, _, hleast⟩
          cases k with
          | zero => simp
          | succ k => exact absurd hm (hleast 0 b (by omega) (by simp))
    · rw [if_neg hm]
      constructor
      · rw [ih1]
        constructor
        · intro h c hc
          rcases List.mem_cons.1 hc with rfl | hc
          · exact hm
          · exact h c hc
        · intro h c hc; exact h c (by simp [hc])
      · intro k
        cases k with
        | zero =>
          constructor
          · intro h
            rcases findBoatIndexFrom_range (toLowerCase name) rest (i0 + 1) with e | ⟨k, _, e⟩
            · rw [e] at h; omega
            · rw [e] at h; push_cast at h; omega
          · rintro ⟨c, hc, hmc, _⟩
            simp only [List.getElem?_cons_zero, Option.some.injEq] at hc
            subst hc; exact absurd hmc hm
        | succ k =>
          have e : ((i0 + (k + 1) : Nat) : Int) = ((i0 + 1 + k : Nat) : Int) := by
            push_cast; ring
          rw [e, ih2 k]
          constructor
          · rintro ⟨c, hc, hmc, hleast⟩
            refine ⟨c, by simpa using hc, hmc, ?_⟩
            intro j d hj hd
            cases j with
            | zero =>
              simp only [List.getElem?_cons_zero, Option.some.injEq] at hd
              subst hd; exact hm
            | succ j => exact hleast j d (by omega) (by simpa using hd)
          · rintro ⟨c, hc, hmc, hleast⟩
            refine ⟨c, by simpa using hc, hmc, ?_⟩
            intro j d hj hd
            exact hleast (j + 1) d (by omega) (by simpa using hd)

/-- C11. `findBoatIndex` returns `-1` exactly when no stored name equals the
query ignoring letter case; otherwise it returns the least index below
`boatCount` whose stored name equals the query ignoring letter case.  The
match is on whole names: a returned index holds a name of the same length as
the query, so a prefix is never a match (`Bet` does not find `Betty`). -/
theorem findBoatIndex_least (boats : List Boat) (name : List Nat) :
    (findBoatIndex boats name = -1 ↔ ∀ b ∈ boats, ¬ equalIgnoringCase b.name name) ∧
    (∀ i : Nat, findBoatIndex boats name = (i : Int) ↔
      ∃ b, boats[i]? = some b ∧ equalIgnoringCase b.name name ∧
        ∀ j c, j < i → boats[j]? = some c → ¬ equalIgnoringCase c.name name) ∧
    (findBoatIndex boats name = -1 ∨
      ∃ i : Nat, i < boats.length ∧ findBoatIndex boats name = (i : Int)) ∧
    (∀ (i : Nat) (b : Boat), findBoatIndex boats name = (i : Int) → boats[i]? = some b →
      strlen b.name = strlen name) ∧
    findBoatIndex [betty, jake, zed] (str "jAKE") = 1 ∧
    findBoatIndex [betty, jake, zed] (str "Bet") = -1 := by
  obtain ⟨h1, h2⟩ := findBoatIndexFrom_spec name boats 0
  have h2' : ∀ i : Nat, findBoatIndex boats name = (i : Int) ↔
      ∃ b, boats[i]? = some b ∧ equalIgnoringCase b.name name ∧
        ∀ j c, j < i → boats[j]? = some c → ¬ equalIgnoringCase c.name name := by
    intro i
    have := h2 i
    rw [Nat.zero_add] at this
    exact this
  refine ⟨h1, h2', ?_, ?_, by decide, by decide⟩
  · rcases findBoatIndexFrom_range (toLowerCase name) boats 0 with e | ⟨k, hk, e⟩
    · exact Or.inl e
    · exact Or.inr ⟨k, hk, by rw [Nat.zero_add] at e; exact e⟩
  · intro i b hi hb
    obtain ⟨c, hc, hm, _⟩ := (h2' i).1 hi
    rw [hb] at hc
    cases hc
    have := congrArg List.length hm
    simpa [strlen] using this

/-! ## Adding and then removing -/

theorem findBoatIndex_range (boats : List Boat) (name : List Nat) :
    findBoatIndex boats name = -1 ∨
      ∃ i : Nat, i < boats.length ∧ findBoatIndex boats name = (i : Int) := by
  rcases findBoatIndexFrom_range (toLowerCase name) boats 0 with e | ⟨k, hk, e⟩
  · exact Or.inl e
  · exact Or.inr ⟨k, hk, by rw [Nat.zero_add] at e; exact e⟩

theorem findBoatIndex_eq_neg_one (boats : List Boat) (name : List Nat) :
    findBoatIndex boats name = -1 ↔ ∀ b ∈ boats, ¬ equalIgnoringCase b.name name :=
  (findBoatIndexFrom_spec name boats 0).1

/-- What `removeBoat` does when the name is found at index `i`. -/
theorem removeBoat_found (boats : List Boat) (name : List Nat) (i : Nat)
    (h : findBoatIndex boats name = (i : Int)) :
    i < boats.length ∧ removeBoat boats name = (boats.eraseIdx i, RemoveOutcome.removed) := by
  have hi : i < boats.length := by
    rcases findBoatIndex_range boats name with e | ⟨k, hk, e⟩
    · rw [e] at h; omega
    · rw [e] at h; omega
  refine ⟨hi, ?_⟩
  unfold removeBoat
  simp only [h]
  rw [if_neg (by omega)]
  simp only [Int.toNat_ofNat]
  rw [shiftDown_take boats i hi]

/-- What `removeBoat` does when the name is not found. -/
theorem removeBoat_not_found (boats : List Boat) (name : List Nat)
    (h : findBoatIndex boats name = -1) :
    removeBoat boats name = (boats, RemoveOutcome.noBoat) := by
  unfold removeBoat
  simp only [h, if_true]

/-- Removing a name that some record bears takes one record away. -/
theorem removeBoat_of_mem (boats : List Boat) (name : List Nat) (b : Boat) (hb : b ∈ boats)
    (hm : equalIgnoringCase b.name name) :
    ∃ i : Nat, i < boats.length ∧ findBoatIndex boats name = (i : Int) ∧
      removeBoat boats name = (boats.eraseIdx i, RemoveOutcome.removed) ∧
      (boats.eraseIdx i).length + 1 = boats.length := by
  rcases findBoatIndex_range boats name with e | ⟨i, hi, e⟩
  · exact absurd hm ((findBoatIndex_eq_neg_one boats name).1 e b hb)
  · refine ⟨i, hi, e, (removeBoat_found boats name i e).2, ?_⟩
    rw [List.length_eraseIdx, if_pos hi]; omega

theorem equalIgnoringCase_symm (a b : List Nat) (h : equalIgnoringCase a b) :
    equalIgnoringCase b a := Eq.symm h

/-- The line `Alyssa,20,trailor,XY1234,0` scans completely, whatever the
destinations held. -/
theorem sscanfBoat_alyssa (u : Scanned) :
    sscanfBoat u (str "Alyssa,20,trailor,XY1234,0") =
      ⟨str "Alyssa", 20, str "trailor", str "XY1234", 0⟩ := by
  with_unfolding_all rfl

/-! ## What `addBoat` has checked when it inserts -/

theorem cstr_cstr (s : List Nat) : cstr (cstr s) = cstr s := by
  induction s with
  | nil => rfl
  | cons c rest ih =>
    by_cases h : c = 0
    · subst h; rw [cstr_zero]; rfl
    · rw [cstr_cons c rest h, cstr_cons c _ h, ih]

/-- On the return point `added` the array was below capacity, the line had
four commas, the scanned length is at most 100, and the inserted record bears
the scanned name, length and amount and clashes with no record of the array. -/
theorem addBoat_added_detail (u : Scanned) (boats : List Boat) (csvLine : List Nat)
    (boats' : List Boat) (h : addBoat u boats csvLine = some (boats', AddOutcome.added)) :
    boats.length < MAX_BOATS ∧ checkCSV csvLine = 1 ∧ (sscanfBoat u csvLine).length ≤ 100 ∧
    ∃ info : Info,
      boats' = insertBoat boats ⟨(sscanfBoat u csvLine).name, (sscanfBoat u csvLine).length,
        info, (sscanfBoat u csvLine).amountOwed⟩ ∧
      ∀ a ∈ boats, ¬ Clash a ⟨(sscanfBoat u csvLine).name, (sscanfBoat u csvLine).length,
        info, (sscanfBoat u csvLine).amountOwed⟩ := by
  unfold addBoat at h
  have keep : ∀ (o' : AddOutcome) (P : Prop), o' ≠ AddOutcome.added →
      some (boats, o') = some (boats', AddOutcome.added) → P := by
    intro o' P ho' e
    simp only [Option.some.injEq, Prod.mk.injEq] at e
    exact absurd e.2 ho'
  by_cases h1 : boats.length ≥ MAX_BOATS
  · rw [if_pos h1] at h; exact keep _ _ (by decide) h
  rw [if_neg h1] at h
  by_cases h2 : checkCSV csvLine ≠ 1
  · rw [if_pos h2] at h; exact keep _ _ (by decide) h
  rw [if_neg h2] at h
  have h2' : checkCSV csvLine = 1 := not_not.1 h2
  dsimp only at h
  split at h
  · exact keep _ _ (by decide) h
  next hname =>
  split at h
  · exact keep _ _ (by decide) h
  next hlen =>
  have hlen' : (sscanfBoat u csvLine).length ≤ 100 := by
    simpa [MAX_BOAT_LENGTH] using hlen
  have hname' : ∀ a ∈ boats, ¬ equalIgnoringCase a.name (sscanfBoat u csvLine).name := by
    intro a ha e
    apply hname
    rw [List.any_eq_true]
    exact ⟨a, ha, by simpa using (strcasecmp_eq_zero_iff _ _).2 e⟩
  have fin : ∀ info : Info,
      (∀ a ∈ boats, ¬ samePayload a.info info) →
      some (insertBoat boats ⟨(sscanfBoat u csvLine).name, (sscanfBoat u csvLine).length, info,
        (sscanfBoat u csvLine).amountOwed⟩, AddOutcome.added) =
        some (boats', AddOutcome.added) →
      boats.length < MAX_BOATS ∧ checkCSV csvLine = 1 ∧ (sscanfBoat u csvLine).length ≤ 100 ∧
      ∃ info : Info,
        boats' = insertBoat boats ⟨(sscanfBoat u csvLine).name, (sscanfBoat u csvLine).length,
          info, (sscanfBoat u csvLine).amountOwed⟩ ∧
        ∀ a ∈ boats, ¬ Clash a ⟨(sscanfBoat u csvLine).name, (sscanfBoat u csvLine).length,
          info, (sscanfBoat u csvLine).amountOwed⟩ := by
    intro info hp e
    simp only [Option.some.injEq, Prod.mk.injEq, and_true] at e
    refine ⟨Nat.lt_of_not_le h1, h2', hlen', info, e.symm, ?_⟩
    intro a ha hc
    rcases hc with hc | hc
    · exact hname' a ha hc
    · exact hp a ha hc
  split at h
  · split at h
    · exact keep _ _ (by decide) h
    split at h
    · exact keep _ _ (by decide) h
    next htaken =>
    refine fin _ ?_ h
    intro a ha hs
    apply htaken
    rw [List.any_eq_true]
    refine ⟨a, ha, ?_⟩
    unfold isSlip
    cases hi : a.info <;> rw [hi] at hs <;> simp only [samePayload] at hs
    simpa using hs
  split at h
  · split at h
    · exact keep _ _ (by decide) h
    split at h
    · exact keep _ _ (by decide) h
    next hrange htaken =>
    refine fin _ ?_ h
    intro a ha hs
    apply htaken
    rw [List.any_eq_true]
    refine ⟨a, ha, ?_⟩
    unfold isBay
    cases hi : a.info <;> rw [hi] at hs <;> simp only [samePayload] at hs
    simp only [beq_iff_eq]
    exact hs
  split at h
  · split at h
    · exact keep _ _ (by decide) h
    split at h
    · exact keep _ _ (by decide) h
    next htaken =>
    split at h
    · exact absurd h (by simp)
    refine fin _ ?_ h
    intro a ha hs
    apply htaken
    rw [List.any_eq_true]
    refine ⟨a, ha, ?_⟩
    unfold isTag
    cases hi : a.info <;> rw [hi] at hs <;> simp only [samePayload] at hs
    simp only [beq_iff_eq, strcmp_eq_zero_iff]
    rw [hs, cstr_cstr]
  split at h
  · split at h
    · exact keep _ _ (by decide) h
    split at h
    · exact keep _ _ (by decide) h
    next htaken =>
    refine fin _ ?_ h
    intro a ha hs
    apply htaken
    rw [List.any_eq_true]
    refine ⟨a, ha, ?_⟩
    unfold isStorage
    cases hi : a.info <;> rw [hi] at hs <;> simp only [samePayload] at hs
    simpa using hs
  exact keep _ _ (by decide) h

/-! ## Capacity, line shape, uniqueness, length -/

/-- C13. A store of at most 120 records has at most 120 records after
`addBoat` on any line, and on a store of exactly 120 records `addBoat` leaves
the sequence of records as it is, for every line, a fully valid one
included. -/
theorem addBoat_capacity :
    (∀ (u : Scanned) (boats boats' : List Boat) (csvLine : List Nat) (o : AddOutcome),
      boats.length ≤ 120 → addBoat u boats csvLine = some (boats', o) → boats'.length ≤ 120) ∧
    (∀ (u : Scanned) (boats : List Boat) (csvLine : List Nat), boats.length = 120 →
      addBoat u boats csvLine = some (boats, AddOutcome.full)) ∧
    fullStore.length = 120 ∧
    addBoat zeroed fullStore (str "Zoe,20,slip,1,0") = some (fullStore, AddOutcome.full) := by
  refine ⟨?_, ?_, by decide, ?_⟩
  · intro u boats boats' csvLine o hle h
    rcases addBoat_cases u boats csvLine boats' o h with ⟨rfl, _⟩ | ⟨_, hlt, _, info, rfl⟩
    · exact hle
    · unfold insertBoat
      rw [(sortBoats_spec _).1]
      simp only [MAX_BOATS] at hlt
      simp only [List.length_append, List.length_singleton]
      omega
  · intro u boats csvLine h
    unfold addBoat
    rw [if_pos (by simp only [MAX_BOATS]; omega)]
  · unfold addBoat
    rw [if_pos (by decide)]

theorem addBoat_capacity_witness :
    addBoat stale fullStore (str "Zoe,20,slip,1,0") = some (fullStore, AddOutcome.full) :=
  addBoat_capacity.2.1 stale fullStore (str "Zoe,20,slip,1,0") (by decide)

theorem samePayload_symm (i j : Info) (h : samePayload i j) : samePayload j i := by
  cases i <;> cases j <;> simp only [samePayload] at h ⊢ <;> exact h.symm

theorem clash_symm (a b : Boat) (h : Clash a b) : Clash b a := by
  rcases h with h | h
  · exact Or.inl (equalIgnoringCase_symm _ _ h)
  · exact Or.inr (samePayload_symm _ _ h)

/-- C14. If no two records of the store have equal names ignoring letter
case and no two records of the same kind share a payload, then the same holds
after `addBoat` on any line and after `removeBoat` on any name. -/
theorem uniqueness_invariant :
    (∀ (u : Scanned) (boats boats' : List Boat) (csvLine : List Nat) (o : AddOutcome),
      Unique boats → addBoat u boats csvLine = some (boats', o) → Unique boats') ∧
    (∀ (boats : List Boat) (name : List Nat), Unique boats →
      Unique (removeBoat boats name).1) := by
  constructor
  · intro u boats boats' csvLine o hu h
    rcases addBoat_cases u boats csvLine boats' o h with ⟨rfl, _⟩ | ⟨rfl, _⟩
    · exact hu
    · obtain ⟨_, _, _, info, rfl, hno⟩ := addBoat_added_detail u boats csvLine boats' h
      unfold Unique insertBoat
      have hsym : Symmetric (fun a b : Boat => ¬ Clash a b) :=
        fun a b hab hba => hab (clash_symm _ _ hba)
      rw [(sortBoats_spec _).2.1.pairwise_iff (fun {a b} h => hsym h), List.pairwise_append]
      refine ⟨hu, List.pairwise_singleton _ _, ?_⟩
      intro a ha b hb
      simp only [List.mem_singleton] at hb
      subst hb
      exact hno a ha
  · intro boats name hu
    rcases findBoatIndex_range boats name with e | ⟨i, _, e⟩
    · rw [removeBoat_not_found boats name e]; exact hu
    · rw [(removeBoat_found boats name i e).2]
      exact List.Pairwise.sublist (List.eraseIdx_sublist boats i) hu

theorem uniqueness_invariant_witness :
    Unique [betty, jake] ∧
    addBoat stale [betty, jake] (str "Nemo,20,land,b,5") =
      some ([betty, jake, ⟨str "Nemo", 20, Info.bayLetter 98, 5⟩], AddOutcome.added) ∧
    Unique [betty, jake, ⟨str "Nemo", 20, Info.bayLetter 98, 5⟩] :=
  ⟨by decide, by decide!,
    uniqueness_invariant.1 stale [betty, jake] _ (str "Nemo,20,land,b,5") AddOutcome.added
      (by decide) (by decide!)⟩

/-- C15, on the code. A record that `addBoat` inserts has the scanned length,
and that length is at most 100; nothing bounds it from below. -/
theorem addBoat_length_bound (u : Scanned) (boats boats' : List Boat) (csvLine : List Nat)
    (h : addBoat u boats csvLine = some (boats', AddOutcome.added)) :
    (sscanfBoat u csvLine).length ≤ 100 ∧
    ∃ b : Boat, b.length = (sscanfBoat u csvLine).length ∧ boats'.Perm (boats ++ [b]) := by
  obtain ⟨_, _, hlen, info, rfl, _⟩ := addBoat_added_detail u boats csvLine boats' h
  exact ⟨hlen, _, rfl, (sortBoats_spec _).2.1⟩

theorem addBoat_length_bound_witness :
    addBoat stale [betty] (str "Nemo,100,land,b,5") =
      some ([betty, ⟨str "Nemo", 100, Info.bayLetter 98, 5⟩], AddOutcome.added) ∧
    (sscanfBoat stale (str "Nemo,100,land,b,5")).length ≤ 100 ∧
    ∃ b : Boat, b.length = (sscanfBoat stale (str "Nemo,100,land,b,5")).length ∧
      [betty, ⟨str "Nemo", 100, Info.bayLetter 98, 5⟩].Perm ([betty] ++ [b]) :=
  ⟨by decide!, addBoat_length_bound stale [betty] _ (str "Nemo,100,land,b,5") (by decide!)⟩

/-- C15 as stated fails: the lines `Bob,0,slip,5,0` and `Bob,-7,slip,5,0` are
accepted and the store then holds a record of length 0, respectively -7. -/
theorem addBoat_accepts_length_zero :
    (∀ u : Scanned, addBoat u [] (str "Bob,0,slip,5,0") =
      some ([⟨str "Bob", 0, Info.slipNumber 5, 0⟩], AddOutcome.added)) ∧
    (∀ u : Scanned, addBoat u [] (str "Bob,-7,slip,5,0") =
      some ([⟨str "Bob", -7, Info.slipNumber 5, 0⟩], AddOutcome.added)) := by
  constructor
  · intro u
    have hs : sscanfBoat u (str "Bob,0,slip,5,0") = ⟨str "Bob", 0, str "slip", str "5", 0⟩ := by
      with_unfolding_all rfl
    unfold addBoat
    rw [hs]
    decide!
  · intro u
    have hs : sscanfBoat u (str "Bob,-7,slip,5,0") = ⟨str "Bob", -7, str "slip", str "5", 0⟩ := by
      with_unfolding_all rfl
    unfold addBoat
    rw [hs]
    decide!

/-- C18. `checkCSV` returns 1 exactly when the line holds exactly four commas
and -1 otherwise, and `addBoat` leaves the store unchanged on every line
whose number of commas is not four. -/
theorem checkCSV_four_commas :
    (∀ csvLine : List Nat, checkCSV csvLine = 1 ↔ (cstr csvLine).count 44 = 4) ∧
    (∀ csvLine : List Nat, (cstr csvLine).count 44 ≠ 4 → checkCSV csvLine = -1) ∧
    (∀ (u : Scanned) (boats : List Boat) (csvLine : List Nat), (cstr csvLine).count 44 ≠ 4 →
      ∃ o, o ≠ AddOutcome.added ∧ addBoat u boats csvLine = some (boats, o)) ∧
    checkCSV (str "Marie,35,slip,12,0") = 1 ∧ checkCSV (str "Marie,35,slip,12") = -1 ∧
    checkCSV (str "Marie,35,slip,12,0,") = -1 := by
  have hc : ∀ csvLine : List Nat,
      ((cstr csvLine).filter (fun c => c == COMMA)).length = (cstr csvLine).count 44 := by
    intro csvLine
    rw [List.count_eq_countP, List.countP_eq_length_filter]
    congr 1
  refine ⟨?_, ?_, ?_, by decide, by decide, by decide⟩
  · intro csvLine
    unfold checkCSV
    rw [hc]
    split_ifs with h
    · simp [h]
    · simp [h]
  · intro csvLine h
    unfold checkCSV
    rw [hc, if_neg h]
  · intro u boats csvLine h
    unfold addBoat
    by_cases h1 : boats.length ≥ MAX_BOATS
    · rw [if_pos h1]; exact ⟨_, by decide, rfl⟩
    · rw [if_neg h1, if_pos]
      · exact ⟨_, by decide, rfl⟩
      · unfold checkCSV
        rw [hc, if_neg h]
        decide

/-! ## Sortedness as an invariant -/

theorem sortedByName_iff_chain (bs : List Boat) :
    SortedByName bs ↔ List.Chain' (fun a b : Boat => strcasecmp a.name b.name ≤ 0) bs := by
  induction bs with
  | nil => simp [SortedByName]
  | cons a rest ih =>
    cases rest with
    | nil => simp [SortedByName]
    | cons b rest => rw [SortedByName, List.chain'_cons, ih]

theorem sortBoats_sorted (bs : List Boat) : SortedByName (sortBoats bs) := by
  rw [sortedByName_iff_chain, List.chain'_iff_get]
  intro k hk
  exact sortBoats_adjacent _ k (by omega)

/-- Sortedness depends on the sequence of names only. -/
theorem sortedByName_iff_names (bs : List Boat) :
    SortedByName bs ↔ List.Chain' (fun x y : List Nat => strcasecmp x y ≤ 0) (bs.map Boat.name) := by
  rw [sortedByName_iff_chain, List.chain'_map]

theorem sortedByName_of_names_eq (bs cs : List Boat) (h : cs.map Boat.name = bs.map Boat.name)
    (hs : SortedByName bs) : SortedByName cs := by
  rw [sortedByName_iff_names] at hs ⊢
  rw [h]; exact hs

theorem sortedByName_sublist (bs cs : List Boat) (h : cs.Sublist bs) (hs : SortedByName bs) :
    SortedByName cs := by
  rw [sortedByName_iff_chain] at hs ⊢
  haveI : IsTrans Boat (fun a b : Boat => strcasecmp a.name b.name ≤ 0) :=
    ⟨fun a b c h1 h2 => strcasecmp_trans _ _ _ h1 h2⟩
  rw [List.chain'_iff_pairwise] at hs ⊢
  exact hs.sublist h

/-- C19. A store sorted by name, letter case ignored, is still sorted after
`removeBoat` on any name, after `newMonth`, after `acceptPayment` on any index
and amount, and after `addBoat` on any line, accepted or rejected. -/
theorem sortedness_invariant :
    (∀ (boats : List Boat) (name : List Nat), SortedByName boats →
      SortedByName (removeBoat boats name).1) ∧
    (∀ boats : List Boat, SortedByName boats → SortedByName (newMonth boats)) ∧
    (∀ (boats boats' : List Boat) (index : Nat) (amount : Dbl) (o : PayOutcome),
      SortedByName boats → acceptPayment boats index amount = some (boats', o) →
      SortedByName boats') ∧
    (∀ (u : Scanned) (boats boats' : List Boat) (csvLine : List Nat) (o : AddOutcome),
      SortedByName boats → addBoat u boats csvLine = some (boats', o) →
      SortedByName boats') := by
  refine ⟨?_, ?_, ?_, ?_⟩
  · intro boats name hs
    rcases findBoatIndex_range boats name with e | ⟨i, _, e⟩
    · rw [removeBoat_not_found boats name e]; exact hs
    · rw [(removeBoat_found boats name i e).2]
      exact sortedByName_sublist _ _ (List.eraseIdx_sublist boats i) hs
  · intro boats hs
    apply sortedByName_of_names_eq boats _ _ hs
    unfold newMonth
    rw [List.map_map]
    rfl
  · intro boats boats' index amount o hs h
    unfold acceptPayment at h
    cases hb : boats[index]? with
    | none => rw [hb] at h; exact absurd h (by simp)
    | some b =>
      rw [hb] at h
      simp only at h
      split_ifs at h
      · simp only [Option.some.injEq, Prod.mk.injEq] at h
        rw [← h.1]; exact hs
      · simp only [Option.some.injEq, Prod.mk.injEq] at h
        rw [← h.1]
        apply sortedByName_of_names_eq boats _ _ hs
        apply List.ext_getElem?
        intro k
        simp only [List.getElem?_map, List.getElem?_set]
        by_cases hk : index = k
        · subst hk
          rw [if_pos rfl, hb]
          have hlt : index < boats.length := by
            by_contra hc
            rw [List.getElem?_eq_none (by omega)] at hb
            exact absurd hb (by simp)
          rw [if_pos hlt]
          rfl
        · rw [if_neg hk]
  · intro u boats boats' csvLine o hs h
    rcases addBoat_cases u boats csvLine boats' o h with ⟨rfl, _⟩ | ⟨_, _, _, info, rfl⟩
    · exact hs
    · exact sortBoats_sorted _

theorem sortedness_invariant_witness :
    SortedByName [betty, jake, zed] ∧
    SortedByName (removeBoat [betty, jake, zed] (str "jake")).1 ∧
    SortedByName (newMonth [betty, jake, zed]) :=
  ⟨by decide, sortedness_invariant.1 [betty, jake, zed] (str "jake") (by decide),
    sortedness_invariant.2.1 [betty, jake, zed] (by decide)⟩

/-! ## Termination and bounds of `quickSortBoats` -/

theorem partitionLoopLog_eq (pivot : Boat) (low high : Int) (n : Nat) :
    ∀ (bs : List Boat) (i j : Int),
      (partitionLoopLog pivot low high n bs i j).1 = (partitionLoop pivot n bs i j).1 ∧
      (partitionLoopLog pivot low high n bs i j).2.1 = (partitionLoop pivot n bs i j).2 := by
  induction n with
  | zero => intro bs i j; exact ⟨rfl, rfl⟩
  | succ n ih =>
    intro bs i j
    simp only [partitionLoopLog, partitionLoop]
    split_ifs
    · exact ih _ _ _
    · exact ih _ _ _

/-- Every access of the loop is at an index in `low .. high - 1`. -/
theorem partitionLoopLog_within (pivot : Boat) (low high : Int) (n : Nat) :
    ∀ (bs : List Boat) (i j : Int), low - 1 ≤ i → i < j → j + n = high →
      ∀ e ∈ (partitionLoopLog pivot low high n bs i j).2.2,
        e.isPivot = false ∧ e.low = low ∧ e.high = high ∧ low ≤ e.index ∧ e.index < high := by
  induction n with
  | zero => intro bs i j _ _ _ e he; simp [partitionLoopLog] at he
  | succ n ih =>
    intro bs i j hi hij hj e he
    push_cast at hj
    simp only [partitionLoopLog] at he
    split_ifs at he
    · simp only [List.mem_cons] at he
      rcases he with rfl | rfl | rfl | he
      · exact ⟨rfl, rfl, rfl, by simp only; omega, by simp only; omega⟩
      · exact ⟨rfl, rfl, rfl, by simp only; omega, by simp only; omega⟩
      · exact ⟨rfl, rfl, rfl, by simp only; omega, by simp only; omega⟩
      · exact ih _ (i + 1) (j + 1) (by omega) (by omega) (by omega) e he
    · simp only [List.mem_cons] at he
      rcases he with rfl | he
      · exact ⟨rfl, rfl, rfl, by simp only; omega, by simp only; omega⟩
      · exact ih _ i (j + 1) hi (by omega) (by omega) e he

/-- With fuel at least `high - low` the recursion ends, the array it returns
is the one `quickSortBoatsAux` computes, and every recorded index lies within
the bounds of the call that made it, which lie within `low .. high`. -/
theorem quickSortBoatsLog_spec (fuel : Nat) :
    ∀ (bs : List Boat) (low high : Int), 0 ≤ low → high < bs.length → high - low ≤ fuel →
      ∃ t : List Event,
        quickSortBoatsLog fuel bs low high = some (quickSortBoatsAux (fuel + 1) bs low high, t) ∧
        ∀ e ∈ t, e.Within low high := by
  induction fuel with
  | zero =>
    intro bs low high _ _ hf
    refine ⟨[], ?_, by simp⟩
    simp only [quickSortBoatsLog, quickSortBoatsAux]
    rw [if_pos (by push_cast at hf; omega), if_pos (by push_cast at hf; omega)]
  | succ fuel ih =>
    intro bs low high hlow hlen hf
    simp only [quickSortBoatsLog]
    rw [quickSortBoatsAux]
    by_cases hc : low ≥ high
    · rw [if_pos hc, if_pos hc]; exact ⟨[], rfl, by simp⟩
    · rw [if_neg hc, if_neg hc]
      obtain ⟨p1, p2, p3, _⟩ :=
        partitionLoop_spec (bs.getD high.toNat default) low high (high - low).toNat bs
          (low - 1) low hlow (le_refl _) (by omega) (by omega) hlen
          (fun k h1 h2 => by exfalso; omega) (fun k h1 h2 => by exfalso; omega)
      have hw := partitionLoopLog_within (bs.getD high.toNat default) low high
        (high - low).toNat bs (low - 1) low (le_refl _) (by omega) (by omega)
      obtain ⟨e1, e2⟩ := partitionLoopLog_eq (bs.getD high.toNat default) low high
        (high - low).toNat bs (low - 1) low
      generalize partitionLoopLog (bs.getD high.toNat default) low high (high - low).toNat bs
        (low - 1) low = rl at hw e1 e2 ⊢
      obtain ⟨b1', i', tl⟩ := rl
      simp only at hw e1 e2 ⊢
      subst e1 e2
      generalize partitionLoop (bs.getD high.toNat default) (high - low).toNat bs (low - 1) low
        = r at p1 p2 p3 ⊢
      obtain ⟨b1, i⟩ := r
      simp only at p1 p2 p3 hw ⊢
      have l2 : (swapBoats b1 (i + 1).toNat high.toNat).length = bs.length := by
        rw [swapBoats_length, p1]
      push_cast at hf
      obtain ⟨t1, h1, w1⟩ := ih (swapBoats b1 (i + 1).toNat high.toNat) low (i + 1 - 1) hlow
        (by omega) (by omega)
      have l3 := (quickSortBoatsAux_spec (fuel + 1) (swapBoats b1 (i + 1).toNat high.toNat) low
        (i + 1 - 1) hlow (by omega) (by omega)).1
      obtain ⟨t2, h2, w2⟩ := ih (quickSortBoatsAux (fuel + 1)
        (swapBoats b1 (i + 1).toNat high.toNat) low (i + 1 - 1)) (i + 1 + 1) high (by omega)
        (by omega) (by omega)
      rw [h1]
      simp only
      rw [h2]
      simp only
      refine ⟨_, rfl, ?_⟩
      intro e he
      simp only [List.mem_cons, List.mem_append] at he
      rcases he with (rfl | he) | rfl | rfl | rfl | he | he
      · exact ⟨by simp only; omega, le_refl _, le_refl _, le_refl _⟩
      · obtain ⟨_, a, b, c, d⟩ := hw e he
        exact ⟨by omega, by omega, by omega, by omega⟩
      · exact ⟨by simp only; omega, by simp only; omega, le_refl _, le_refl _⟩
      · exact ⟨by simp only; omega, le_refl _, le_refl _, le_refl _⟩
      · exact ⟨by simp only; omega, by simp only; omega, le_refl _, le_refl _⟩
      · obtain ⟨a, b, c, d⟩ := w1 e he
        exact ⟨a, b, c, by omega⟩
      · obtain ⟨a, b, c, d⟩ := w2 e he
        exact ⟨a, b, by omega, d⟩

theorem getElem?_eq_of_getD_eq (l1 l2 : List Boat) (k : Nat) (hl : l1.length = l2.length)
    (h : l1.getD k default = l2.getD k default) : l1[k]? = l2[k]? := by
  by_cases hk : k < l1.length
  · have hk2 : k < l2.length := by omega
    simp only [List.getD_eq_getElem?_getD, List.getElem?_eq_getElem hk,
      List.getElem?_eq_getElem hk2, Option.getD_some] at h
    rw [List.getElem?_eq_getElem hk, List.getElem?_eq_getElem hk2, h]
  · rw [List.getElem?_eq_none (by omega), List.getElem?_eq_none (by omega)]

/-- C20. For every array and all indices with `0 ≤ low` and
`high < boatCount`, `quickSortBoats(low, high)` terminates: a recursion depth
of `high - low` is enough, whatever the names, equal ones included.  Every
array access of every nested call is at an index inside the bounds of that
call, every pivot index lies inside the bounds of its call, and all these
bounds lie in `low .. high`.  The result is a permutation of the input with
the same length, and the positions outside `low .. high` keep their element.
A call with `low ≥ high` returns at once without touching the array, as
`sortBoats` on an empty store does with `high = -1`. -/
theorem quickSortBoats_terminates :
    (∀ (boats : List Boat) (low high : Int), 0 ≤ low → high < boats.length →
      ∃ t : List Event,
        quickSortBoatsLog (high - low).toNat boats low high =
          some (quickSortBoats boats low high, t) ∧
        (∀ e ∈ t, e.Within low high) ∧
        (quickSortBoats boats low high).Perm boats ∧
        (quickSortBoats boats low high).length = boats.length ∧
        ∀ k : Nat, ((k : Int) < low ∨ high < k) →
          (quickSortBoats boats low high)[k]? = boats[k]?) ∧
    (∀ (boats : List Boat) (low high : Int), low ≥ high →
      quickSortBoatsLog 0 boats low high = some (boats, []) ∧
      quickSortBoats boats low high = boats) ∧
    sortBoats [] = [] ∧
    quickSortBoatsLog 1 [jake, betty] 0 1 =
      some ([betty, jake], [⟨false, 0, 1, 1⟩, ⟨false, 0, 0, 1⟩, ⟨false, 0, 0, 1⟩,
        ⟨false, 0, 1, 1⟩, ⟨true, 0, 0, 1⟩]) := by
  refine ⟨?_, ?_, by decide, by decide⟩
  · intro boats low high hlow hlen
    obtain ⟨t, ht, hw⟩ := quickSortBoatsLog_spec (high - low).toNat boats low high hlow hlen
      (by omega)
    have hq : quickSortBoatsAux ((high - low).toNat + 1) boats low high =
        quickSortBoats boats low high := by
      unfold quickSortBoats
      by_cases hc : low ≤ high
      · have : (high - low + 1).toNat = (high - low).toNat + 1 := by omega
        rw [this]
      · have e1 : (high - low + 1).toNat = 0 := by omega
        have e2 : (high - low).toNat = 0 := by omega
        rw [e1, e2]
        simp only [quickSortBoatsAux]
        rw [if_pos (by omega)]
    obtain ⟨s1, s2, _, s4, _⟩ := quickSortBoatsAux_spec ((high - low).toNat + 1) boats low high
      hlow hlen (by push_cast; omega)
    rw [hq] at ht s1 s2 s4
    refine ⟨t, ht, hw, s4, s1, ?_⟩
    intro k hk
    exact getElem?_eq_of_getD_eq _ _ k s1 (s2 k hk)
  · intro boats low high h
    constructor
    · simp only [quickSortBoatsLog]
      rw [if_pos h]
    · unfold quickSortBoats
      cases (high - low + 1).toNat with
      | zero => rfl
      | succ n =>
        simp only [quickSortBoatsAux]
        rw [if_pos h]

theorem quickSortBoats_terminates_witness :
    ∃ t : List Event,
      quickSortBoatsLog ((2 : Int) - 0).toNat [zed, jake, betty] 0 2 =
        some (quickSortBoats [zed, jake, betty] 0 2, t) ∧
      (∀ e ∈ t, e.Within 0 2) ∧
      (quickSortBoats [zed, jake, betty] 0 2).Perm [zed, jake, betty] ∧
      (quickSortBoats [zed, jake, betty] 0 2).length = [zed, jake, betty].length ∧
      ∀ k : Nat, ((k : Int) < 0 ∨ (2 : Int) < k) →
        (quickSortBoats [zed, jake, betty] 0 2)[k]? = [zed, jake, betty][k]? :=
  quickSortBoats_terminates.1 [zed, jake, betty] 0 2 (by decide) (by decide)

/-! ## The sign of the amount owed -/

/-- The reading loop adds one record per line until the array is full. -/
theorem loadLines_length (g : Nat → Scanned × Info) (lines : List (List Nat)) :
    ∀ boats boats' : List Boat, boats.length ≤ 120 →
      loadLines g lines boats = some boats' →
      boats'.length = min (boats.length + lines.length) 120 := by
  induction lines with
  | nil =>
    intro boats boats' hle h
    simp only [loadLines, Option.some.injEq] at h
    subst h
    simp only [List.length_nil, Nat.add_zero]
    omega
  | cons line rest ih =>
    intro boats boats' hle h
    simp only [loadLines, MAX_BOATS] at h
    by_cases hfull : boats.length ≥ 120
    · rw [if_pos hfull] at h
      simp only [Option.some.injEq] at h
      subst h
      simp only [List.length_cons]
      omega
    · rw [if_neg hfull] at h
      cases hb : loadBoat (g boats.length).1 (g boats.length).2 line with
      | none => rw [hb] at h; exact absurd h (by simp)
      | some b =>
        rw [hb] at h
        simp only at h
        have hl : (boats ++ [b]).length = boats.length + 1 := by simp
        have := ih (boats ++ [b]) boats' (by omega) h
        rw [this, hl]
        simp only [List.length_cons]
        omega

/-- C17, the code at the failing input.  The file `hello` (one line, no
comma) makes `loadCSV` store one record, although no line of the file has
four commas: `loadCSV` never counts the commas, it scans every line and keeps
the record, whose length, location and amount are whatever the fresh memory
held.  In general the number of records after `loadCSV` is the number of
lines of the file, capped at 120. -/
theorem loadCSV_keeps_malformed_line :
    fileLines (str "hello\n") = [str "hello\n"] ∧
    checkCSV (str "hello\n") = -1 ∧
    (∀ g : Nat → Scanned × Info,
      loadCSV g (str "hello\n") [] =
        some [⟨str "hello\n", (g 0).1.length,
          (if strcmp (g 0).1.type (str "slip") = 0 then Info.slipNumber (atoi (g 0).1.extra)
           else if strcmp (g 0).1.type (str "land") = 0 then
             Info.bayLetter ((g 0).1.extra.headD 0)
           else if strcmp (g 0).1.type (str "trailor") = 0 then
             Info.trailorTag (cstr (g 0).1.extra)
           else if strcmp (g 0).1.type (str "storage") = 0 then
             Info.storageNumber (atoi (g 0).1.extra)
           else (g 0).2),
          (g 0).1.amountOwed⟩] ∨
      loadCSV g (str "hello\n") [] = none) ∧
    loadCSV (fun _ => (zeroed, Info.slipNumber 0)) (str "hello\n") [] =
      some [⟨str "hello\n", 0, Info.slipNumber 0, 0⟩] ∧
    (∀ (g : Nat → Scanned × Info) (file : List Nat) (boats' : List Boat),
      loadCSV g file [] = some boats' →
      boats'.length = min (fileLines file).length 120) := by
  refine ⟨by decide, by decide, ?_, by decide!, ?_⟩
  · intro g
    have hl : fileLines (str "hello\n") = [str "hello\n"] := by decide
    have hs : sscanfBoat (g 0).1 (str "hello\n") = { (g 0).1 with name := str "hello\n" } := by
      with_unfolding_all rfl
    have h1 : ∀ b : Boat, sortBoats [b] = [b] := by
      intro b
      simp [sortBoats, quickSortBoats, quickSortBoatsAux]
    unfold loadCSV
    rw [hl]
    simp only [loadLines]
    rw [if_neg (by decide)]
    simp only [List.length_nil]
    unfold loadBoat
    rw [hs]
    dsimp only
    by_cases c1 : strcmp (g 0).1.type (str "slip") = 0
    · rw [if_pos c1, if_pos c1]; left; simp [loadLines, h1]
    rw [if_neg c1, if_neg c1]
    by_cases c2 : strcmp (g 0).1.type (str "land") = 0
    · rw [if_pos c2, if_pos c2]; left; simp [loadLines, h1]
    rw [if_neg c2, if_neg c2]
    by_cases c3 : strcmp (g 0).1.type (str "trailor") = 0
    · rw [if_pos c3, if_pos c3]
      by_cases c5 : strlen (g 0).1.extra > 15
      · rw [if_pos c5]; right; rfl
      · rw [if_neg c5]; left; simp [loadLines, h1]
    rw [if_neg c3, if_neg c3]
    by_cases c4 : strcmp (g 0).1.type (str "storage") = 0
    · rw [if_pos c4, if_pos c4]; left; simp [loadLines, h1]
    rw [if_neg c4, if_neg c4]; left; simp [loadLines, h1]
  · intro g file boats' h
    unfold loadCSV at h
    simp only [Option.map_eq_some'] at h
    obtain ⟨bs, hbs, rfl⟩ := h
    rw [(sortBoats_spec bs).1, loadLines_length g _ [] bs (by decide) hbs]
    simp

theorem fgetsAux_append (n : Nat) : ∀ file : List Nat,
    (fgetsAux n file).1 ++ (fgetsAux n file).2 = file := by
  induction n with
  | zero => intro file; simp [fgetsAux]
  | succ n ih =>
    intro file
    cases file with
    | nil => simp [fgetsAux]
    | cons c file =>
      simp only [fgetsAux]
      split_ifs
      · simp
      · simp [ih file]

theorem fgetsAux_rest_length (n : Nat) (c : Nat) (file : List Nat) :
    (fgetsAux (n + 1) (c :: file)).2.length ≤ file.length := by
  have h := congrArg List.length (fgetsAux_append n file)
  simp only [List.length_append] at h
  simp only [fgetsAux]
  split_ifs
  · simp
  · simp only; omega

/-- The lines `loadCSV` reads are the whole file cut in pieces: the bound on
their number is never reached. -/
theorem fileLines_flatten (file : List Nat) : (fileLines file).flatten = file := by
  have key : ∀ (fuel : Nat) (f : List Nat), f.length ≤ fuel →
      (fileLinesAux fuel f).flatten = f := by
    intro fuel
    induction fuel with
    | zero =>
      intro f hf
      have : f = [] := List.eq_nil_of_length_eq_zero (by omega)
      subst this; rfl
    | succ fuel ih =>
      intro f hf
      cases f with
      | nil => rfl
      | cons c f =>
        simp only [fileLinesAux, List.flatten_cons]
        rw [ih _ (by
          have : (fgetsAux 255 (c :: f)).2.length ≤ f.length := fgetsAux_rest_length 254 c f
          simp only [List.length_cons] at hf
          omega)]
        exact fgetsAux_append 255 (c :: f)
  exact key file.length file (le_refl _)

/-! ## Adding, then removing -/

theorem perm_cons_eraseIdx (l : List Boat) (i : Nat) (h : i < l.length) :
    l.Perm (l[i] :: l.eraseIdx i) := by
  induction l generalizing i with
  | nil => simp at h
  | cons a t ih =>
    cases i with
    | zero => simp
    | succ i =>
      simp only [List.getElem_cons_succ, List.eraseIdx_cons_succ]
      have := ih i (by simpa using h)
      exact (List.Perm.cons a this).trans (List.Perm.swap _ _ _)

theorem equalIgnoringCase_trans (a b c : List Nat) (h1 : equalIgnoringCase a b)
    (h2 : equalIgnoringCase b c) : equalIgnoringCase a c := Eq.trans h1 h2

/-- After a successful `addBoat`, removing a name equal ignoring letter case to
the stored one takes the new record away: what is left is a permutation of the
store before the add. -/
theorem add_remove_perm (u : Scanned) (boats boats' : List Boat) (csvLine name : List Nat)
    (hadd : addBoat u boats csvLine = some (boats', AddOutcome.added))
    (hname : equalIgnoringCase name (sscanfBoat u csvLine).name) :
    ∃ boats'' : List Boat, removeBoat boats' name = (boats'', RemoveOutcome.removed) ∧
      boats''.Perm boats ∧ boats''.length = boats.length := by
  obtain ⟨_, _, _, info, rfl, hno⟩ := addBoat_added_detail u boats csvLine boats' hadd
  generalize hnew : (⟨(sscanfBoat u csvLine).name, (sscanfBoat u csvLine).length, info,
    (sscanfBoat u csvLine).amountOwed⟩ : Boat) = new at hno
  have hnn : new.name = (sscanfBoat u csvLine).name := by rw [← hnew]
  have hperm : (insertBoat boats new).Perm (boats ++ [new]) := (sortBoats_spec _).2.1
  have hmem : new ∈ insertBoat boats new := hperm.symm.subset (by simp)
  obtain ⟨i, hi, hfind, hrem, _⟩ := removeBoat_of_mem (insertBoat boats new) name new hmem
    (by rw [hnn]; exact equalIgnoringCase_symm _ _ hname)
  obtain ⟨c, hc, hmatch, _⟩ := ((findBoatIndexFrom_spec name (insertBoat boats new) 0).2 i).1
    (by rw [Nat.zero_add]; exact hfind)
  have hci : (insertBoat boats new)[i] = c := by
    rw [List.getElem?_eq_getElem hi] at hc
    exact Option.some.inj hc
  have hcnew : c = new := by
    have hcm : c ∈ boats ++ [new] := hperm.subset (List.getElem?_mem hc)
    rcases List.mem_append.1 hcm with hcb | hcb
    · exfalso
      apply hno c hcb
      left
      rw [hnn]
      exact equalIgnoringCase_trans _ _ _ hmatch hname
    · simpa using hcb
  have h1 : (new :: (insertBoat boats new).eraseIdx i).Perm (new :: boats) := by
    have := perm_cons_eraseIdx (insertBoat boats new) i hi
    rw [hci, hcnew] at this
    exact this.symm.trans (hperm.trans (List.perm_append_singleton new boats))
  have h2 := (List.perm_cons new).1 h1
  exact ⟨_, hrem, h2, h2.length_eq⟩

/-- C12. From a store that is not full and holds neither a boat named Alyssa,
letter case ignored, nor the trailer tag `XY1234`, the call
`addBoat("Alyssa,20,trailor,XY1234,0")` succeeds, the following
`removeBoat("alyssa")` succeeds, and the size is the one before the add.
In general, after any successful add, removing any name equal ignoring letter
case to the name just stored succeeds, takes the new record away (what is left
is a permutation of the store before the add) and brings the size back to the
count before the add. -/
theorem add_then_remove :
    (∀ (u : Scanned) (boats : List Boat), boats.length < MAX_BOATS →
      (∀ b ∈ boats, ¬ equalIgnoringCase b.name (str "Alyssa")) →
      (∀ b ∈ boats, ∀ t, b.info = Info.trailorTag t → cstr t ≠ str "XY1234") →
      ∃ boats' boats'' : List Boat,
        addBoat u boats (str "Alyssa,20,trailor,XY1234,0") = some (boats', AddOutcome.added) ∧
        removeBoat boats' (str "alyssa") = (boats'', RemoveOutcome.removed) ∧
        boats''.Perm boats ∧ boats''.length = boats.length) ∧
    (∀ (u : Scanned) (boats boats' : List Boat) (csvLine name : List Nat),
      addBoat u boats csvLine = some (boats', AddOutcome.added) →
      equalIgnoringCase name (sscanfBoat u csvLine).name →
      ∃ boats'' : List Boat,
        removeBoat boats' name = (boats'', RemoveOutcome.removed) ∧
        boats''.Perm boats ∧ boats''.length = boats.length) := by
  refine ⟨?_, add_remove_perm⟩
  intro u boats hfull hname htag
  have hadd : addBoat u boats (str "Alyssa,20,trailor,XY1234,0") =
      some (insertBoat boats ⟨str "Alyssa", 20, Info.trailorTag (str "XY1234"), 0⟩,
        AddOutcome.added) := by
    unfold addBoat
    rw [sscanfBoat_alyssa, if_neg (by omega), if_neg (by decide)]
    dsimp only
    have h1 : (boats.any fun b => strcasecmp b.name (str "Alyssa") == 0) = false := by
      rw [List.any_eq_false]
      intro b hb
      have := hname b hb
      rw [← strcasecmp_eq_zero_iff] at this
      simpa using this
    have h2 : boats.any (isTag (str "XY1234")) = false := by
      rw [List.any_eq_false]
      intro b hb
      unfold isTag
      cases hi : b.info with
      | trailorTag t =>
        have := htag b hb t hi
        simp only [beq_iff_eq, strcmp_eq_zero_iff]
        exact fun e => this (by rw [e]; decide)
      | _ => simp
    rw [h1, h2]
    rw [if_neg (by decide), if_neg (by decide), if_neg (by decide), if_neg (by decide),
      if_pos (by decide), if_neg (by decide), if_neg (by decide), if_neg (by decide)]
    rfl
  obtain ⟨boats'', h1, h2, h3⟩ := add_remove_perm u boats _ _ (str "alyssa") hadd
    (by rw [sscanfBoat_alyssa]; decide)
  exact ⟨_, boats'', hadd, h1, h2, h3⟩

theorem add_then_remove_witness :
    ∃ boats' boats'' : List Boat,
      addBoat stale [betty, jake] (str "Alyssa,20,trailor,XY1234,0") =
        some (boats', AddOutcome.added) ∧
      removeBoat boats' (str "alyssa") = (boats'', RemoveOutcome.removed) ∧
      boats''.Perm [betty, jake] ∧ boats''.length = [betty, jake].length :=
  add_then_remove.1 stale [betty, jake] (by decide) (by decide) (by
    intro b hb t ht
    simp only [List.mem_cons, List.mem_singleton, List.not_mem_nil, or_false] at hb
    rcases hb with rfl | rfl <;> exact absurd ht (by simp [betty, jake]))

end BoatManagement
